import Mathlib

/-!
# dongwai-api : dictionary cache, forward-maximum-match segmenter, candidate builder

Shallow embedding of

* `internal/pkg/cache/dictionary.go`  (`DictCache`)
* `internal/handler/article.go`       (`AnalyzeArticle`, `buildAnalyzeResp`, `getContext`)
* `internal/model/word.go`            (`Vocab`, `VocabSense`, `SenseExample`)
* `internal/pkg/ai/deepseek.go`       (`Candidate`)

Conventions of the embedding.

* A Go `string` that comes from the request body or from storage is a Lean `String`
  (a sequence of Unicode scalar values); `[]rune(s)` is `s.data`, `string(rs)` is
  `String.mk rs`.  Strings obtained by byte slicing are `List UInt8`.
* A Go `map[K]V` that is only read through `m[k]` is a function `K → Option V`;
  a map used as a set (`map[string]bool`) is a duplicate-free list in insertion order.
* A Go slice is a `List`; `append(xs, x)` is `xs ++ [x]`; `nil` and the empty slice coincide.
* Locks are not modelled: every operation is one atomic step on the cache value.
-/

namespace Dongwai

/-! ## `internal/model/word.go` -/

/-- Row of `sense_examples`. `Furigana` (a JSON blob) is kept as its text. -/
structure SenseExample where
  ID : String
  SenseID : String
  Kanji : String
  Furigana : String
  Def : String
  Audio : String
  deriving DecidableEq, Repr, Inhabited

/-- Row of `vocab_senses` together with its preloaded examples. -/
structure VocabSense where
  ID : String
  Level : String
  VocabID : String
  Reading : String
  Furigana : String
  Pitch : String
  Pos : String
  Def : String
  Audio : String
  Examples : List SenseExample
  deriving DecidableEq, Repr, Inhabited

/-- Row of `vocabs` together with its preloaded senses; the two time stamps are
kept as numbers. -/
structure Vocab where
  ID : String
  Kanji : String
  IsMulti : Bool
  CreatAt : Nat
  UpdataAt : Nat
  Senses : List VocabSense
  deriving DecidableEq, Repr, Inhabited

/-! ## `internal/pkg/cache/dictionary.go` -/

/-- The dictionary cache: cleaned word ↦ identifier list, and the longest key length. -/
structure DictCache where
  mapping : String → Option (List String)
  maxLen : Nat

namespace DictCache

/-- State built by `InitDictCache` before the first `Reload`. -/
def empty : DictCache := { mapping := fun _ => none, maxLen := 0 }

/-- Go `cleanKey`: `strings.ReplaceAll(kanji, "~", "")` then
`strings.ReplaceAll(k, "～", "")`. -/
def cleanKey (kanji : String) : String :=
  let k := String.mk (kanji.data.filter (fun ch => ch != '~'))
  String.mk (k.data.filter (fun ch => ch != '～'))

/-- The loop of `addInternal` that looks for `id` among the identifiers of a key. -/
def idExists (id : String) : List String → Bool
  | [] => false
  | oldID :: rest => if oldID = id then true else idExists id rest

/-- Go `addInternal`. -/
def addInternal (c : DictCache) (kanji id : String) : DictCache :=
  let key := cleanKey kanji
  let old := (c.mapping key).getD []
  let mapping1 : String → Option (List String) :=
    if idExists id old then c.mapping
    else fun k => if k = key then some (old ++ [id]) else c.mapping k
  let rLen := key.data.length
  { mapping := mapping1, maxLen := if rLen > c.maxLen then rLen else c.maxLen }

/-- Go `Reload`; `rows` is what `db.Select("id, kanji").Find` returned, `none` when
the query failed (the cache is then left as it was). -/
def Reload (c : DictCache) (rows : Option (List Vocab)) : DictCache :=
  match rows with
  | none => c
  | some vocabs => vocabs.foldl (fun acc v => addInternal acc v.Kanji v.ID) empty

/-- Go `AddOrUpdate`. -/
def AddOrUpdate (c : DictCache) (kanji id : String) : DictCache :=
  addInternal c kanji id

/-- Go `Remove`. -/
def Remove (c : DictCache) (kanji id : String) : DictCache :=
  let key := cleanKey kanji
  match c.mapping key with
  | none => c
  | some ids =>
    let newIDs := ids.filter (fun existingID => existingID != id)
    if newIDs.length = 0 then
      { c with mapping := fun k => if k = key then none else c.mapping k }
    else
      { c with mapping := fun k => if k = key then some newIDs else c.mapping k }

/-- Go `Get`: the pair `(ids, ok)` as an option. The word is looked up as given. -/
def Get (c : DictCache) (word : String) : Option (List String) :=
  c.mapping word

/-- Go `MaxLen`. -/
def MaxLen (c : DictCache) : Nat :=
  c.maxLen

end DictCache

/-! ## `internal/handler/article.go` : data -/

structure ExampleDetail where
  Kanji : String
  Def : String
  Audio : String
  Furigana : String
  deriving DecidableEq, Repr, Inhabited

structure WordDetail where
  VocabID : String
  SenseID : String
  Level : String
  Reading : String
  Def : String
  Pos : String
  Selected : Bool
  Examples : List ExampleDetail
  deriving DecidableEq, Repr, Inhabited

structure Token where
  Text : String
  IsWord : Bool
  Detail : Option WordDetail
  Candidates : List WordDetail
  deriving DecidableEq, Repr, Inhabited

structure WordResult where
  Text : String
  Detail : WordDetail
  Candidates : List WordDetail
  deriving DecidableEq, Repr, Inhabited

structure AnalyzeResp where
  Tokens : List Token
  VocabList : List WordResult
  deriving DecidableEq, Repr, Inhabited

structure senseOptionRef where
  VocabID : String
  Sense : VocabSense
  deriving DecidableEq, Repr, Inhabited

/-! ## `AnalyzeArticle` : forward maximum matching (lines 80-114) -/

/-- Go `runes[i:j]` for `i ≤ j ≤ len(runes)`. -/
def slice (runes : List Char) (i j : Nat) : List Char :=
  (runes.drop i).take (j - i)

/-- Loop variables of the segmentation loop. -/
structure SegState where
  i : Nat
  tokens : List Token
  tokenVocabIDsMap : Nat → Option (List String)
  allFoundIDs : List String

/-- Adding a key to a `map[string]bool` used as a set. -/
def setInsert (s : List String) (id : String) : List String :=
  if id ∈ s then s else s ++ [id]

/-- The inner loop `for j := limit; j > i; j--`: the first `j` (from `limit` downwards)
for which `Get(string(runes[i:j]))` is found, with the identifiers found. -/
def probe (c : DictCache) (runes : List Char) (i : Nat) : Nat → Option (Nat × List String)
  | 0 => none
  | j + 1 =>
    if j + 1 > i then
      match c.Get (String.mk (slice runes i (j + 1))) with
      | some ids => some (j + 1, ids)
      | none => probe c runes i j
    else none

/-- One iteration of the outer loop `for i := 0; i < length; { ... }` (its body). -/
def fmmStep (c : DictCache) (maxLen : Nat) (runes : List Char) (s : SegState) : SegState :=
  let length := runes.length
  let limit := if s.i + maxLen > length then length else s.i + maxLen
  match probe c runes s.i limit with
  | some (j, ids) =>
    { i := j
      tokens := s.tokens ++ [{ Text := String.mk (slice runes s.i j), IsWord := true,
                               Detail := none, Candidates := [] }]
      tokenVocabIDsMap := fun k => if k = s.tokens.length then some ids else s.tokenVocabIDsMap k
      allFoundIDs := ids.foldl setInsert s.allFoundIDs }
  | none =>
    { s with
      i := s.i + 1
      tokens := s.tokens ++ [{ Text := String.mk (slice runes s.i (s.i + 1)), IsWord := false,
                               Detail := none, Candidates := [] }] }

/-- The outer loop, run for at most `fuel` iterations. -/
def fmmLoop (c : DictCache) (maxLen : Nat) (runes : List Char) : Nat → SegState → SegState
  | 0, s => s
  | fuel + 1, s =>
    if s.i < runes.length then fmmLoop c maxLen runes fuel (fmmStep c maxLen runes s) else s

/-- Lines 75-114 of `AnalyzeArticle`: `maxLen` is read once, then the loop runs from
cursor 0 with empty accumulators. Every iteration advances the cursor, so
`len(runes)` iterations are enough (`segment_cursor`). -/
def segment (c : DictCache) (content : String) : SegState :=
  let maxLen := c.MaxLen
  let runes := content.data
  fmmLoop c maxLen runes runes.length
    { i := 0, tokens := [], tokenVocabIDsMap := fun _ => none, allFoundIDs := [] }

/-! ## `internal/pkg/ai/deepseek.go` : the batch item -/

/-- Go `ai.Candidate`. `Options` holds byte strings: the gloss in an option is cut by
byte index. -/
structure Candidate where
  WordID : String
  WordText : String
  Context : String
  Options : List (List UInt8)
  deriving DecidableEq, Repr, Inhabited

/-! ## `AnalyzeArticle` : oracle candidates (lines 148-190) and `getContext` -/

/-- The bytes of a Go string (UTF-8). -/
def goBytes (s : String) : List UInt8 :=
  s.data.flatMap String.utf8EncodeChar

/-- Go `fmt.Sprintf("token_%d", idx)`. -/
def uniqueKey (idx : Nat) : String :=
  "token_" ++ toString idx

/-- Lines 167-175: the option string of sense `s` of an entry whose `Kanji` is `kanji`.
`len(defShort) > 50` and `defShort[:50]` count bytes. -/
def renderOption (kanji : String) (s : VocabSense) : List UInt8 :=
  let rawWordLabel := "[" ++ kanji ++ "]"
  let defShort := goBytes s.Def
  let defShort := if defShort.length > 50 then defShort.take 50 ++ goBytes "..." else defShort
  goBytes rawWordLabel ++ goBytes " [" ++ goBytes s.Level ++ goBytes "] " ++ goBytes s.Pos
    ++ goBytes " - " ++ defShort

/-- Lines 159-178: the loop over `candidateIDs` filling `currentOptions` and
`optionsText`. -/
def optionsLoop (candidateIDs : List String) (vocabObjMap : String → Option Vocab) :
    List senseOptionRef × List (List UInt8) :=
  candidateIDs.foldl (fun acc vid =>
    match vocabObjMap vid with
    | none => acc
    | some v =>
      v.Senses.foldl (fun acc2 s =>
        (acc2.1 ++ [{ VocabID := vid, Sense := s }], acc2.2 ++ [renderOption v.Kanji s])) acc)
    ([], [])

/-- Go `getContext`. -/
def getContext (tokens : List Token) (currentIdx rangeVal : Nat) : String :=
  let start : Int := (currentIdx : Int) - (rangeVal : Int)
  let start : Int := if start < 0 then 0 else start
  let end_ := if currentIdx + rangeVal > tokens.length then tokens.length else currentIdx + rangeVal
  (List.range' start.toNat (end_ - start.toNat)).foldl
    (fun sb i => sb ++ ((tokens[i]?).map Token.Text).getD "") ""

/-- Lines 150-190: one iteration of `for idx, t := range tokens`, with `p = (idx, t)`. -/
def prepareStep (tokens : List Token) (tokenVocabIDsMap : Nat → Option (List String))
    (vocabObjMap : String → Option Vocab) (aiCandidates : List Candidate) (p : Nat × Token) :
    List Candidate :=
  if !p.2.IsWord then aiCandidates
  else
    let candidateIDs := (tokenVocabIDsMap p.1).getD []
    if candidateIDs.length = 0 then aiCandidates
    else
      let opts := optionsLoop candidateIDs vocabObjMap
      if opts.1.length > 1 then
        aiCandidates ++ [{ WordID := uniqueKey p.1, WordText := p.2.Text,
                           Context := getContext tokens p.1 15, Options := opts.2 }]
      else aiCandidates

/-- Lines 148-190: the batch `aiCandidates` sent to the oracle. -/
def prepareAICandidates (tokens : List Token) (tokenVocabIDsMap : Nat → Option (List String))
    (vocabObjMap : String → Option Vocab) : List Candidate :=
  tokens.enum.foldl (prepareStep tokens tokenVocabIDsMap vocabObjMap) []

/-! ## `buildAnalyzeResp` (lines 237-336) -/

/-- Lines 257-264: the rebuilt option list of a token. -/
def allOptionsOf (candidateIDs : List String) (vocabObjMap : String → Option Vocab) :
    List senseOptionRef :=
  candidateIDs.foldl (fun allOptions vid =>
    match vocabObjMap vid with
    | some v => v.Senses.foldl (fun acc s => acc ++ [{ VocabID := vid, Sense := s }]) allOptions
    | none => allOptions) []

/-- Lines 270-276: `selectedIndex` for the token at `idx` with `n = len(allOptions)`. -/
def selectedIndexOf (aiResult : String → Option Int) (idx n : Nat) : Nat :=
  match aiResult (uniqueKey idx) with
  | some aiIdx => if aiIdx ≥ 0 ∧ aiIdx < (n : Int) then aiIdx.toNat else 0
  | none => 0

/-- Lines 283-291: the examples of one option. -/
def examplesOf (s : VocabSense) : List ExampleDetail :=
  s.Examples.foldl (fun examples ex =>
    examples ++ [{ Kanji := ex.Kanji, Def := ex.Def, Audio := ex.Audio,
                   Furigana := ex.Furigana }]) []

/-- Lines 293-302: the `WordDetail` of one option. -/
def detailOf (opt : senseOptionRef) (isSelected : Bool) : WordDetail :=
  { VocabID := opt.VocabID, SenseID := opt.Sense.ID, Level := opt.Sense.Level,
    Reading := opt.Sense.Reading, Def := opt.Sense.Def, Pos := opt.Sense.Pos,
    Selected := isSelected, Examples := examplesOf opt.Sense }

/-- Lines 278-313: `candidates` and `bestDetail`. -/
def candidatesLoop (allOptions : List senseOptionRef) (selectedIndex : Nat) :
    List WordDetail × Option WordDetail :=
  let r := allOptions.enum.foldl (fun (acc : List WordDetail × Option WordDetail) p =>
      let isSelected := decide (p.1 = selectedIndex)
      let detail := detailOf p.2 isSelected
      (acc.1 ++ [detail], if isSelected then some detail else acc.2)) ([], none)
  if r.2.isNone ∧ r.1.length > 0 then (r.1, r.1.head?) else r

/-- Local variables at the end of one iteration of the token loop. -/
structure Resolved where
  allOptions : List senseOptionRef
  selectedIndex : Nat
  candidates : List WordDetail
  bestDetail : Option WordDetail

/-- Lines 248-313: what one iteration computes for the token `t` at index `idx`;
`none` when the iteration is left by `continue`. -/
def resolve (tokenVocabIDsMap : Nat → Option (List String))
    (vocabObjMap : String → Option Vocab) (aiResult : String → Option Int)
    (idx : Nat) (t : Token) : Option Resolved :=
  if !t.IsWord then none
  else
    let candidateIDs := (tokenVocabIDsMap idx).getD []
    if candidateIDs.length = 0 then none
    else
      let allOptions := allOptionsOf candidateIDs vocabObjMap
      if allOptions.length = 0 then none
      else
        let selectedIndex := selectedIndexOf aiResult idx allOptions.length
        let r := candidatesLoop allOptions selectedIndex
        some { allOptions := allOptions, selectedIndex := selectedIndex,
               candidates := r.1, bestDetail := r.2 }

/-- Go `vocabObjMap[vid].Kanji` (the zero value has the empty `Kanji`). -/
def kanjiOf (vocabObjMap : String → Option Vocab) (vid : String) : String :=
  match vocabObjMap vid with
  | some v => v.Kanji
  | none => ""

/-- Variables of `buildAnalyzeResp` that the token loop updates. -/
structure BuildState where
  finalTokens : List Token
  resultVocabList : List WordResult
  vocabListSet : List String

/-- Lines 315-329: the updates at the end of an iteration. The index expression
`allOptions[selectedIndex]` is in range (`selectedIndexOf_lt`). -/
def commit (vocabObjMap : String → Option Vocab) (st : BuildState) (idx : Nat) (t : Token)
    (r : Resolved) : BuildState :=
  let st1 : BuildState :=
    { st with finalTokens :=
        st.finalTokens.set idx { t with Detail := r.bestDetail, Candidates := r.candidates } }
  match r.bestDetail, r.allOptions[r.selectedIndex]? with
  | some bestDetail, some opt =>
    let selectedVocabText := kanjiOf vocabObjMap opt.VocabID
    if selectedVocabText ∈ st1.vocabListSet then st1
    else
      { st1 with
        resultVocabList := st1.resultVocabList ++
          [{ Text := selectedVocabText, Detail := bestDetail, Candidates := r.candidates }]
        vocabListSet := setInsert st1.vocabListSet selectedVocabText }
  | _, _ => st1

/-- One iteration of `for idx, t := range finalTokens`. -/
def buildStep (tokenVocabIDsMap : Nat → Option (List String))
    (vocabObjMap : String → Option Vocab) (aiResult : String → Option Int)
    (st : BuildState) (idx : Nat) : BuildState :=
  match st.finalTokens[idx]? with
  | none => st
  | some t =>
    match resolve tokenVocabIDsMap vocabObjMap aiResult idx t with
    | none => st
    | some r => commit vocabObjMap st idx t r

/-- Go `buildAnalyzeResp`. -/
def buildAnalyzeResp (tokens : List Token) (tokenVocabIDsMap : Nat → Option (List String))
    (vocabObjMap : String → Option Vocab) (aiResult : String → Option Int) : AnalyzeResp :=
  let st := (List.range tokens.length).foldl (buildStep tokenVocabIDsMap vocabObjMap aiResult)
    { finalTokens := tokens, resultVocabList := [], vocabListSet := [] }
  { Tokens := st.finalTokens, VocabList := st.resultVocabList }

/-! ## `AnalyzeArticle` : the handler -/

/-- Body of a server-sent event. -/
inductive Payload where
  | resp (r : AnalyzeResp)
  | aiResult (m : String → Option Int)

/-- What the handler does to the outside, in order. Response headers are left out. -/
inductive Effect where
  | json (status : Nat) (error : String)
  | dbFind (ids : List String)
  | sse (event : String) (payload : Payload)
  | batchDisambiguate (candidates : List Candidate)

/-- The collaborators of one request: what the hydration query returns for a list of
identifiers, what `ai.BatchDisambiguate` returns for a batch, and whether the request
context is done at the first and at the second checkpoint. -/
structure Env where
  db : List String → List Vocab
  oracle : List Candidate → (String → Option Int)
  done1 : Bool
  done2 : Bool

/-- Lines 140-143: `vocabObjMap[v.ID] = v` for every hydrated row. -/
def vocabObjMapOf (vocabsFull : List Vocab) : String → Option Vocab :=
  vocabsFull.foldl (fun m v => fun k => if k = v.ID then some v else m k) (fun _ => none)

/-- Go `AnalyzeArticle`; `body` is `none` when `ShouldBindJSON` fails, else the
`content` field. The identifiers of the hydration query are listed in the order in
which they were first found. -/
def AnalyzeArticle (cache : DictCache) (env : Env) (body : Option String) : List Effect :=
  match body with
  | none => [Effect.json 400 "请提供文章内容"]
  | some content =>
    let seg := segment cache content
    let tokens := seg.tokens
    if seg.allFoundIDs.length = 0 then
      [Effect.sse "initial" (Payload.resp { Tokens := tokens, VocabList := [] })]
    else
      let ids := seg.allFoundIDs
      let vocabObjMap := vocabObjMapOf (env.db ids)
      let aiCandidates := prepareAICandidates tokens seg.tokenVocabIDsMap vocabObjMap
      let initialResp := buildAnalyzeResp tokens seg.tokenVocabIDsMap vocabObjMap (fun _ => none)
      let sent := [Effect.dbFind ids, Effect.sse "initial" (Payload.resp initialResp)]
      if aiCandidates.length > 0 then
        if env.done1 then sent
        else
          let aiResult := env.oracle aiCandidates
          let sent := sent ++ [Effect.batchDisambiguate aiCandidates]
          if env.done2 then sent
          else sent ++ [Effect.sse "ai_update" (Payload.aiResult aiResult)]
      else sent

/-! ## Specification-level functions for the candidate builder -/

/-- The (identifier, sense) pairs of a matched identifier list: over the identifiers in
order, skipping those absent from the hydration map, each identifier's senses in stored
order. -/
def pairsOf (candidateIDs : List String) (vocabObjMap : String → Option Vocab) :
    List (String × VocabSense) :=
  candidateIDs.flatMap (fun vid =>
    match vocabObjMap vid with
    | some v => v.Senses.map (fun s => (vid, s))
    | none => [])

/-- The candidate that carries identifier `vid` and sense `s`, with the given
`Selected` flag. -/
def candidateOfPair (vid : String) (s : VocabSense) (selected : Bool) : WordDetail :=
  { VocabID := vid, SenseID := s.ID, Level := s.Level, Reading := s.Reading, Def := s.Def,
    Pos := s.Pos, Selected := selected,
    Examples := s.Examples.map (fun ex =>
      { Kanji := ex.Kanji, Def := ex.Def, Audio := ex.Audio, Furigana := ex.Furigana }) }

/-- The token that `buildAnalyzeResp` returns at index `idx` for the input token `t`. -/
def resolvedToken (tokenVocabIDsMap : Nat → Option (List String))
    (vocabObjMap : String → Option Vocab) (aiResult : String → Option Int)
    (idx : Nat) (t : Token) : Token :=
  match resolve tokenVocabIDsMap vocabObjMap aiResult idx t with
  | none => t
  | some r => { t with Detail := r.bestDetail, Candidates := r.candidates }

/-- The summary entry of a returned token: present when the token has a `Detail`; its
text is the `Kanji` of the entry of the selected candidate. -/
def entryOfToken (vocabObjMap : String → Option Vocab) (t : Token) : Option WordResult :=
  t.Detail.map (fun d =>
    { Text := kanjiOf vocabObjMap d.VocabID, Detail := d, Candidates := t.Candidates })

/-- Appending an entry unless its text is already listed. -/
def addEntry (acc : List WordResult) (e : WordResult) : List WordResult :=
  if e.Text ∈ acc.map WordResult.Text then acc else acc ++ [e]

/-- One entry per distinct `Text`, in order of first occurrence, each being the first
entry with that text. -/
def firstOccurrences : List WordResult → List WordResult
  | [] => []
  | e :: rest => e :: (firstOccurrences rest).filter (fun x => decide (x.Text ≠ e.Text))

/-- Tokens as the segmenter builds them: no `Detail`, no `Candidates`. -/
def Fresh (tokens : List Token) : Prop :=
  ∀ t ∈ tokens, t.Detail = none ∧ t.Candidates = []

/-- State of `buildAnalyzeResp` after the first `n` iterations of its token loop. -/
def buildPrefix (tokens : List Token) (tokenVocabIDsMap : Nat → Option (List String))
    (vocabObjMap : String → Option Vocab) (aiResult : String → Option Int) (n : Nat) :
    BuildState :=
  (List.range n).foldl (buildStep tokenVocabIDsMap vocabObjMap aiResult)
    { finalTokens := tokens, resultVocabList := [], vocabListSet := [] }

/-- Token `t` has its selection at index `sel`: its `Detail` is present and is the
candidate at `sel`, and exactly the candidate at `sel` is flagged `Selected`. -/
def SelectedAt (t : Token) (sel : Nat) : Prop :=
  t.Detail.isSome = true ∧ t.Detail = t.Candidates[sel]? ∧
  ∀ (j : Nat) (d : WordDetail), t.Candidates[j]? = some d → d.Selected = decide (j = sel)

/-- Rune cursor at which the `k`-th token of a token list starts: the total
number of characters of the tokens before it. -/
def startCursor (toks : List Token) (k : Nat) : Nat :=
  ((toks.take k).map (fun u => u.Text.length)).sum

/-- A token `t` placed at rune cursor `i` is the longest match there: its text is
`runes[i:i+L]` with `L ≥ 1` its length, that text is a cache key, and no window
`runes[i:i+L2]` with `L < L2 ≤ min(maxLen, remaining)` is a cache key. -/
def LongestMatchAt (c : DictCache) (runes : List Char) (i : Nat) (t : Token) : Prop :=
  0 < t.Text.length ∧ i + t.Text.length ≤ runes.length ∧
  t.Text = String.mk (slice runes i (i + t.Text.length)) ∧
  (c.Get (String.mk (slice runes i (i + t.Text.length)))).isSome = true ∧
  ∀ L2, t.Text.length < L2 → L2 ≤ min c.MaxLen (runes.length - i) →
    c.Get (String.mk (slice runes i (i + L2))) = none

/-- The tokens emitted so far spell the text before the cursor. -/
def Partitioned (runes : List Char) (s : SegState) : Prop :=
  s.i ≤ runes.length ∧ s.tokens.flatMap (fun u => u.Text.data) = runes.take s.i

/-- Invariant behind longest-match priority: every word token emitted so far is the
longest match at its start cursor. -/
def LongestInv (c : DictCache) (runes : List Char) (s : SegState) : Prop :=
  Partitioned runes s ∧
  ∀ (k : Nat) (t : Token), s.tokens[k]? = some t → t.IsWord = true →
    (s.tokens.take k).flatMap (fun u => u.Text.data) = runes.take (startCursor s.tokens k) ∧
    LongestMatchAt c runes (startCursor s.tokens k) t

/-- Word token as the segmenter appends it. -/
def wordTok (text : String) : Token :=
  { Text := text, IsWord := true, Detail := none, Candidates := [] }

/-- Literal token as the segmenter appends it. -/
def litTok (text : String) : Token :=
  { Text := text, IsWord := false, Detail := none, Candidates := [] }

/-- Invariant of the loop on a text none of whose windows is a cache key: one literal
token per character read so far, and nothing recorded as found. -/
def LiteralInv (runes : List Char) (s : SegState) : Prop :=
  s.i ≤ runes.length ∧
  s.tokens = (runes.take s.i).map (fun ch => litTok (String.mk [ch])) ∧
  s.allFoundIDs = [] ∧ ∀ k, s.tokenVocabIDsMap k = none

/-- Invariant of the loop on a concatenation of keys: the cursor sits on a key
boundary and the tokens so far are the word tokens of the keys before it. -/
def KeysInv (keys : List String) (s : SegState) : Prop :=
  ∃ pre post : List String, keys = pre ++ post ∧
    s.i = ((pre.map String.data).flatten).length ∧ s.tokens = pre.map wordTok

/-- Reading of "no cache key shorter than a source key overlaps it": whenever a present
cache key `w` is shorter than a source key `k` of the sequence, no occurrence
`runes[p:p+len(w)]` of `w` in the concatenated text meets the span of `k`. -/
def NoShorterOverlap (c : DictCache) (keys : List String) : Prop :=
  ∀ (pre post : List String) (k w : String) (p : Nat),
    keys = pre ++ k :: post → (c.Get w).isSome = true → w.length < k.length →
    p + w.length ≤ (String.join keys).data.length →
    slice (String.join keys).data p (p + w.length) = w.data →
    ¬ (p < (String.join pre).data.length + k.length ∧ (String.join pre).data.length < p + w.length)

/-- Length `L` is the longest probe length at cursor `i` whose raw window
`runes[i:i+L]` is a cache key, among `1 .. min(maxLen, remaining)`. -/
def RawLongestAt (c : DictCache) (runes : List Char) (i L : Nat) : Prop :=
  0 < L ∧ L ≤ min c.MaxLen (runes.length - i) ∧
  (c.Get (String.mk (slice runes i (i + L)))).isSome = true ∧
  ∀ L2, L < L2 → L2 ≤ min c.MaxLen (runes.length - i) →
    c.Get (String.mk (slice runes i (i + L2))) = none

/-- Length `L` is the longest probe length at cursor `i` whose normalized window
`cleanKey(runes[i:i+L])` is a cache key, among `1 .. min(maxLen, remaining)`. -/
def NormalizedLongestAt (c : DictCache) (runes : List Char) (i L : Nat) : Prop :=
  0 < L ∧ L ≤ min c.MaxLen (runes.length - i) ∧
  (c.Get (DictCache.cleanKey (String.mk (slice runes i (i + L))))).isSome = true ∧
  ∀ L2, L < L2 → L2 ≤ min c.MaxLen (runes.length - i) →
    c.Get (DictCache.cleanKey (String.mk (slice runes i (i + L2)))) = none

/-- What the probe loop decides for the token placed at cursor `i`: the longest raw
window that is a key becomes a word token; with no such window the token is the
one-character literal. -/
def RawProbeAt (c : DictCache) (runes : List Char) (i : Nat) (t : Token) : Prop :=
  (∀ L, RawLongestAt c runes i L → t = wordTok (String.mk (slice runes i (i + L)))) ∧
  ((∀ L, 0 < L → L ≤ min c.MaxLen (runes.length - i) →
      c.Get (String.mk (slice runes i (i + L))) = none) →
    t = litTok (String.mk (slice runes i (i + 1))))

/-- Invariant: every token emitted so far is what the raw probe decides at its cursor. -/
def RawProbeInv (c : DictCache) (runes : List Char) (s : SegState) : Prop :=
  Partitioned runes s ∧
  ∀ (k : Nat) (t : Token), s.tokens[k]? = some t → RawProbeAt c runes (startCursor s.tokens k) t

/-- Invariant of the loop: once a word token has been emitted, some identifier has been
recorded in `allFoundIDs`. -/
def FoundInv (s : SegState) : Prop :=
  (∃ t ∈ s.tokens, t.IsWord = true) → s.allFoundIDs ≠ []

/-! ## Specification-level notions for the cache -/

/-- A mutating call on the cache. -/
inductive CacheOp where
  | reload (rows : Option (List Vocab))
  | addOrUpdate (kanji id : String)
  | remove (kanji id : String)

/-- The cache after one call. -/
def applyOp (c : DictCache) : CacheOp → DictCache
  | CacheOp.reload rows => c.Reload rows
  | CacheOp.addOrUpdate kanji id => c.AddOrUpdate kanji id
  | CacheOp.remove kanji id => c.Remove kanji id

/-- The cache after a finite sequence of calls, starting from the empty cache of
`InitDictCache`. -/
def runOps (ops : List CacheOp) : DictCache :=
  ops.foldl applyOp DictCache.empty

/-- The identifiers observable under key `k` (empty when the key is absent). -/
def idsAt (c : DictCache) (k : String) : List String :=
  (c.Get k).getD []

/-- Every present key maps to a non-empty list without duplicates. -/
def CacheInv (c : DictCache) : Prop :=
  ∀ k ids, c.Get k = some ids → ids ≠ [] ∧ ids.Nodup

/-- Every present key has at most `MaxLen()` characters. -/
def KeysBounded (c : DictCache) : Prop :=
  ∀ k ids, c.Get k = some ids → k.length ≤ c.MaxLen

/-- No present key contains an affix marker. -/
def KeysClean (c : DictCache) : Prop :=
  ∀ k ids, c.Get k = some ids → '~' ∉ k.data ∧ '～' ∉ k.data

/-- Removing every `'~'` and `'～'` from a form. -/
def strip (f : String) : String :=
  String.mk (f.data.filter (fun ch => decide (ch ≠ '~' ∧ ch ≠ '～')))

/-- A cache equal to `Reload(S)`: the result of a successful full reload of snapshot `S`. -/
def reloaded (S : List Vocab) : DictCache :=
  DictCache.empty.Reload (some S)

/-- The (kanji, id) rows of a snapshot. -/
def rowPairs (S : List Vocab) : List (String × String) :=
  S.map (fun v => (v.Kanji, v.ID))

/-- Two caches have the same key set and the same identifier set under every key. -/
def SameContent (c1 c2 : DictCache) : Prop :=
  ∀ k, ((c1.Get k).isSome = true ↔ (c2.Get k).isSome = true) ∧
    ∀ id, id ∈ idsAt c1 k ↔ id ∈ idsAt c2 k

/-! ## `internal/handler/word.go` : cache maintenance -/

/-- The cache call of `CreateWord` (line 153), made after the row was stored. -/
def createMaintenance (c : DictCache) (kanji vocabID : String) : DictCache :=
  c.AddOrUpdate kanji vocabID

/-- The cache calls of `UpdateWord` (lines 266-269): `oldKanji` is the stored form read
before the update, `newKanji` the requested one. -/
def updateMaintenance (c : DictCache) (oldKanji newKanji id : String) : DictCache :=
  let c1 := if oldKanji ≠ newKanji then c.Remove oldKanji id else c
  c1.AddOrUpdate newKanji id

/-- The cache call of `DeleteWord` (line 300): `kanji` is the stored form of the row. -/
def deleteMaintenance (c : DictCache) (kanji id : String) : DictCache :=
  c.Remove kanji id

/-- The context window as the claim words it: the texts of the tokens at positions
`max(0, idx - r)` through `min(len(tokens) - 1, idx + r)` inclusive, concatenated. -/
def contextWindowSpec (tokens : List Token) (idx r : Nat) : String :=
  String.join (((tokens.drop (idx - r)).take
    (min (tokens.length - 1) (idx + r) + 1 - (idx - r))).map Token.Text)

/-- The option string as the claim words it: `"[<kanji>] [<level>] <pos> - <gloss'>"` with
the gloss unchanged when it has at most 50 characters, else its first 50 characters
followed by `"..."`. -/
def renderOptionSpec (kanji : String) (s : VocabSense) : String :=
  "[" ++ kanji ++ "] [" ++ s.Level ++ "] " ++ s.Pos ++ " - " ++
    (if s.Def.length ≤ 50 then s.Def else String.mk (s.Def.data.take 50) ++ "...")

/-- Invariant of the loop: the tokens so far spell the text before the cursor, and none of
them is empty. -/
def PartitionInv (runes : List Char) (s : SegState) : Prop :=
  Partitioned runes s ∧ ∀ t ∈ s.tokens, 0 < t.Text.length

/-! ## Specification-level functions for the handler -/

/-- The oracle calls of a trace, in order, each with its batch. -/
def oracleCalls (trace : List Effect) : List (List Candidate) :=
  trace.filterMap (fun e =>
    match e with
    | Effect.batchDisambiguate candidates => some candidates
    | _ => none)

/-- The names of the server-sent events of a trace, in order. -/
def eventNames (trace : List Effect) : List String :=
  trace.filterMap (fun e =>
    match e with
    | Effect.sse event _ => some event
    | _ => none)

/-- The batch item of the token `p = (idx, t)`: present exactly when `t` is a word token
with strictly more than one hydrated (identifier, sense) pair; keyed `"token_<idx>"`, with
one option string per pair. -/
def batchItemOf (tokens : List Token) (tokenVocabIDsMap : Nat → Option (List String))
    (vocabObjMap : String → Option Vocab) (p : Nat × Token) : Option Candidate :=
  if p.2.IsWord = true ∧ 1 < (pairsOf ((tokenVocabIDsMap p.1).getD []) vocabObjMap).length then
    some { WordID := uniqueKey p.1, WordText := p.2.Text,
           Context := getContext tokens p.1 15,
           Options := (pairsOf ((tokenVocabIDsMap p.1).getD []) vocabObjMap).map
             (fun q => renderOption (kanjiOf vocabObjMap q.1) q.2) }
  else none

/-- The hydration map that the handler builds for a request. -/
def handlerVocabMap (cache : DictCache) (env : Env) (content : String) : String → Option Vocab :=
  vocabObjMapOf (env.db (segment cache content).allFoundIDs)

/-- One item per token with strictly more than one candidate, in token order. -/
def handlerBatch (cache : DictCache) (env : Env) (content : String) : List Candidate :=
  (segment cache content).tokens.enum.filterMap
    (batchItemOf (segment cache content).tokens (segment cache content).tokenVocabIDsMap
      (handlerVocabMap cache env content))

/-! ## `ai.BatchDisambiguate` and `cleanJSON` (deepseek.go lines 47-109, 225-230) -/

/-- Go `message`. `Content` is a byte string: the user prompt embeds the option strings. -/
structure message where
  Role : String
  Content : List UInt8
  deriving DecidableEq, Repr, Inhabited

/-- Go `deepseekReq`. -/
structure deepseekReq where
  Model : String
  Messages : List message
  Stream : Bool
  JsonMode : Bool
  deriving DecidableEq, Repr, Inhabited

/-- Go `deepseekResp`, each choice given by its `Message.Content`, the only field the
code reads. A string decoded by `encoding/json` is valid UTF-8. -/
structure deepseekResp where
  Choices : List String
  deriving DecidableEq, Repr, Inhabited

/-- What `BatchDisambiguate` reads from the configuration and from the libraries it calls.
`newRequest url` tells whether `http.NewRequestWithContext(ctx, "POST", url, body)` returns
a request (`false`: it returns `nil` and an error); `clientDo req` is the reply body of
`client.Do`, `none` when it returns an error (transport failure, the 120 s timeout, a
canceled context); `decode body` is the envelope that `json.NewDecoder(body).Decode` fills,
`none` when it returns an error; `unmarshal content` is the map that
`json.Unmarshal([]byte(content), &resultMap)` leaves in the fresh `resultMap`, paired with
whether it returns an error. -/
structure OracleWorld where
  DEEPSEEK_API_KEY : String
  DEEPSEEK_BASE_URL : String
  newRequest : String → Bool
  clientDo : deepseekReq → Option (List UInt8)
  decode : List UInt8 → Option deepseekResp
  unmarshal : String → (String → Option Int) × Bool

/-- How a call of `BatchDisambiguate` ends: with a run-time panic, or by returning a map
(`none` is Go's `nil` map). -/
inductive BatchOutcome where
  | panic
  | ret (resultMap : Option (String → Option Int))

/-- A call of `BatchDisambiguate`: the requests handed to `client.Do`, and how it ends. -/
structure BatchRun where
  sent : List deepseekReq
  outcome : BatchOutcome

/-- Go `strings.TrimPrefix`. -/
def TrimPrefix (s pre : List Char) : List Char :=
  if pre.isPrefixOf s then s.drop pre.length else s

/-- Go `strings.TrimSuffix`. -/
def TrimSuffix (s suf : List Char) : List Char :=
  if suf.isSuffixOf s then s.take (s.length - suf.length) else s

/-- Go `unicode.IsSpace`. -/
def IsSpace (c : Char) : Bool :=
  c.toNat = 0x09 || c.toNat = 0x0A || c.toNat = 0x0B || c.toNat = 0x0C || c.toNat = 0x0D ||
  c.toNat = 0x20 || c.toNat = 0x85 || c.toNat = 0xA0 || c.toNat = 0x1680 ||
  (0x2000 ≤ c.toNat && c.toNat ≤ 0x200A) || c.toNat = 0x2028 || c.toNat = 0x2029 ||
  c.toNat = 0x202F || c.toNat = 0x205F || c.toNat = 0x3000

/-- Go `strings.TrimSpace`. -/
def TrimSpace (s : List Char) : List Char :=
  ((s.dropWhile IsSpace).reverse.dropWhile IsSpace).reverse

/-- Go `cleanJSON`. -/
def cleanJSON (content : String) : String :=
  let content := TrimPrefix content.data "```json".data
  let content := TrimPrefix content "```".data
  let content := TrimSuffix content "```".data
  String.mk (TrimSpace content)

/-- Lines 55-60: the fixed head of the prompt. -/
def promptHead : String :=
  "你是一位日语词典专家。请根据提供的句子上下文，从选项中识别单词的正确释义。\n" ++
  "特别注意：\n" ++
  "1. 选项中可能包含 [原词] 标记（例如 [～的] 表示接尾辞，[御～] 表示接头辞）。\n" ++
  "2. 请务必分析上下文的语法结构（如前接名词、后接动词等），判断该词是作为独立词、接头辞还是接尾辞使用。\n" ++
  "3. 请仅返回一个 JSON 对象，其中键是 WordID，值是最合适释义的索引（从0开始的整数）。\n\n"

/-- Lines 62-68: the part of the prompt written for one batch item. -/
def promptItem (c : Candidate) : List UInt8 :=
  goBytes ("WordID: " ++ c.WordID ++ "\n单词: " ++ c.WordText ++ "\n上下文: " ++ c.Context ++
    "\n选项:\n") ++
  c.Options.enum.flatMap (fun p => goBytes (toString p.1 ++ ". ") ++ p.2 ++ goBytes "\n") ++
  goBytes "---\n"

/-- Lines 70-78: the request body. -/
def reqBody (candidates : List Candidate) : deepseekReq :=
  { Model := "deepseek-chat",
    Messages := [{ Role := "system", Content := goBytes "你是一个只输出 JSON 的日语助手。" },
                 { Role := "user", Content := goBytes promptHead ++ candidates.flatMap promptItem }],
    Stream := false,
    JsonMode := true }

/-- Go `BatchDisambiguate`. The error of `http.NewRequestWithContext` is discarded, so a
`nil` request is dereferenced by `req.Header.Set`. -/
def BatchDisambiguate (w : OracleWorld) (candidates : List Candidate) : BatchRun :=
  if w.DEEPSEEK_API_KEY = "" ∨ candidates.length = 0 then
    { sent := [], outcome := BatchOutcome.ret none }
  else
    let resultMap : String → Option Int := fun _ => none
    if w.newRequest (w.DEEPSEEK_BASE_URL ++ "/chat/completions") = false then
      { sent := [], outcome := BatchOutcome.panic }
    else
      match w.clientDo (reqBody candidates) with
      | none => { sent := [reqBody candidates], outcome := BatchOutcome.ret none }
      | some body =>
        match w.decode body with
        | none => { sent := [reqBody candidates], outcome := BatchOutcome.ret none }
        | some apiResp =>
          match apiResp.Choices with
          | content :: _ =>
            let content := cleanJSON content
            { sent := [reqBody candidates],
              outcome := BatchOutcome.ret (some (w.unmarshal content).1) }
          | [] => { sent := [reqBody candidates], outcome := BatchOutcome.ret (some resultMap) }

/-! ## Specification-level token key -/

/-- The character of the decimal digit `d`. -/
def decimalDigit (d : Nat) : Char :=
  Char.ofNat (48 + d)

/-- The decimal numeral of `n`, most significant digit first, without leading zeros. -/
def decimal (n : Nat) : List Char :=
  if n < 10 then [decimalDigit n] else decimal (n / 10) ++ [decimalDigit (n % 10)]

/-- The number that a list of decimal digit characters denotes. -/
def decimalValue (ds : List Char) : Nat :=
  ds.foldl (fun acc ch => 10 * acc + (ch.toNat - 48)) 0

/-- The key `"token_<idx>"`: the text `token_` followed by the decimal numeral of `idx`. -/
def tokenKeySpec (idx : Nat) : String :=
  "token_" ++ String.mk (decimal idx)

/-! ## `buildAnalyzeResp` over slice memory (lines 244-245, 248, 315-316) -/

/-- The backing arrays of the `[]Token` slices in memory, by address. A slice is given by
the address of its array and spans the whole array. -/
structure TokenMem where
  arrays : List (List Token)

/-- The array at address `a` (empty when nothing is allocated there). -/
def TokenMem.read (m : TokenMem) (a : Nat) : List Token :=
  m.arrays.getD a []

/-- Go `make([]Token, n)`: a new array of `n` zero-valued tokens at a new address. -/
def TokenMem.make (m : TokenMem) (n : Nat) : TokenMem × Nat :=
  ({ arrays := m.arrays ++
      [List.replicate n { Text := "", IsWord := false, Detail := none, Candidates := [] }] },
   m.arrays.length)

/-- Go `copy(dst, src)`: the first `min(len(dst), len(src))` elements of `src` overwrite
those of `dst`. -/
def TokenMem.copy (m : TokenMem) (dst src : Nat) : TokenMem :=
  let n := min (m.read dst).length (m.read src).length
  { arrays := m.arrays.set dst ((m.read src).take n ++ (m.read dst).drop n) }

/-- Go `s[idx].Detail = detail; s[idx].Candidates = candidates` for the slice at `a`. -/
def TokenMem.setDetail (m : TokenMem) (a idx : Nat) (detail : Option WordDetail)
    (candidates : List WordDetail) : TokenMem :=
  match (m.read a)[idx]? with
  | some t =>
    { arrays := m.arrays.set a
        ((m.read a).set idx { t with Detail := detail, Candidates := candidates }) }
  | none => m

/-- Variables of `buildAnalyzeResp` that the token loop updates, with the memory that
holds `finalTokens`. -/
structure BuildMemState where
  mem : TokenMem
  resultVocabList : List WordResult
  vocabListSet : List String

/-- One iteration of `for idx, t := range finalTokens`, the slice `finalTokens` being at
address `finalTokens`: lines 248-329 with the writes of lines 315-316 made in memory. -/
def buildStepMem (tokenVocabIDsMap : Nat → Option (List String))
    (vocabObjMap : String → Option Vocab) (aiResult : String → Option Int)
    (finalTokens : Nat) (st : BuildMemState) (idx : Nat) : BuildMemState :=
  match (st.mem.read finalTokens)[idx]? with
  | none => st
  | some t =>
    match resolve tokenVocabIDsMap vocabObjMap aiResult idx t with
    | none => st
    | some r =>
      let st1 : BuildMemState :=
        { st with mem := st.mem.setDetail finalTokens idx r.bestDetail r.candidates }
      match r.bestDetail, r.allOptions[r.selectedIndex]? with
      | some bestDetail, some opt =>
        let selectedVocabText := kanjiOf vocabObjMap opt.VocabID
        if selectedVocabText ∈ st1.vocabListSet then st1
        else
          { st1 with
            resultVocabList := st1.resultVocabList ++
              [{ Text := selectedVocabText, Detail := bestDetail, Candidates := r.candidates }]
            vocabListSet := setInsert st1.vocabListSet selectedVocabText }
      | _, _ => st1

/-- Go `buildAnalyzeResp` on the slice `tokens` at address `tokens`: the memory after the
call, and the response (its `Tokens` are the contents of `finalTokens` at the return). -/
def buildAnalyzeRespMem (mem : TokenMem) (tokens : Nat)
    (tokenVocabIDsMap : Nat → Option (List String))
    (vocabObjMap : String → Option Vocab) (aiResult : String → Option Int) :
    TokenMem × AnalyzeResp :=
  let made := mem.make (mem.read tokens).length
  let finalTokens := made.2
  let mem1 := made.1.copy finalTokens tokens
  let st := (List.range (mem1.read finalTokens).length).foldl
    (buildStepMem tokenVocabIDsMap vocabObjMap aiResult finalTokens)
    { mem := mem1, resultVocabList := [], vocabListSet := [] }
  (st.mem, { Tokens := st.mem.read finalTokens, VocabList := st.resultVocabList })

/-- The loop state in memory that holds the arrays `base` and, behind them, the array of
`finalTokens` with the contents of the loop state `p`. -/
def memOf (base : List (List Token)) (p : BuildState) : BuildMemState :=
  { mem := { arrays := base ++ [p.finalTokens] },
    resultVocabList := p.resultVocabList,
    vocabListSet := p.vocabListSet }

/-! ## Example data -/

/-- Cache after `AddOrUpdate("猫", "id1")` and `AddOrUpdate("猫が", "id1")` on the empty cache. -/
def catCache : DictCache :=
  (DictCache.empty.AddOrUpdate "猫" "id1").AddOrUpdate "猫が" "id1"

/-- Cache after `AddOrUpdate("猫", "id1")`, `AddOrUpdate("が", "id2")` and
`AddOrUpdate("猫が", "id3")` on the empty cache. -/
def overlapCache : DictCache :=
  ((DictCache.empty.AddOrUpdate "猫" "id1").AddOrUpdate "が" "id2").AddOrUpdate "猫が" "id3"

/-- Cache after `AddOrUpdate("～的", "id1")` and `AddOrUpdate("日本", "id2")` on the empty
cache: the keys are `"的"` and `"日本"`, `maxLen` is 2. -/
def affixCache : DictCache :=
  (DictCache.empty.AddOrUpdate "～的" "id1").AddOrUpdate "日本" "id2"

/-- First sense of the example entry. -/
def nekoSense1 : VocabSense :=
  { ID := "s1", Level := "N5", VocabID := "id1", Reading := "ねこ", Furigana := "[]",
    Pitch := "①", Pos := "名词", Def := "猫", Audio := "", Examples := [] }

/-- Second sense of the example entry, with one example sentence. -/
def nekoSense2 : VocabSense :=
  { ID := "s2", Level := "N1", VocabID := "id1", Reading := "ねこ", Furigana := "[]",
    Pitch := "①", Pos := "名词", Def := "艺妓", Audio := "",
    Examples := [{ ID := "e1", SenseID := "s2", Kanji := "猫を呼ぶ", Furigana := "[]",
                   Def := "叫艺妓", Audio := "" }] }

/-- Example entry `猫` with two senses. -/
def nekoVocab : Vocab :=
  { ID := "id1", Kanji := "猫", IsMulti := true, CreatAt := 0, UpdataAt := 0,
    Senses := [nekoSense1, nekoSense2] }

/-- Hydration map holding only the example entry. -/
def nekoMap : String → Option Vocab :=
  vocabObjMapOf [nekoVocab]

/-- Token sequence `猫`, `だ` with token 0 matched to `id1` and to `gone`, an identifier
that hydration does not return. -/
def nekoTokens : List Token :=
  [wordTok "猫", litTok "だ"]

/-- Identifier map of `nekoTokens`. -/
def nekoIDs : Nat → Option (List String) :=
  fun k => if k = 0 then some ["id1", "gone"] else none

/-- Oracle mapping choosing option 1 for token 0. -/
def pickSecond : String → Option Int :=
  fun k => if k = "token_0" then some 1 else none

/-- Oracle mapping with an out-of-range choice for token 0. -/
def pickSeventh : String → Option Int :=
  fun k => if k = "token_0" then some 7 else none

/-- The batch item that step 4 builds for token 0 of `nekoTokens`. -/
def nekoCandidate : Candidate :=
  { WordID := "token_0", WordText := "猫", Context := "猫だ",
    Options := [renderOption "猫" nekoSense1, renderOption "猫" nekoSense2] }

/-- Cache after `AddOrUpdate("猫", "id1")` on the empty cache. -/
def nekoCache : DictCache :=
  DictCache.empty.AddOrUpdate "猫" "id1"

/-- Collaborators of the example request: hydration returns the example entry, the oracle
answers `token_0 ↦ 1`, the client stays connected. -/
def nekoEnv : Env :=
  { db := fun ids => if "id1" ∈ ids then [nekoVocab] else []
    oracle := fun _ => pickSecond
    done1 := false
    done2 := false }

/-- Token sequence `猫`, `だ`, `猫`: the same surface form twice. -/
def nekoTwice : List Token :=
  [wordTok "猫", litTok "だ", wordTok "猫"]

/-- Identifier map of `nekoTwice`: tokens 0 and 2 are matched to `id1`. -/
def nekoTwiceIDs : Nat → Option (List String) :=
  fun k => if k = 0 then some ["id1"] else if k = 2 then some ["id1"] else none

/-- A row as `db.Select("id, kanji")` fills it. -/
def rowOf (kanji id : String) : Vocab :=
  { ID := id, Kanji := kanji, IsMulti := false, CreatAt := 0, UpdataAt := 0, Senses := [] }

/-- A run of cache calls: a reload of two rows, two inserts (one of them a repeat), the
removal of the sole identifier of `的`, then an insert and removal of `日本語`. -/
def sampleOps : List CacheOp :=
  [CacheOp.reload (some [rowOf "猫" "id1", rowOf "～的" "id2"]),
   CacheOp.addOrUpdate "猫" "id3",
   CacheOp.addOrUpdate "猫" "id1",
   CacheOp.remove "～的" "id2",
   CacheOp.addOrUpdate "日本語" "id4",
   CacheOp.remove "日本語" "id4"]

/-- A run of cache calls after which `的` holds the sole identifier `id2` and `猫` holds
`id1`, `id3`. -/
def soleOps : List CacheOp :=
  [CacheOp.reload (some [rowOf "猫" "id1", rowOf "～的" "id2"]),
   CacheOp.addOrUpdate "猫" "id3"]

/-- Snapshot with the rows (`猫`, `id1`) and (`～的`, `id2`). -/
def sampleRows : List Vocab :=
  [rowOf "猫" "id1", rowOf "～的" "id2"]

/-- Seventeen one-letter tokens `a` .. `q`. -/
def alphaTokens : List Token :=
  "abcdefghijklmnopq".data.map (fun ch => litTok (String.mk [ch]))

/-- A sense whose gloss has 17 characters and 51 bytes. -/
def longSense : VocabSense :=
  { ID := "s9", Level := "N5", VocabID := "id1", Reading := "ねこ", Furigana := "[]",
    Pitch := "①", Pos := "名词", Def := "一二三四五六七八九十一二三四五六七", Audio := "",
    Examples := [] }

/-- Identifier map matching token 0 only to `gone`, an identifier that hydration does not
return. -/
def goneIDs : Nat → Option (List String) :=
  fun k => if k = 0 then some ["gone"] else none

/-- The collaborators of the example request with the client gone before phase 2. -/
def canceledEnv : Env :=
  { nekoEnv with done1 := true }

/-- The collaborators of the example request with the client gone while the oracle runs. -/
def lateCanceledEnv : Env :=
  { nekoEnv with done2 := true }

/-- A reply content in a code fence whose JSON object gives a string where an integer is
expected: `{"token_0": 1, "token_1": "x"}`. -/
def fencedReply : String :=
  "```json\n\x7b\"token_0\": 1, \"token_1\": \"x\"\x7d\n```"

/-- A configured oracle whose every reply decodes to an envelope with the single choice
`fencedReply`. On the object `{"token_0": 1, "token_1": "x"}` Go's `json.Unmarshal` stores
`token_0 ↦ 1`, reports the type mismatch of `token_1` (stored with the zero value) and
returns that error; on every other content this world reports an error and stores
nothing. -/
def mistypedWorld : OracleWorld :=
  { DEEPSEEK_API_KEY := "sk-test"
    DEEPSEEK_BASE_URL := "https://api.deepseek.com"
    newRequest := fun _ => true
    clientDo := fun _ => some []
    decode := fun _ => some { Choices := [fencedReply] }
    unmarshal := fun content =>
      if content = "\x7b\"token_0\": 1, \"token_1\": \"x\"\x7d" then
        (fun k => if k = "token_0" then some 1 else if k = "token_1" then some 0 else none, true)
      else (fun _ => none, true) }

/-- Oracle mapping with the in-range choice 1 for token 2 and the out-of-range choice 7
for token 0. -/
def pickAtTwo : String → Option Int :=
  fun k => if k = "token_2" then some 1 else if k = "token_0" then some 7 else none

/-- The batch item that step 4 builds for token 2 of `nekoTwice`. -/
def nekoCandidateTwo : Candidate :=
  { WordID := "token_2", WordText := "猫", Context := "猫だ猫",
    Options := [renderOption "猫" nekoSense1, renderOption "猫" nekoSense2] }

/-! # Theorems -/

/-! ## Lemmas on the probe loop -/

theorem length_slice (runes : List Char) (i j : Nat) (h : j ≤ runes.length) :
    (slice runes i j).length = j - i := by
  unfold slice
  rw [List.length_take, List.length_drop]
  omega

theorem probe_some (c : DictCache) (runes : List Char) (i : Nat) :
    ∀ (lim j : Nat) (ids : List String), probe c runes i lim = some (j, ids) →
      i < j ∧ j ≤ lim ∧ c.Get (String.mk (slice runes i j)) = some ids ∧
      ∀ j2, j < j2 → j2 ≤ lim → c.Get (String.mk (slice runes i j2)) = none := by
  intro lim
  induction lim with
  | zero => intro j ids h; simp [probe] at h
  | succ n ih =>
    intro j ids h
    unfold probe at h
    split at h
    · rename_i hgt
      split at h
      · rename_i ids1 hget
        simp only [Option.some.injEq, Prod.mk.injEq] at h
        obtain ⟨hj, hids⟩ := h
        subst hj
        subst hids
        exact ⟨hgt, Nat.le_refl _, hget, fun j2 h1 h2 => absurd h2 (by omega)⟩
      · rename_i hget
        obtain ⟨h1, h2, h3, h4⟩ := ih j ids h
        refine ⟨h1, by omega, h3, ?_⟩
        intro j2 hj2 hle
        by_cases hEq : j2 = n + 1
        · subst hEq; exact hget
        · exact h4 j2 hj2 (by omega)
    · simp at h

theorem probe_none (c : DictCache) (runes : List Char) (i : Nat) :
    ∀ lim : Nat, probe c runes i lim = none →
      ∀ j2, i < j2 → j2 ≤ lim → c.Get (String.mk (slice runes i j2)) = none := by
  intro lim
  induction lim with
  | zero => intro _ j2 h1 h2; omega
  | succ n ih =>
    intro h j2 h1 h2
    unfold probe at h
    split at h
    · split at h
      · simp at h
      · rename_i hget
        by_cases hEq : j2 = n + 1
        · subst hEq; exact hget
        · exact ih h j2 h1 (by omega)
    · omega

theorem probe_of_longest (c : DictCache) (runes : List Char) (i j : Nat) (ids : List String)
    (hij : i < j) (hget : c.Get (String.mk (slice runes i j)) = some ids) :
    ∀ lim : Nat, j ≤ lim →
      (∀ j2, j < j2 → j2 ≤ lim → c.Get (String.mk (slice runes i j2)) = none) →
      probe c runes i lim = some (j, ids) := by
  intro lim
  induction lim with
  | zero => intro h; omega
  | succ n ih =>
    intro hle hnone
    unfold probe
    by_cases hEq : j = n + 1
    · subst hEq
      simp [hij, hget]
    · have hlt : j < n + 1 := by omega
      have hn : c.Get (String.mk (slice runes i (n + 1))) = none := hnone (n + 1) hlt (Nat.le_refl _)
      have hgt : n + 1 > i := by omega
      simp only [hgt, if_true, hn]
      exact ih (by omega) (fun j2 h1 h2 => hnone j2 h1 (by omega))

theorem probe_eq_none_of_forall (c : DictCache) (runes : List Char) (i : Nat) :
    ∀ lim : Nat, (∀ j2, i < j2 → j2 ≤ lim → c.Get (String.mk (slice runes i j2)) = none) →
      probe c runes i lim = none := by
  intro lim h
  cases hp : probe c runes i lim with
  | none => rfl
  | some r =>
    obtain ⟨j, ids⟩ := r
    obtain ⟨h1, h2, h3, _⟩ := probe_some c runes i lim j ids hp
    rw [h j h1 h2] at h3
    exact absurd h3 (by simp)

/-! ## Lemmas on the segmentation loop -/

/-- The window bound computed at the top of the loop body. -/
theorem limit_eq (i maxLen length : Nat) :
    (if i + maxLen > length then length else i + maxLen) = min (i + maxLen) length := by
  split <;> omega

/-- The body of the loop when a probe hits. -/
theorem fmmStep_hit (c : DictCache) (maxLen : Nat) (runes : List Char) (s : SegState)
    (j : Nat) (ids : List String)
    (h : probe c runes s.i (min (s.i + maxLen) runes.length) = some (j, ids)) :
    fmmStep c maxLen runes s =
      { i := j
        tokens := s.tokens ++ [{ Text := String.mk (slice runes s.i j), IsWord := true,
                                 Detail := none, Candidates := [] }]
        tokenVocabIDsMap := fun k => if k = s.tokens.length then some ids else s.tokenVocabIDsMap k
        allFoundIDs := ids.foldl setInsert s.allFoundIDs } := by
  unfold fmmStep
  simp only [limit_eq, h]

/-- The body of the loop when no probe hits. -/
theorem fmmStep_miss (c : DictCache) (maxLen : Nat) (runes : List Char) (s : SegState)
    (h : probe c runes s.i (min (s.i + maxLen) runes.length) = none) :
    fmmStep c maxLen runes s =
      { s with
        i := s.i + 1
        tokens := s.tokens ++ [{ Text := String.mk (slice runes s.i (s.i + 1)), IsWord := false,
                                 Detail := none, Candidates := [] }] } := by
  unfold fmmStep
  simp only [limit_eq, h]

/-- Every iteration moves the cursor forward and keeps it inside the text. -/
theorem fmmStep_cursor (c : DictCache) (maxLen : Nat) (runes : List Char) (s : SegState)
    (h : s.i < runes.length) :
    s.i < (fmmStep c maxLen runes s).i ∧ (fmmStep c maxLen runes s).i ≤ runes.length := by
  cases hp : probe c runes s.i (min (s.i + maxLen) runes.length) with
  | none =>
    rw [fmmStep_miss c maxLen runes s hp]
    simp only
    omega
  | some r =>
    obtain ⟨j, ids⟩ := r
    rw [fmmStep_hit c maxLen runes s j ids hp]
    obtain ⟨h1, h2, _, _⟩ := probe_some c runes s.i _ j ids hp
    simp only
    omega

/-- Loop rule: a property kept by the body holds when the loop is left, and the loop
is left with the cursor at the end of the text once the fuel covers the rest. -/
theorem fmmLoop_rule (c : DictCache) (maxLen : Nat) (runes : List Char) (P : SegState → Prop)
    (hstep : ∀ s, s.i < runes.length → P s → P (fmmStep c maxLen runes s)) :
    ∀ (fuel : Nat) (s : SegState), s.i ≤ runes.length → runes.length - s.i ≤ fuel → P s →
      P (fmmLoop c maxLen runes fuel s) ∧ (fmmLoop c maxLen runes fuel s).i = runes.length := by
  intro fuel
  induction fuel with
  | zero =>
    intro s h1 h2 hP
    simp only [fmmLoop]
    exact ⟨hP, by omega⟩
  | succ n ih =>
    intro s h1 h2 hP
    unfold fmmLoop
    by_cases hlt : s.i < runes.length
    · simp only [hlt, if_true]
      obtain ⟨hc1, hc2⟩ := fmmStep_cursor c maxLen runes s hlt
      exact ih _ hc2 (by omega) (hstep s hlt hP)
    · simp only [hlt, if_false]
      exact ⟨hP, by omega⟩

/-- Loop rule instantiated at `segment`. -/
theorem segment_rule (c : DictCache) (content : String) (P : SegState → Prop)
    (hstep : ∀ s, s.i < content.data.length → P s → P (fmmStep c c.maxLen content.data s))
    (h0 : P { i := 0, tokens := [], tokenVocabIDsMap := fun _ => none, allFoundIDs := [] }) :
    P (segment c content) ∧ (segment c content).i = content.data.length := by
  unfold segment
  exact fmmLoop_rule c c.maxLen content.data P hstep _ _ (Nat.zero_le _) (by simp) h0

/-- The segmentation loop is left with the cursor at the end of the text. -/
theorem segment_cursor (c : DictCache) (content : String) :
    (segment c content).i = content.data.length :=
  (segment_rule c content (fun _ => True) (fun _ _ _ => trivial) trivial).2

theorem take_append_slice (runes : List Char) (i j : Nat) (h : i ≤ j) :
    runes.take i ++ slice runes i j = runes.take j := by
  unfold slice
  have hj : j = i + (j - i) := by omega
  conv => rhs; rw [hj]
  rw [List.take_add]

theorem sum_length_eq (toks : List Token) :
    (toks.map (fun u => u.Text.length)).sum = (toks.flatMap (fun u => u.Text.data)).length := by
  induction toks with
  | nil => rfl
  | cons a l ih =>
    simp only [List.map_cons, List.sum_cons, List.flatMap_cons, List.length_append, ih]
    rfl

theorem Partitioned.sum_eq {runes : List Char} {s : SegState} (h : Partitioned runes s) :
    (s.tokens.map (fun u => u.Text.length)).sum = s.i := by
  rw [sum_length_eq, h.2, List.length_take]
  have := h.1
  omega

theorem startCursor_length (toks : List Token) :
    startCursor toks toks.length = (toks.map (fun u => u.Text.length)).sum := by
  unfold startCursor
  rw [List.take_length]

theorem startCursor_append_left (toks : List Token) (t : Token) (k : Nat) (h : k ≤ toks.length) :
    startCursor (toks ++ [t]) k = startCursor toks k := by
  unfold startCursor
  rw [List.take_append_of_le_length h]

theorem partitioned_step (c : DictCache) (maxLen : Nat) (runes : List Char) (s : SegState)
    (hlt : s.i < runes.length) (h : Partitioned runes s) :
    Partitioned runes (fmmStep c maxLen runes s) := by
  refine ⟨(fmmStep_cursor c maxLen runes s hlt).2, ?_⟩
  cases hp : probe c runes s.i (min (s.i + maxLen) runes.length) with
  | none =>
    rw [fmmStep_miss c maxLen runes s hp]
    simp only [List.flatMap_append, List.flatMap_cons, List.flatMap_nil, List.append_nil, h.2]
    exact take_append_slice runes s.i (s.i + 1) (by omega)
  | some r =>
    obtain ⟨j, ids⟩ := r
    rw [fmmStep_hit c maxLen runes s j ids hp]
    obtain ⟨h1, _, _, _⟩ := probe_some c runes s.i _ j ids hp
    simp only [List.flatMap_append, List.flatMap_cons, List.flatMap_nil, List.append_nil, h.2]
    exact take_append_slice runes s.i j (by omega)

theorem longestInv_step (c : DictCache) (runes : List Char) (s : SegState)
    (hlt : s.i < runes.length) (h : LongestInv c runes s) :
    LongestInv c runes (fmmStep c c.maxLen runes s) := by
  obtain ⟨hpart, hold⟩ := h
  refine ⟨partitioned_step c c.maxLen runes s hlt hpart, ?_⟩
  have hsum := hpart.sum_eq
  -- facts on a token appended at index `len(tokens)`
  have hnew : ∀ (t0 : Token) (i2 : Nat) (k : Nat) (t : Token),
      (s.tokens ++ [t0])[k]? = some t → t.IsWord = true →
      (t0.IsWord = true → LongestMatchAt c runes s.i t0) →
      ((s.tokens ++ [t0]).take k).flatMap (fun u => u.Text.data)
          = runes.take (startCursor (s.tokens ++ [t0]) k) ∧
        LongestMatchAt c runes (startCursor (s.tokens ++ [t0]) k) t := by
    intro t0 i2 k t hk hw hlast
    by_cases hkl : k < s.tokens.length
    · rw [List.getElem?_append_left hkl] at hk
      rw [startCursor_append_left _ _ _ (Nat.le_of_lt hkl),
        List.take_append_of_le_length (Nat.le_of_lt hkl)]
      exact hold k t hk hw
    · have hk2 : k = s.tokens.length := by
        have hlen : k < (s.tokens ++ [t0]).length := by
          rcases List.getElem?_eq_some.1 hk with ⟨hb, _⟩
          exact hb
        simp only [List.length_append, List.length_cons, List.length_nil] at hlen
        omega
      subst hk2
      rw [List.getElem?_append_right (Nat.le_refl _)] at hk
      simp only [Nat.sub_self, List.getElem?_cons_zero, Option.some.injEq] at hk
      subst hk
      rw [startCursor_append_left _ _ _ (Nat.le_refl _), startCursor_length, hsum,
        List.take_append_of_le_length (Nat.le_refl _), List.take_length]
      exact ⟨hpart.2, hlast hw⟩
  cases hp : probe c runes s.i (min (s.i + c.maxLen) runes.length) with
  | none =>
    rw [fmmStep_miss c c.maxLen runes s hp]
    intro k t hk hw
    exact hnew _ (s.i + 1) k t hk hw (fun hf => by simp at hf)
  | some r =>
    obtain ⟨j, ids⟩ := r
    rw [fmmStep_hit c c.maxLen runes s j ids hp]
    obtain ⟨h1, h2, h3, h4⟩ := probe_some c runes s.i _ j ids hp
    have hjlen : j ≤ runes.length := by omega
    have hL : (String.mk (slice runes s.i j)).length = j - s.i := by
      rw [String.length_mk, length_slice runes s.i j hjlen]
    intro k t hk hw
    refine hnew _ j k t hk hw (fun _ => ?_)
    have hij : s.i + (j - s.i) = j := by omega
    refine ⟨?_, ?_, ?_, ?_, ?_⟩
    · rw [hL]; omega
    · rw [hL]; omega
    · simp only [hL, hij]
    · simp only [hL, hij, h3, Option.isSome_some]
    · intro L2 hL2 hle
      rw [hL] at hL2
      simp only [DictCache.MaxLen] at hle
      exact h4 (s.i + L2) (by omega) (by omega)

theorem longestInv_segment (c : DictCache) (content : String) :
    LongestInv c content.data (segment c content) := by
  refine (segment_rule c content (LongestInv c content.data)
    (fun s hlt h => longestInv_step c content.data s hlt h) ?_).1
  refine ⟨⟨Nat.zero_le _, rfl⟩, ?_⟩
  intro k t hk
  simp at hk

theorem slice_succ (runes : List Char) (i : Nat) (h : i < runes.length) :
    ∃ ch, slice runes i (i + 1) = [ch] := by
  have hlen : (slice runes i (i + 1)).length = 1 := by
    rw [length_slice runes i (i + 1) (by omega)]
    omega
  exact List.length_eq_one.1 hlen

theorem literalInv_step (c : DictCache) (maxLen : Nat) (runes : List Char)
    (hno : ∀ i j, i < j → j ≤ runes.length → c.Get (String.mk (slice runes i j)) = none)
    (s : SegState) (hlt : s.i < runes.length) (h : LiteralInv runes s) :
    LiteralInv runes (fmmStep c maxLen runes s) := by
  obtain ⟨_, htok, hids, hmap⟩ := h
  have hp : probe c runes s.i (min (s.i + maxLen) runes.length) = none :=
    probe_eq_none_of_forall c runes s.i _ (fun j2 h1 h2 => hno s.i j2 h1 (by omega))
  rw [fmmStep_miss c maxLen runes s hp]
  refine ⟨by simp only; omega, ?_, hids, hmap⟩
  obtain ⟨ch, hch⟩ := slice_succ runes s.i hlt
  have htake : runes.take (s.i + 1) = runes.take s.i ++ [ch] := by
    rw [← hch, take_append_slice runes s.i (s.i + 1) (by omega)]
  simp only [htake, List.map_append, List.map_cons, List.map_nil, htok, hch, litTok]

theorem literalInv_segment (c : DictCache) (content : String)
    (hno : ∀ i j, i < j → j ≤ content.data.length →
      c.Get (String.mk (slice content.data i j)) = none) :
    LiteralInv content.data (segment c content) := by
  refine (segment_rule c content (LiteralInv content.data)
    (fun s hlt h => literalInv_step c c.maxLen content.data hno s hlt h) ?_).1
  exact ⟨Nat.zero_le _, rfl, rfl, fun _ => rfl⟩

theorem length_flatten_pos (k : String) (post : List String) (hk : 0 < k.length) :
    0 < (((k :: post).map String.data).flatten).length := by
  simp only [List.map_cons, List.flatten_cons, List.length_append]
  have : k.data.length = k.length := rfl
  omega

theorem keysInv_step (c : DictCache) (keys : List String)
    (hkeys : ∀ k ∈ keys, 0 < k.length ∧ k.length ≤ c.MaxLen ∧ (c.Get k).isSome = true)
    (hlong : ∀ (pre post : List String) (k : String) (L : Nat), keys = pre ++ k :: post →
      k.length < L →
      L ≤ min c.MaxLen ((String.join keys).data.length - (String.join pre).data.length) →
      c.Get (String.mk (slice (String.join keys).data (String.join pre).data.length
        ((String.join pre).data.length + L))) = none)
    (s : SegState) (hlt : s.i < (String.join keys).data.length) (h : KeysInv keys s) :
    KeysInv keys (fmmStep c c.maxLen (String.join keys).data s) := by
  obtain ⟨pre, post, hsplit, hi, htok⟩ := h
  have hdata : (String.join keys).data = (pre.map String.data).flatten ++ (post.map String.data).flatten := by
    rw [String.data_join, hsplit, List.map_append, List.flatten_append]
  cases post with
  | nil =>
    rw [hdata, hi] at hlt
    simp at hlt
  | cons k post2 =>
    have hmem : k ∈ keys := by rw [hsplit]; simp
    obtain ⟨hpos, hmax, hsome⟩ := hkeys k hmem
    have hklen : k.data.length = k.length := rfl
    have hpre : (String.join pre).data.length = s.i := by rw [String.data_join, hi]
    have hdrop : (String.join keys).data.drop s.i
        = k.data ++ (post2.map String.data).flatten := by
      rw [hdata, hi, List.drop_left]
      simp only [List.map_cons, List.flatten_cons]
    have hlen : (String.join keys).data.length = s.i + (k.length + ((post2.map String.data).flatten).length) := by
      rw [hdata, List.length_append, ← hi]
      simp only [List.map_cons, List.flatten_cons, List.length_append, hklen]
    have hslice : slice (String.join keys).data s.i (s.i + k.length) = k.data := by
      unfold slice
      rw [hdrop, Nat.add_sub_cancel_left, ← hklen, List.take_left]
    obtain ⟨ids, hids⟩ := Option.isSome_iff_exists.1 hsome
    have hget : c.Get (String.mk (slice (String.join keys).data s.i (s.i + k.length))) = some ids := by
      rw [hslice]; exact hids
    have hp : probe c (String.join keys).data s.i
        (min (s.i + c.maxLen) (String.join keys).data.length) = some (s.i + k.length, ids) := by
      refine probe_of_longest c _ s.i (s.i + k.length) ids (by omega) hget _ ?_ ?_
      · simp only [DictCache.MaxLen] at hmax
        rw [hlen]
        omega
      · intro j2 h1 h2
        have hL := hlong pre post2 k (j2 - s.i) hsplit (by omega) (by
          rw [hpre]
          simp only [DictCache.MaxLen]
          omega)
        rw [hpre] at hL
        have hj2 : s.i + (j2 - s.i) = j2 := by omega
        rw [hj2] at hL
        exact hL
    rw [fmmStep_hit c c.maxLen _ s _ ids hp]
    refine ⟨pre ++ [k], post2, by rw [hsplit]; simp, ?_, ?_⟩
    · simp only [List.map_append, List.flatten_append, List.length_append, List.map_cons,
        List.map_nil, List.flatten_cons, List.flatten_nil, List.append_nil, hklen, hi]
    · simp only [htok, hslice, List.map_append, List.map_cons, List.map_nil, wordTok]

theorem keysInv_final (keys : List String) (hkeys : ∀ k ∈ keys, 0 < k.length) (s : SegState)
    (hend : s.i = (String.join keys).data.length) (h : KeysInv keys s) :
    s.tokens = keys.map wordTok := by
  obtain ⟨pre, post, hsplit, hi, htok⟩ := h
  cases post with
  | nil =>
    rw [htok, hsplit, List.append_nil]
  | cons k post2 =>
    exfalso
    have hmem : k ∈ keys := by rw [hsplit]; simp
    have hpos := length_flatten_pos k post2 (hkeys k hmem)
    rw [String.data_join, hsplit, List.map_append, List.flatten_append, List.length_append,
      hi] at hend
    omega

/-- A property of (start cursor, token) that holds for all tokens of a list and for a
token appended at its end holds for all tokens of the extended list. -/
theorem forall_tokens_snoc (Q : Nat → Token → Prop) (toks : List Token) (t0 : Token)
    (hold : ∀ k t, toks[k]? = some t → Q (startCursor toks k) t)
    (hnew : Q (startCursor toks toks.length) t0) :
    ∀ k t, (toks ++ [t0])[k]? = some t → Q (startCursor (toks ++ [t0]) k) t := by
  intro k t hk
  by_cases hkl : k < toks.length
  · rw [List.getElem?_append_left hkl] at hk
    rw [startCursor_append_left _ _ _ (Nat.le_of_lt hkl)]
    exact hold k t hk
  · have hk2 : k = toks.length := by
      have hlen : k < (toks ++ [t0]).length := by
        rcases List.getElem?_eq_some.1 hk with ⟨hb, _⟩
        exact hb
      simp only [List.length_append, List.length_cons, List.length_nil] at hlen
      omega
    subst hk2
    rw [List.getElem?_append_right (Nat.le_refl _)] at hk
    simp only [Nat.sub_self, List.getElem?_cons_zero, Option.some.injEq] at hk
    subst hk
    rw [startCursor_append_left _ _ _ (Nat.le_refl _)]
    exact hnew

theorem rawProbeInv_step (c : DictCache) (runes : List Char) (s : SegState)
    (hlt : s.i < runes.length) (h : RawProbeInv c runes s) :
    RawProbeInv c runes (fmmStep c c.maxLen runes s) := by
  obtain ⟨hpart, hold⟩ := h
  refine ⟨partitioned_step c c.maxLen runes s hlt hpart, ?_⟩
  have hcur : startCursor s.tokens s.tokens.length = s.i := by
    rw [startCursor_length, hpart.sum_eq]
  cases hp : probe c runes s.i (min (s.i + c.maxLen) runes.length) with
  | none =>
    rw [fmmStep_miss c c.maxLen runes s hp]
    refine forall_tokens_snoc (RawProbeAt c runes) s.tokens _ hold ?_
    rw [hcur]
    refine ⟨?_, fun _ => rfl⟩
    intro L hL
    obtain ⟨h0, hle, hsome, _⟩ := hL
    simp only [DictCache.MaxLen] at hle
    rw [probe_none c runes s.i _ hp (s.i + L) (by omega) (by omega)] at hsome
    simp at hsome
  | some r =>
    obtain ⟨j, ids⟩ := r
    rw [fmmStep_hit c c.maxLen runes s j ids hp]
    obtain ⟨h1, h2, h3, h4⟩ := probe_some c runes s.i _ j ids hp
    have hij : s.i + (j - s.i) = j := by omega
    refine forall_tokens_snoc (RawProbeAt c runes) s.tokens _ hold ?_
    rw [hcur]
    constructor
    · intro L hL
      obtain ⟨h0, hle, hsome, hnone⟩ := hL
      simp only [DictCache.MaxLen] at hle hnone
      have hjL : j = s.i + L := by
        by_contra hne
        by_cases hlt2 : s.i + L < j
        · have := hnone (j - s.i) (by omega) (by omega)
          rw [hij, h3] at this
          simp at this
        · have := h4 (s.i + L) (by omega) (by omega)
          rw [this] at hsome
          simp at hsome
      subst hjL
      rfl
    · intro hall
      have := hall (j - s.i) (by omega) (by simp only [DictCache.MaxLen]; omega)
      rw [hij, h3] at this
      simp at this

theorem rawProbeInv_segment (c : DictCache) (content : String) :
    RawProbeInv c content.data (segment c content) := by
  refine (segment_rule c content (RawProbeInv c content.data)
    (fun s hlt h => rawProbeInv_step c content.data s hlt h) ?_).1
  refine ⟨⟨Nat.zero_le _, rfl⟩, ?_⟩
  intro k t hk
  simp at hk

/-! ## Lemmas on the candidate builder -/

theorem foldl_snoc_eq_map {α β : Type} (f : α → β) (l : List α) (acc : List β) :
    l.foldl (fun a x => a ++ [f x]) acc = acc ++ l.map f := by
  induction l generalizing acc with
  | nil => simp
  | cons x xs ih => simp [List.foldl_cons, ih]

theorem allOptionsOf_eq (candidateIDs : List String) (vocabObjMap : String → Option Vocab) :
    allOptionsOf candidateIDs vocabObjMap
      = (pairsOf candidateIDs vocabObjMap).map (fun p => { VocabID := p.1, Sense := p.2 }) := by
  unfold allOptionsOf pairsOf
  suffices h : ∀ (ids : List String) (acc : List senseOptionRef),
      ids.foldl (fun allOptions vid =>
        match vocabObjMap vid with
        | some v => v.Senses.foldl (fun acc s => acc ++ [{ VocabID := vid, Sense := s }]) allOptions
        | none => allOptions) acc
      = acc ++ (ids.flatMap (fun vid =>
          match vocabObjMap vid with
          | some v => v.Senses.map (fun s => (vid, s))
          | none => [])).map (fun p => ({ VocabID := p.1, Sense := p.2 } : senseOptionRef)) by
    simpa using h candidateIDs []
  intro ids
  induction ids with
  | nil => intro acc; simp
  | cons vid rest ih =>
    intro acc
    rw [List.foldl_cons, ih, List.flatMap_cons, List.map_append, ← List.append_assoc]
    congr 1
    cases hv : vocabObjMap vid with
    | none => simp
    | some v =>
      simp only [List.map_map]
      exact foldl_snoc_eq_map (fun s => ({ VocabID := vid, Sense := s } : senseOptionRef)) v.Senses acc

theorem optionsLoop_eq (candidateIDs : List String) (vocabObjMap : String → Option Vocab) :
    optionsLoop candidateIDs vocabObjMap
      = (allOptionsOf candidateIDs vocabObjMap,
         (allOptionsOf candidateIDs vocabObjMap).map
           (fun r => renderOption (kanjiOf vocabObjMap r.VocabID) r.Sense)) := by
  rw [allOptionsOf_eq]
  unfold optionsLoop pairsOf
  suffices h : ∀ (ids : List String) (acc : List senseOptionRef × List (List UInt8)),
      ids.foldl (fun acc vid =>
        match vocabObjMap vid with
        | none => acc
        | some v =>
          v.Senses.foldl (fun acc2 s =>
            (acc2.1 ++ [{ VocabID := vid, Sense := s }], acc2.2 ++ [renderOption v.Kanji s])) acc)
        acc
      = (acc.1 ++ (ids.flatMap (fun vid =>
          match vocabObjMap vid with
          | some v => v.Senses.map (fun s => (vid, s))
          | none => [])).map (fun p => ({ VocabID := p.1, Sense := p.2 } : senseOptionRef)),
         acc.2 ++ ((ids.flatMap (fun vid =>
          match vocabObjMap vid with
          | some v => v.Senses.map (fun s => (vid, s))
          | none => [])).map (fun p => ({ VocabID := p.1, Sense := p.2 } : senseOptionRef))).map
            (fun r => renderOption (kanjiOf vocabObjMap r.VocabID) r.Sense)) by
    simpa using h candidateIDs ([], [])
  intro ids
  induction ids with
  | nil => intro acc; simp
  | cons vid rest ih =>
    intro acc
    rw [List.foldl_cons, ih]
    cases hv : vocabObjMap vid with
    | none => simp [hv]
    | some v =>
      have hinner : ∀ (ss : List VocabSense) (a : List senseOptionRef × List (List UInt8)),
          ss.foldl (fun acc2 s =>
            (acc2.1 ++ [({ VocabID := vid, Sense := s } : senseOptionRef)],
             acc2.2 ++ [renderOption v.Kanji s])) a
          = (a.1 ++ ss.map (fun s => ({ VocabID := vid, Sense := s } : senseOptionRef)),
             a.2 ++ ss.map (fun s => renderOption v.Kanji s)) := by
        intro ss
        induction ss with
        | nil => intro a; simp
        | cons x xs ihx => intro a; simp [List.foldl_cons, ihx]
      simp only [hinner, List.flatMap_cons, hv, List.map_append, List.map_map, List.append_assoc]
      congr 2
      apply congrArg (fun z => z ++ _)
      apply List.map_congr_left
      intro x _
      simp [kanjiOf, hv]

theorem examplesOf_eq (s : VocabSense) :
    examplesOf s = s.Examples.map (fun ex =>
      { Kanji := ex.Kanji, Def := ex.Def, Audio := ex.Audio, Furigana := ex.Furigana }) := by
  unfold examplesOf
  rw [foldl_snoc_eq_map]
  simp

theorem detailOf_eq (vid : String) (s : VocabSense) (b : Bool) :
    detailOf { VocabID := vid, Sense := s } b = candidateOfPair vid s b := by
  simp only [detailOf, candidateOfPair, examplesOf_eq]

/-- The range check of lines 272-276 keeps `selectedIndex` inside a non-empty list. -/
theorem selectedIndexOf_lt (aiResult : String → Option Int) (idx n : Nat) (h : 0 < n) :
    selectedIndexOf aiResult idx n < n := by
  unfold selectedIndexOf
  split
  · split
    · omega
    · exact h
  · exact h

/-- The loop of lines 281-308 from arbitrary accumulators over options numbered from `n`. -/
theorem candidates_fold (sel : Nat) (opts : List senseOptionRef) :
    ∀ (n : Nat) (acc : List WordDetail × Option WordDetail),
      (opts.enumFrom n).foldl (fun (acc : List WordDetail × Option WordDetail) p =>
        (acc.1 ++ [detailOf p.2 (decide (p.1 = sel))],
         if decide (p.1 = sel) then some (detailOf p.2 (decide (p.1 = sel))) else acc.2)) acc
      = (acc.1 ++ (opts.enumFrom n).map (fun p => detailOf p.2 (decide (p.1 = sel))),
         if n ≤ sel then
           (match opts[sel - n]? with
            | some o => some (detailOf o true)
            | none => acc.2)
         else acc.2) := by
  induction opts with
  | nil => intro n acc; simp
  | cons o rest ih =>
    intro n acc
    rw [List.enumFrom_cons, List.foldl_cons, ih]
    simp only [List.map_cons, List.append_assoc, List.singleton_append]
    congr 1
    by_cases h1 : n = sel
    · subst h1
      simp
    · by_cases h2 : n ≤ sel
      · have h3 : n + 1 ≤ sel := by omega
        have h4 : sel - n = (sel - (n + 1)) + 1 := by omega
        simp only [h1, h2, h3, decide_False, if_true, h4, List.getElem?_cons_succ]
        simp
      · have h3 : ¬ (n + 1 ≤ sel) := by omega
        simp [h1, h2, h3]

theorem candidatesLoop_eq (opts : List senseOptionRef) (sel : Nat) (o : senseOptionRef)
    (h : opts[sel]? = some o) :
    candidatesLoop opts sel
      = (opts.enum.map (fun p => detailOf p.2 (decide (p.1 = sel))), some (detailOf o true)) := by
  unfold candidatesLoop
  have hf := candidates_fold sel opts 0 ([], none)
  simp only [List.enum]
  simp only [Nat.zero_le, if_true, Nat.sub_zero, h, List.nil_append] at hf
  rw [hf]
  simp

/-- What an iteration that does not `continue` has computed. -/
theorem resolve_some (tokenVocabIDsMap : Nat → Option (List String))
    (vocabObjMap : String → Option Vocab) (aiResult : String → Option Int)
    (idx : Nat) (t : Token) (r : Resolved)
    (h : resolve tokenVocabIDsMap vocabObjMap aiResult idx t = some r) :
    t.IsWord = true ∧
    r.allOptions = allOptionsOf ((tokenVocabIDsMap idx).getD []) vocabObjMap ∧
    0 < r.allOptions.length ∧
    r.selectedIndex = selectedIndexOf aiResult idx r.allOptions.length ∧
    r.candidates = r.allOptions.enum.map (fun p => detailOf p.2 (decide (p.1 = r.selectedIndex))) ∧
    ∃ o, r.allOptions[r.selectedIndex]? = some o ∧ r.bestDetail = some (detailOf o true) := by
  unfold resolve at h
  split at h
  · simp at h
  · rename_i hw
    simp only at h
    split at h
    · simp at h
    · split at h
      · simp at h
      · rename_i hlen
        have hpos : 0 < (allOptionsOf ((tokenVocabIDsMap idx).getD []) vocabObjMap).length := by
          omega
        have hsel := selectedIndexOf_lt aiResult idx _ hpos
        have hget := List.getElem?_eq_getElem hsel
        have hloop := candidatesLoop_eq _ _ _ hget
        simp only [Option.some.injEq] at h
        subst h
        refine ⟨by simpa using hw, rfl, hpos, rfl, ?_, ?_⟩
        · simp only [hloop]
        · exact ⟨_, hget, by simp only [hloop]⟩

/-- When an iteration leaves by `continue`. -/
theorem resolve_none_iff (tokenVocabIDsMap : Nat → Option (List String))
    (vocabObjMap : String → Option Vocab) (aiResult : String → Option Int)
    (idx : Nat) (t : Token) :
    resolve tokenVocabIDsMap vocabObjMap aiResult idx t = none ↔
      (t.IsWord = false ∨ allOptionsOf ((tokenVocabIDsMap idx).getD []) vocabObjMap = []) := by
  unfold resolve
  cases hw : t.IsWord with
  | false => simp
  | true =>
    simp only [Bool.not_true, Bool.false_eq_true, if_false, false_or]
    by_cases hids : ((tokenVocabIDsMap idx).getD []).length = 0
    · have hnil : (tokenVocabIDsMap idx).getD [] = [] := List.length_eq_zero.1 hids
      simp [hnil, allOptionsOf]
    · simp only [hids, if_false]
      by_cases hopts : (allOptionsOf ((tokenVocabIDsMap idx).getD []) vocabObjMap).length = 0
      · simp [hopts, List.length_eq_zero.1 hopts]
      · have hne : allOptionsOf ((tokenVocabIDsMap idx).getD []) vocabObjMap ≠ [] :=
          fun h => hopts (by rw [h]; rfl)
        simp [hopts, hne]

/-! ## Lemmas on the token loop of `buildAnalyzeResp` -/

theorem commit_finalTokens (vocabObjMap : String → Option Vocab) (st : BuildState) (idx : Nat)
    (t : Token) (r : Resolved) :
    (commit vocabObjMap st idx t r).finalTokens
      = st.finalTokens.set idx { t with Detail := r.bestDetail, Candidates := r.candidates } := by
  unfold commit
  split
  · simp only
    split <;> rfl
  · rfl

theorem buildPrefix_succ (tokens : List Token) (tokenVocabIDsMap : Nat → Option (List String))
    (vocabObjMap : String → Option Vocab) (aiResult : String → Option Int) (n : Nat) :
    buildPrefix tokens tokenVocabIDsMap vocabObjMap aiResult (n + 1)
      = buildStep tokenVocabIDsMap vocabObjMap aiResult
          (buildPrefix tokens tokenVocabIDsMap vocabObjMap aiResult n) n := by
  unfold buildPrefix
  rw [List.range_succ, List.foldl_append]
  rfl

/-- After `n` iterations the first `n` tokens are resolved and the others untouched. -/
theorem buildPrefix_tokens (tokens : List Token) (tokenVocabIDsMap : Nat → Option (List String))
    (vocabObjMap : String → Option Vocab) (aiResult : String → Option Int) :
    ∀ n, n ≤ tokens.length →
      ∀ i, (buildPrefix tokens tokenVocabIDsMap vocabObjMap aiResult n).finalTokens[i]?
        = if i < n then
            (tokens[i]?).map (resolvedToken tokenVocabIDsMap vocabObjMap aiResult i)
          else tokens[i]? := by
  intro n
  induction n with
  | zero => intro _ i; simp [buildPrefix]
  | succ n ih =>
    intro hn i
    have ihn := ih (by omega)
    have hlt : n < tokens.length := by omega
    have hcur : (buildPrefix tokens tokenVocabIDsMap vocabObjMap aiResult n).finalTokens[n]?
        = some tokens[n] := by
      rw [ihn n]
      simp [List.getElem?_eq_getElem hlt]
    rw [buildPrefix_succ]
    unfold buildStep
    simp only [hcur]
    cases hres : resolve tokenVocabIDsMap vocabObjMap aiResult n tokens[n] with
    | none =>
      simp only
      rw [ihn i]
      by_cases hin : i = n
      · subst hin
        simp [List.getElem?_eq_getElem hlt, resolvedToken, hres]
      · by_cases hil : i < n
        · have : i < n + 1 := by omega
          simp [hil, this]
        · have : ¬ i < n + 1 := by omega
          simp [hil, this]
    | some r =>
      simp only
      rw [commit_finalTokens, List.getElem?_set]
      by_cases hin : n = i
      · subst hin
        have hlen : n < (buildPrefix tokens tokenVocabIDsMap vocabObjMap aiResult n).finalTokens.length := by
          rcases List.getElem?_eq_some.1 hcur with ⟨hb, _⟩
          exact hb
        simp [hlen, List.getElem?_eq_getElem hlt, resolvedToken, hres]
      · simp only [hin, if_false]
        rw [ihn i]
        by_cases hil : i < n
        · have : i < n + 1 := by omega
          simp [hil, this]
        · have : ¬ i < n + 1 := by omega
          simp [hil, this]

/-- Token part of `buildAnalyzeResp`: every token is resolved at its own index. -/
theorem buildAnalyzeResp_tokens (tokens : List Token)
    (tokenVocabIDsMap : Nat → Option (List String))
    (vocabObjMap : String → Option Vocab) (aiResult : String → Option Int) :
    (buildAnalyzeResp tokens tokenVocabIDsMap vocabObjMap aiResult).Tokens
      = tokens.mapIdx (resolvedToken tokenVocabIDsMap vocabObjMap aiResult) := by
  apply List.ext_getElem?
  intro i
  have h := buildPrefix_tokens tokens tokenVocabIDsMap vocabObjMap aiResult tokens.length
    (Nat.le_refl _) i
  unfold buildPrefix at h
  unfold buildAnalyzeResp
  simp only
  rw [h, List.getElem?_mapIdx]
  by_cases hi : i < tokens.length
  · simp [hi]
  · simp [hi, List.getElem?_eq_none (Nat.le_of_not_lt hi)]

/-- Token of `buildAnalyzeResp` at one index. -/
theorem buildAnalyzeResp_token_at (tokens : List Token)
    (tokenVocabIDsMap : Nat → Option (List String))
    (vocabObjMap : String → Option Vocab) (aiResult : String → Option Int)
    (idx : Nat) (t : Token) (ht : tokens[idx]? = some t) :
    (buildAnalyzeResp tokens tokenVocabIDsMap vocabObjMap aiResult).Tokens[idx]?
      = some (resolvedToken tokenVocabIDsMap vocabObjMap aiResult idx t) := by
  rw [buildAnalyzeResp_tokens, List.getElem?_mapIdx, ht]
  rfl

theorem pairs_length_eq (candidateIDs : List String) (vocabObjMap : String → Option Vocab) :
    (allOptionsOf candidateIDs vocabObjMap).length = (pairsOf candidateIDs vocabObjMap).length := by
  rw [allOptionsOf_eq, List.length_map]

/-- Candidates of a resolved token in terms of the (identifier, sense) pairs. -/
theorem resolve_candidates (tokenVocabIDsMap : Nat → Option (List String))
    (vocabObjMap : String → Option Vocab) (aiResult : String → Option Int)
    (idx : Nat) (t : Token) (r : Resolved)
    (h : resolve tokenVocabIDsMap vocabObjMap aiResult idx t = some r) :
    r.candidates = (pairsOf ((tokenVocabIDsMap idx).getD []) vocabObjMap).enum.map (fun p =>
      candidateOfPair p.2.1 p.2.2 (decide (p.1 = selectedIndexOf aiResult idx
        (pairsOf ((tokenVocabIDsMap idx).getD []) vocabObjMap).length))) := by
  obtain ⟨_, hopts, _, hsel, hcand, _⟩ := resolve_some _ _ _ _ _ _ h
  rw [hcand, hsel, hopts, pairs_length_eq, allOptionsOf_eq, List.enum_map, List.map_map]
  apply List.map_congr_left
  intro p _
  simp only [Function.comp, Prod.map, id, detailOf_eq]

/-- A word token with at least one hydrated pair is resolved. -/
theorem resolve_of_pairs (tokenVocabIDsMap : Nat → Option (List String))
    (vocabObjMap : String → Option Vocab) (aiResult : String → Option Int)
    (idx : Nat) (t : Token) (hw : t.IsWord = true)
    (hn : 1 ≤ (pairsOf ((tokenVocabIDsMap idx).getD []) vocabObjMap).length) :
    ∃ r, resolve tokenVocabIDsMap vocabObjMap aiResult idx t = some r := by
  cases hres : resolve tokenVocabIDsMap vocabObjMap aiResult idx t with
  | some r => exact ⟨r, rfl⟩
  | none =>
    exfalso
    rcases (resolve_none_iff _ _ _ _ _).1 hres with h | h
    · rw [hw] at h; simp at h
    · rw [← pairs_length_eq, h] at hn
      simp at hn

/-- The selection of a resolved token sits at `selectedIndex`. -/
theorem resolve_selectedAt (tokenVocabIDsMap : Nat → Option (List String))
    (vocabObjMap : String → Option Vocab) (aiResult : String → Option Int)
    (idx : Nat) (t : Token) (r : Resolved)
    (h : resolve tokenVocabIDsMap vocabObjMap aiResult idx t = some r) :
    SelectedAt (resolvedToken tokenVocabIDsMap vocabObjMap aiResult idx t)
      (selectedIndexOf aiResult idx
        (pairsOf ((tokenVocabIDsMap idx).getD []) vocabObjMap).length) := by
  obtain ⟨_, hopts, _, hsel, hcand, o, ho, hbest⟩ := resolve_some _ _ _ _ _ _ h
  have hsel2 : selectedIndexOf aiResult idx
      (pairsOf ((tokenVocabIDsMap idx).getD []) vocabObjMap).length = r.selectedIndex := by
    rw [hsel, hopts, pairs_length_eq]
  rw [hsel2]
  simp only [SelectedAt, resolvedToken, h, hbest, hcand]
  refine ⟨rfl, ?_, ?_⟩
  · rw [List.getElem?_map, List.getElem?_enum, ho]
    simp
  · intro j d hj
    rw [List.getElem?_map, List.getElem?_enum] at hj
    cases hoj : r.allOptions[j]? with
    | none => rw [hoj] at hj; simp at hj
    | some oj =>
      rw [hoj] at hj
      simp only [Option.map_some', Option.some.injEq] at hj
      rw [← hj]
      rfl

/-- The resolution of a token depends on the oracle mapping only through the selected
index. -/
theorem resolvedToken_congr (tokenVocabIDsMap : Nat → Option (List String))
    (vocabObjMap : String → Option Vocab) (ai1 ai2 : String → Option Int)
    (idx : Nat) (t : Token)
    (h : selectedIndexOf ai1 idx
        (allOptionsOf ((tokenVocabIDsMap idx).getD []) vocabObjMap).length
      = selectedIndexOf ai2 idx
        (allOptionsOf ((tokenVocabIDsMap idx).getD []) vocabObjMap).length) :
    resolvedToken tokenVocabIDsMap vocabObjMap ai1 idx t
      = resolvedToken tokenVocabIDsMap vocabObjMap ai2 idx t := by
  simp only [resolvedToken, resolve, h]

/-- An oracle entry inside the range is the selected index. -/
theorem selectedIndexOf_in_range (aiResult : String → Option Int) (idx n : Nat) (v : Int)
    (h : aiResult (uniqueKey idx) = some v) (h0 : 0 ≤ v) (h1 : v < (n : Int)) :
    selectedIndexOf aiResult idx n = v.toNat := by
  unfold selectedIndexOf
  rw [h]
  simp [h0, h1]

/-- A missing or out-of-range oracle entry selects index 0, as the empty mapping does. -/
theorem selectedIndexOf_fallback (aiResult : String → Option Int) (idx n : Nat)
    (h : aiResult (uniqueKey idx) = none ∨
      ∃ v, aiResult (uniqueKey idx) = some v ∧ (v < 0 ∨ (n : Int) ≤ v)) :
    selectedIndexOf aiResult idx n = 0 ∧ selectedIndexOf (fun _ => none) idx n = 0 := by
  refine ⟨?_, rfl⟩
  unfold selectedIndexOf
  rcases h with h | ⟨v, h, hv⟩
  · rw [h]
  · rw [h]
    have : ¬ (v ≥ 0 ∧ v < (n : Int)) := by omega
    simp only [this, if_false]

/-! ## Lemmas on the oracle batch -/

/-- Every item of the batch was appended by the iteration of some word token with more
than one option. -/
theorem prepare_mem (tokens : List Token) (tokenVocabIDsMap : Nat → Option (List String))
    (vocabObjMap : String → Option Vocab) (cand : Candidate) :
    ∀ (l : List (Nat × Token)) (acc : List Candidate),
      cand ∈ l.foldl (prepareStep tokens tokenVocabIDsMap vocabObjMap) acc →
      cand ∈ acc ∨ ∃ p ∈ l, p.2.IsWord = true ∧
        1 < (optionsLoop ((tokenVocabIDsMap p.1).getD []) vocabObjMap).1.length ∧
        cand = { WordID := uniqueKey p.1, WordText := p.2.Text,
                 Context := getContext tokens p.1 15,
                 Options := (optionsLoop ((tokenVocabIDsMap p.1).getD []) vocabObjMap).2 } := by
  intro l
  induction l with
  | nil => intro acc h; exact Or.inl h
  | cons q rest ih =>
    intro acc h
    rw [List.foldl_cons] at h
    rcases ih _ h with h1 | ⟨p, hp, hrest⟩
    · unfold prepareStep at h1
      split at h1
      · exact Or.inl h1
      · rename_i hw
        simp only at h1
        split at h1
        · exact Or.inl h1
        · split at h1
          · rename_i hlen
            rcases List.mem_append.1 h1 with h2 | h2
            · exact Or.inl h2
            · refine Or.inr ⟨q, List.mem_cons_self _ _, by simpa using hw, hlen, ?_⟩
              simpa using h2
          · exact Or.inl h1
    · exact Or.inr ⟨p, List.mem_cons_of_mem _ hp, hrest⟩

/-- The pair list seen through the candidates of a resolved token. -/
theorem getElem?_pair_candidates (pairs : List (String × VocabSense)) (sel i : Nat)
    (p : String × VocabSense) (h : pairs[i]? = some p) :
    (pairs.enum.map (fun q => candidateOfPair q.2.1 q.2.2 (decide (q.1 = sel))))[i]?
      = some (candidateOfPair p.1 p.2 (decide (i = sel))) := by
  rw [List.getElem?_map, List.getElem?_enum, h]
  rfl

/-- The tokens that the segmentation loop emits carry no `Detail` and no `Candidates`. -/
theorem segment_fresh (c : DictCache) (content : String) : Fresh (segment c content).tokens := by
  refine (segment_rule c content (fun s => Fresh s.tokens) ?_ ?_).1
  · intro s _ h
    cases hp : probe c content.data s.i (min (s.i + c.maxLen) content.data.length) with
    | none =>
      rw [fmmStep_miss c c.maxLen content.data s hp]
      intro t ht
      simp only [List.mem_append, List.mem_singleton] at ht
      rcases ht with ht | ht
      · exact h t ht
      · rw [ht]; exact ⟨rfl, rfl⟩
    | some r =>
      obtain ⟨j, ids⟩ := r
      rw [fmmStep_hit c c.maxLen content.data s j ids hp]
      intro t ht
      simp only [List.mem_append, List.mem_singleton] at ht
      rcases ht with ht | ht
      · exact h t ht
      · rw [ht]; exact ⟨rfl, rfl⟩
  · intro t ht
    simp at ht

/-! ## Lemmas on `allFoundIDs` -/

theorem setInsert_ne_nil (acc : List String) (id : String) : setInsert acc id ≠ [] := by
  unfold setInsert
  split
  · rename_i h
    intro hnil
    rw [hnil] at h
    simp at h
  · simp

theorem foldl_setInsert_ne_nil (ids : List String) :
    ∀ acc : List String, (acc ≠ [] ∨ ids ≠ []) → ids.foldl setInsert acc ≠ [] := by
  induction ids with
  | nil =>
    intro acc h
    rcases h with h | h
    · exact h
    · exact absurd rfl h
  | cons id rest ih =>
    intro acc _
    rw [List.foldl_cons]
    exact ih _ (Or.inl (setInsert_ne_nil acc id))

theorem foundInv_step (c : DictCache) (maxLen : Nat) (runes : List Char)
    (hinv : ∀ k ids, c.Get k = some ids → ids ≠ [])
    (s : SegState) (h : FoundInv s) : FoundInv (fmmStep c maxLen runes s) := by
  cases hp : probe c runes s.i (min (s.i + maxLen) runes.length) with
  | none =>
    rw [fmmStep_miss c maxLen runes s hp]
    intro hex
    obtain ⟨t, ht, hw⟩ := hex
    simp only [List.mem_append, List.mem_singleton] at ht
    rcases ht with ht | ht
    · exact h ⟨t, ht, hw⟩
    · rw [ht] at hw
      simp at hw
  | some r =>
    obtain ⟨j, ids⟩ := r
    rw [fmmStep_hit c maxLen runes s j ids hp]
    obtain ⟨_, _, hget, _⟩ := probe_some c runes s.i _ j ids hp
    intro _
    exact foldl_setInsert_ne_nil ids _ (Or.inr (hinv _ ids hget))

theorem foundInv_segment (c : DictCache) (content : String)
    (hinv : ∀ k ids, c.Get k = some ids → ids ≠ []) : FoundInv (segment c content) := by
  refine (segment_rule c content FoundInv
    (fun s _ h => foundInv_step c c.maxLen content.data hinv s h) ?_).1
  intro hex
  obtain ⟨t, ht, _⟩ := hex
  simp at ht

/-- On a text none of whose windows is a cache key the loop returns the one-character
literal tokens. -/
theorem segment_tokens_literal (c : DictCache) (content : String)
    (hno : ∀ i j, i < j → j ≤ content.data.length →
      c.Get (String.mk (slice content.data i j)) = none) :
    (segment c content).tokens = content.data.map (fun ch => litTok (String.mk [ch])) := by
  have htok := (literalInv_segment c content hno).2.1
  rw [segment_cursor, List.take_length] at htok
  exact htok

/-- Adding an identifier keeps every identifier list of the cache non-empty. -/
theorem addInternal_nonempty (c : DictCache) (kanji id : String)
    (h : ∀ k ids, c.Get k = some ids → ids ≠ []) :
    ∀ k ids, (c.addInternal kanji id).Get k = some ids → ids ≠ [] := by
  intro k ids hk
  unfold DictCache.addInternal DictCache.Get at hk
  simp only at hk
  split at hk
  · exact h k ids hk
  · simp only at hk
    split at hk
    · simp only [Option.some.injEq] at hk
      rw [← hk]
      simp
    · exact h k ids hk

theorem empty_nonempty : ∀ k ids, DictCache.empty.Get k = some ids → ids ≠ [] := by
  intro k ids h
  simp [DictCache.empty, DictCache.Get] at h

/-! ## Lemmas on the summary list -/

theorem commit_vocab (vocabObjMap : String → Option Vocab) (st : BuildState) (idx : Nat)
    (t : Token) (r : Resolved) (o : senseOptionRef)
    (ho : r.allOptions[r.selectedIndex]? = some o) (hbest : r.bestDetail = some (detailOf o true))
    (hset : st.vocabListSet = st.resultVocabList.map WordResult.Text) :
    (commit vocabObjMap st idx t r).resultVocabList
        = addEntry st.resultVocabList
            { Text := kanjiOf vocabObjMap o.VocabID, Detail := detailOf o true,
              Candidates := r.candidates } ∧
      (commit vocabObjMap st idx t r).vocabListSet
        = (commit vocabObjMap st idx t r).resultVocabList.map WordResult.Text := by
  unfold commit addEntry
  simp only [hbest, ho, hset]
  by_cases hmem : kanjiOf vocabObjMap o.VocabID ∈ st.resultVocabList.map WordResult.Text
  · simp only [hmem, if_true]
    trivial
  · simp only [hmem, if_false, setInsert, List.map_append, List.map_cons, List.map_nil]
    trivial

theorem buildStep_skip_vocab (tokenVocabIDsMap : Nat → Option (List String))
    (vocabObjMap : String → Option Vocab) (aiResult : String → Option Int)
    (st : BuildState) (idx : Nat) (t : Token) (hcur : st.finalTokens[idx]? = some t)
    (hres : resolve tokenVocabIDsMap vocabObjMap aiResult idx t = none) :
    buildStep tokenVocabIDsMap vocabObjMap aiResult st idx = st := by
  unfold buildStep
  simp only [hcur, hres]

/-- After `n` iterations the summary list is the fold of `addEntry` over the entries of
the first `n` returned tokens, and `vocabListSet` holds exactly its texts. -/
theorem buildPrefix_vocab (tokens : List Token) (tokenVocabIDsMap : Nat → Option (List String))
    (vocabObjMap : String → Option Vocab) (aiResult : String → Option Int)
    (hfresh : Fresh tokens) :
    ∀ n, n ≤ tokens.length →
      (buildPrefix tokens tokenVocabIDsMap vocabObjMap aiResult n).vocabListSet
        = (buildPrefix tokens tokenVocabIDsMap vocabObjMap aiResult n).resultVocabList.map
            WordResult.Text ∧
      (buildPrefix tokens tokenVocabIDsMap vocabObjMap aiResult n).resultVocabList
        = (((tokens.mapIdx (resolvedToken tokenVocabIDsMap vocabObjMap aiResult)).take n).filterMap
            (entryOfToken vocabObjMap)).foldl addEntry [] := by
  intro n
  induction n with
  | zero => intro _; simp [buildPrefix]
  | succ n ih =>
    intro hn
    obtain ⟨hset, hlist⟩ := ih (by omega)
    have hlt : n < tokens.length := by omega
    have hcur : (buildPrefix tokens tokenVocabIDsMap vocabObjMap aiResult n).finalTokens[n]?
        = some tokens[n] := by
      rw [buildPrefix_tokens tokens tokenVocabIDsMap vocabObjMap aiResult n (by omega) n]
      simp [List.getElem?_eq_getElem hlt]
    have htake : (tokens.mapIdx (resolvedToken tokenVocabIDsMap vocabObjMap aiResult)).take (n + 1)
        = (tokens.mapIdx (resolvedToken tokenVocabIDsMap vocabObjMap aiResult)).take n
          ++ [resolvedToken tokenVocabIDsMap vocabObjMap aiResult n tokens[n]] := by
      rw [List.take_succ, List.getElem?_mapIdx, List.getElem?_eq_getElem hlt]
      rfl
    rw [htake, List.filterMap_append, List.foldl_append, ← hlist, buildPrefix_succ]
    cases hres : resolve tokenVocabIDsMap vocabObjMap aiResult n tokens[n] with
    | none =>
      rw [buildStep_skip_vocab _ _ _ _ n tokens[n] hcur hres]
      have hdetail : tokens[n].Detail = none := (hfresh _ (List.getElem_mem hlt)).1
      have hentry : entryOfToken vocabObjMap
          (resolvedToken tokenVocabIDsMap vocabObjMap aiResult n tokens[n]) = none := by
        simp only [resolvedToken, hres, entryOfToken, hdetail, Option.map_none']
      simp only [List.filterMap_cons, hentry, List.filterMap_nil, List.foldl_nil]
      exact ⟨hset, trivial⟩
    | some r =>
      obtain ⟨_, _, _, _, _, o, ho, hbest⟩ := resolve_some _ _ _ _ _ _ hres
      have hstep : buildStep tokenVocabIDsMap vocabObjMap aiResult
          (buildPrefix tokens tokenVocabIDsMap vocabObjMap aiResult n) n
          = commit vocabObjMap (buildPrefix tokens tokenVocabIDsMap vocabObjMap aiResult n) n
              tokens[n] r := by
        unfold buildStep
        simp only [hcur, hres]
      obtain ⟨hv1, hv2⟩ := commit_vocab vocabObjMap _ n tokens[n] r o ho hbest hset
      have hentry : entryOfToken vocabObjMap
          (resolvedToken tokenVocabIDsMap vocabObjMap aiResult n tokens[n])
          = some { Text := kanjiOf vocabObjMap o.VocabID, Detail := detailOf o true,
                   Candidates := r.candidates } := by
        simp only [resolvedToken, hres, entryOfToken, hbest, Option.map_some']
        rfl
      rw [hstep]
      simp only [List.filterMap_cons, hentry, List.filterMap_nil, List.foldl_cons, List.foldl_nil]
      exact ⟨hv2, hv1⟩

theorem buildAnalyzeResp_vocab (tokens : List Token)
    (tokenVocabIDsMap : Nat → Option (List String))
    (vocabObjMap : String → Option Vocab) (aiResult : String → Option Int)
    (hfresh : Fresh tokens) :
    (buildAnalyzeResp tokens tokenVocabIDsMap vocabObjMap aiResult).VocabList
      = ((buildAnalyzeResp tokens tokenVocabIDsMap vocabObjMap aiResult).Tokens.filterMap
          (entryOfToken vocabObjMap)).foldl addEntry [] := by
  have h := (buildPrefix_vocab tokens tokenVocabIDsMap vocabObjMap aiResult hfresh
    tokens.length (Nat.le_refl _)).2
  rw [buildAnalyzeResp_tokens]
  have hlen : (tokens.mapIdx (resolvedToken tokenVocabIDsMap vocabObjMap aiResult)).length
      = tokens.length := List.length_mapIdx
  have htake : (tokens.mapIdx (resolvedToken tokenVocabIDsMap vocabObjMap aiResult)).take
      tokens.length = tokens.mapIdx (resolvedToken tokenVocabIDsMap vocabObjMap aiResult) := by
    rw [← hlen, List.take_length]
  rw [htake] at h
  exact h

/-- The seen-set loop computes the first occurrences. -/
theorem foldl_addEntry_eq (E : List WordResult) :
    ∀ acc : List WordResult,
      E.foldl addEntry acc
        = acc ++ (firstOccurrences E).filter
            (fun x => decide (x.Text ∉ acc.map WordResult.Text)) := by
  induction E with
  | nil => intro acc; simp [firstOccurrences]
  | cons e rest ih =>
    intro acc
    rw [List.foldl_cons, ih]
    unfold addEntry
    by_cases hmem : e.Text ∈ acc.map WordResult.Text
    · simp only [hmem, if_true, firstOccurrences]
      congr 1
      rw [List.filter_cons]
      simp only [hmem, not_true_eq_false, decide_False, Bool.false_eq_true, if_false]
      rw [List.filter_filter]
      apply List.filter_congr
      intro x _
      by_cases hx : x.Text ∈ acc.map WordResult.Text
      · simp [hx]
      · have hne : x.Text ≠ e.Text := fun h => hx (h ▸ hmem)
        simp [hx, hne]
    · simp only [hmem, if_false, firstOccurrences]
      rw [List.filter_cons]
      simp only [hmem, not_false_eq_true, decide_True, if_true, List.append_assoc,
        List.singleton_append]
      congr 2
      rw [List.filter_filter]
      apply List.filter_congr
      intro x _
      by_cases hx : x.Text ∈ acc.map WordResult.Text
      · simp [hx]
      · by_cases hne : x.Text = e.Text
        · simp [hx, hne]
        · simp [hx, hne]

theorem firstOccurrences_nodup (E : List WordResult) :
    ((firstOccurrences E).map WordResult.Text).Nodup := by
  induction E with
  | nil => simp [firstOccurrences]
  | cons e rest ih =>
    simp only [firstOccurrences, List.map_cons]
    rw [List.nodup_cons]
    constructor
    · intro hmem
      obtain ⟨x, hx, hxe⟩ := List.mem_map.1 hmem
      have := (List.mem_filter.1 hx).2
      simp only [decide_eq_true_eq] at this
      exact this hxe
    · exact List.Nodup.sublist ((List.filter_sublist _).map _) ih

theorem firstOccurrences_cover (E : List WordResult) :
    ∀ x ∈ E, x.Text ∈ (firstOccurrences E).map WordResult.Text := by
  induction E with
  | nil => intro x hx; simp at hx
  | cons e rest ih =>
    intro x hx
    simp only [firstOccurrences, List.map_cons, List.mem_cons]
    by_cases hxe : x.Text = e.Text
    · exact Or.inl hxe
    · right
      rcases List.mem_cons.1 hx with h | h
      · exact absurd (by rw [h]) hxe
      · obtain ⟨y, hy, hyx⟩ := List.mem_map.1 (ih x h)
        refine List.mem_map.2 ⟨y, List.mem_filter.2 ⟨hy, ?_⟩, hyx⟩
        simp only [decide_eq_true_eq]
        rw [hyx]
        exact hxe

theorem firstOccurrences_first (E : List WordResult) :
    ∀ e ∈ firstOccurrences E,
      ∃ before after, E = before ++ e :: after ∧ ∀ x ∈ before, x.Text ≠ e.Text := by
  induction E with
  | nil => intro e he; simp [firstOccurrences] at he
  | cons a rest ih =>
    intro e he
    simp only [firstOccurrences, List.mem_cons] at he
    rcases he with h | h
    · subst h
      exact ⟨[], rest, rfl, fun x hx => by simp at hx⟩
    · obtain ⟨h1, h2⟩ := List.mem_filter.1 h
      simp only [decide_eq_true_eq] at h2
      obtain ⟨before, after, hE, hfirst⟩ := ih e h1
      refine ⟨a :: before, after, by rw [hE]; rfl, ?_⟩
      intro x hx
      rcases List.mem_cons.1 hx with hxa | hxb
      · rw [hxa]
        exact fun heq => h2 heq.symm
      · exact hfirst x hxb

/-! ## Lemmas on the cache operations -/

theorem idExists_iff (id : String) (l : List String) :
    DictCache.idExists id l = true ↔ id ∈ l := by
  induction l with
  | nil => simp [DictCache.idExists]
  | cons x xs ih =>
    unfold DictCache.idExists
    by_cases h : x = id
    · simp [h]
    · have h2 : ¬ id = x := fun e => h e.symm
      simp [h, h2, ih]

/-- The mapping after `addInternal`, key by key. -/
theorem addInternal_get (c : DictCache) (kanji id k : String) :
    (c.addInternal kanji id).Get k
      = if k = DictCache.cleanKey kanji ∧ id ∉ idsAt c (DictCache.cleanKey kanji) then
          some (idsAt c (DictCache.cleanKey kanji) ++ [id])
        else c.Get k := by
  unfold DictCache.addInternal DictCache.Get idsAt DictCache.Get
  simp only
  by_cases hex : DictCache.idExists id ((c.mapping (DictCache.cleanKey kanji)).getD []) = true
  · have hmem := (idExists_iff _ _).1 hex
    simp [hex, hmem]
  · have hmem : id ∉ (c.mapping (DictCache.cleanKey kanji)).getD [] :=
      fun h => hex ((idExists_iff _ _).2 h)
    simp only [hex, hmem, not_false_eq_true, and_true]
    rfl

theorem addInternal_maxLen (c : DictCache) (kanji id : String) :
    (c.addInternal kanji id).MaxLen = max c.MaxLen (DictCache.cleanKey kanji).length := by
  unfold DictCache.addInternal DictCache.MaxLen
  simp only
  have hl : (DictCache.cleanKey kanji).data.length = (DictCache.cleanKey kanji).length := rfl
  rw [hl]
  split <;> omega

/-- The mapping after `Remove`, key by key. -/
theorem remove_get (c : DictCache) (kanji id k : String) :
    (c.Remove kanji id).Get k
      = if k = DictCache.cleanKey kanji then
          (match c.Get k with
           | none => none
           | some ids =>
             if ids.filter (fun existingID => existingID != id) = [] then none
             else some (ids.filter (fun existingID => existingID != id)))
        else c.Get k := by
  unfold DictCache.Remove DictCache.Get
  simp only
  by_cases hk : k = DictCache.cleanKey kanji
  · subst hk
    cases hm : c.mapping (DictCache.cleanKey kanji) with
    | none => simp [hm]
    | some ids =>
      simp only [if_true]
      by_cases hf : (ids.filter (fun existingID => existingID != id)).length = 0
      · have hnil := List.length_eq_zero.1 hf
        simp [hf, hnil]
      · have hne : ids.filter (fun existingID => existingID != id) ≠ [] :=
          fun h => hf (by rw [h]; rfl)
        simp [hf, hne]
  · cases hm : c.mapping (DictCache.cleanKey kanji) with
    | none => simp [hk]
    | some ids =>
      simp only [hk, if_false]
      split <;> simp [hk]

theorem remove_maxLen (c : DictCache) (kanji id : String) :
    (c.Remove kanji id).MaxLen = c.MaxLen := by
  unfold DictCache.Remove DictCache.MaxLen
  simp only
  split
  · rfl
  · split <;> rfl

/-- A property of the empty cache kept by `addInternal` and `Remove` holds after every
finite sequence of `Reload`, `AddOrUpdate` and `Remove`. -/
theorem runOps_rule (P : DictCache → Prop) (h0 : P DictCache.empty)
    (hadd : ∀ c kanji id, P c → P (c.addInternal kanji id))
    (hrem : ∀ c kanji id, P c → P (c.Remove kanji id)) :
    ∀ ops, P (runOps ops) := by
  have hfold : ∀ (rows : List Vocab) (c : DictCache), P c →
      P (rows.foldl (fun acc v => acc.addInternal v.Kanji v.ID) c) := by
    intro rows
    induction rows with
    | nil => intro c h; exact h
    | cons v rest ih => intro c h; exact ih _ (hadd c v.Kanji v.ID h)
  have hstep : ∀ (op : CacheOp) (c : DictCache), P c → P (applyOp c op) := by
    intro op c h
    cases op with
    | reload rows =>
      cases rows with
      | none => exact h
      | some vocabs => exact hfold vocabs _ h0
    | addOrUpdate kanji id => exact hadd c kanji id h
    | remove kanji id => exact hrem c kanji id h
  have hall : ∀ (ops : List CacheOp) (c : DictCache), P c → P (ops.foldl applyOp c) := by
    intro ops
    induction ops with
    | nil => intro c h; exact h
    | cons op rest ih => intro c h; exact ih _ (hstep op c h)
  intro ops
  exact hall ops _ h0

theorem cacheInv_empty : CacheInv DictCache.empty := by
  intro k ids h
  simp [DictCache.empty, DictCache.Get] at h

theorem cacheInv_addInternal (c : DictCache) (kanji id : String) (h : CacheInv c) :
    CacheInv (c.addInternal kanji id) := by
  intro k ids hk
  rw [addInternal_get] at hk
  split at hk
  · rename_i hcond
    simp only [Option.some.injEq] at hk
    subst hk
    refine ⟨by simp, ?_⟩
    have hold : (idsAt c (DictCache.cleanKey kanji)).Nodup := by
      unfold idsAt
      cases hg : c.Get (DictCache.cleanKey kanji) with
      | none => simp
      | some l => exact (h _ l hg).2
    rw [List.nodup_append]
    refine ⟨hold, by simp, ?_⟩
    intro a ha hb
    simp only [List.mem_singleton] at hb
    subst hb
    exact hcond.2 ha
  · exact h k ids hk

theorem cacheInv_remove (c : DictCache) (kanji id : String) (h : CacheInv c) :
    CacheInv (c.Remove kanji id) := by
  intro k ids hk
  rw [remove_get] at hk
  split at hk
  · cases hg : c.Get k with
    | none => rw [hg] at hk; simp at hk
    | some l =>
      rw [hg] at hk
      simp only at hk
      split at hk
      · simp at hk
      · rename_i hne
        simp only [Option.some.injEq] at hk
        subst hk
        exact ⟨hne, (h k l hg).2.filter _⟩
  · exact h k ids hk

theorem keysBounded_addInternal (c : DictCache) (kanji id : String) (h : KeysBounded c) :
    KeysBounded (c.addInternal kanji id) := by
  intro k ids hk
  rw [addInternal_maxLen]
  rw [addInternal_get] at hk
  split at hk
  · rename_i hcond
    rw [hcond.1]
    exact Nat.le_max_right _ _
  · exact Nat.le_trans (h k ids hk) (Nat.le_max_left _ _)

theorem keysBounded_remove (c : DictCache) (kanji id : String) (h : KeysBounded c) :
    KeysBounded (c.Remove kanji id) := by
  intro k ids hk
  rw [remove_maxLen]
  rw [remove_get] at hk
  split at hk
  · cases hg : c.Get k with
    | none => rw [hg] at hk; simp at hk
    | some l => exact h k l hg
  · exact h k ids hk

theorem cleanKey_eq_strip (f : String) : DictCache.cleanKey f = strip f := by
  unfold DictCache.cleanKey strip
  simp only [List.filter_filter]
  congr 1
  apply List.filter_congr
  intro ch _
  by_cases h1 : ch = '~' <;> by_cases h2 : ch = '～' <;> simp [h1, h2]

theorem strip_clean (f : String) : '~' ∉ (strip f).data ∧ '～' ∉ (strip f).data := by
  unfold strip
  constructor <;> simp [List.mem_filter]

theorem strip_idem (f : String) : strip (strip f) = strip f := by
  unfold strip
  simp only [List.filter_filter]
  congr 1
  apply List.filter_congr
  intro ch _
  simp

theorem keysClean_addInternal (c : DictCache) (kanji id : String) (h : KeysClean c) :
    KeysClean (c.addInternal kanji id) := by
  intro k ids hk
  rw [addInternal_get] at hk
  split at hk
  · rename_i hcond
    rw [hcond.1, cleanKey_eq_strip]
    exact strip_clean kanji
  · exact h k ids hk

theorem keysClean_remove (c : DictCache) (kanji id : String) (h : KeysClean c) :
    KeysClean (c.Remove kanji id) := by
  intro k ids hk
  rw [remove_get] at hk
  split at hk
  · cases hg : c.Get k with
    | none => rw [hg] at hk; simp at hk
    | some l => exact h k l hg
  · exact h k ids hk

theorem cacheInv_runOps (ops : List CacheOp) : CacheInv (runOps ops) :=
  runOps_rule CacheInv cacheInv_empty cacheInv_addInternal cacheInv_remove ops

theorem keysBounded_runOps (ops : List CacheOp) : KeysBounded (runOps ops) :=
  runOps_rule KeysBounded (fun k ids h => by simp [DictCache.empty, DictCache.Get] at h)
    keysBounded_addInternal keysBounded_remove ops

theorem keysClean_runOps (ops : List CacheOp) : KeysClean (runOps ops) :=
  runOps_rule KeysClean (fun k ids h => by simp [DictCache.empty, DictCache.Get] at h)
    keysClean_addInternal keysClean_remove ops

/-- After `addInternal` the key of the form is present and holds the identifier. -/
theorem addInternal_mem (c : DictCache) (kanji id : String) :
    ∃ ids, (c.addInternal kanji id).Get (DictCache.cleanKey kanji) = some ids ∧ id ∈ ids := by
  rw [addInternal_get]
  by_cases hmem : id ∈ idsAt c (DictCache.cleanKey kanji)
  · simp only [hmem, not_true_eq_false, and_false, if_false]
    unfold idsAt at hmem
    cases hg : c.Get (DictCache.cleanKey kanji) with
    | none => rw [hg] at hmem; simp at hmem
    | some l =>
      rw [hg] at hmem
      exact ⟨l, rfl, hmem⟩
  · simp only [hmem, not_false_eq_true, and_self, if_true]
    exact ⟨_, rfl, by simp⟩

/-- Inserting an identifier that the key already holds, with the key no longer than
`maxLen`, changes nothing. -/
theorem addInternal_noop (c : DictCache) (kanji id : String)
    (hmem : id ∈ idsAt c (DictCache.cleanKey kanji))
    (hlen : (DictCache.cleanKey kanji).length ≤ c.MaxLen) :
    c.addInternal kanji id = c := by
  have hex : DictCache.idExists id ((c.mapping (DictCache.cleanKey kanji)).getD []) = true :=
    (idExists_iff _ _).2 hmem
  have hlen2 : ¬ ((DictCache.cleanKey kanji).data.length > c.maxLen) := by
    have h2 : (DictCache.cleanKey kanji).data.length = (DictCache.cleanKey kanji).length := rfl
    have h3 : c.MaxLen = c.maxLen := rfl
    omega
  unfold DictCache.addInternal
  simp only [hex, hlen2, if_true, if_false]

/-- A second `addInternal` of the same form and identifier changes nothing. -/
theorem addInternal_idem (c : DictCache) (kanji id : String) :
    (c.addInternal kanji id).addInternal kanji id = c.addInternal kanji id := by
  obtain ⟨ids, hget, hmem⟩ := addInternal_mem c kanji id
  apply addInternal_noop
  · unfold idsAt
    rw [hget]
    exact hmem
  · rw [addInternal_maxLen]
    exact Nat.le_max_right _ _

theorem strip_eq_self (f : String) (h1 : '~' ∉ f.data) (h2 : '～' ∉ f.data) : strip f = f := by
  unfold strip
  have : f.data.filter (fun ch => decide (ch ≠ '~' ∧ ch ≠ '～')) = f.data := by
    rw [List.filter_eq_self]
    intro ch hch
    have a1 : ch ≠ '~' := fun e => h1 (e ▸ hch)
    have a2 : ch ≠ '～' := fun e => h2 (e ▸ hch)
    simp [a1, a2]
  rw [this]

/-- The identifiers under a key after `addInternal`. -/
theorem addInternal_idsAt (c : DictCache) (kanji id k x : String) :
    x ∈ idsAt (c.addInternal kanji id) k
      ↔ x ∈ idsAt c k ∨ (k = DictCache.cleanKey kanji ∧ x = id) := by
  conv => lhs; unfold idsAt
  rw [addInternal_get]
  by_cases hcond : k = DictCache.cleanKey kanji ∧ id ∉ idsAt c (DictCache.cleanKey kanji)
  · simp only [hcond, not_false_eq_true, and_self, if_true, Option.getD_some,
      List.mem_append, List.mem_singleton]
    obtain ⟨hk, _⟩ := hcond
    subst hk
    simp
  · simp only [hcond, if_false]
    constructor
    · intro h; exact Or.inl h
    · intro h
      rcases h with h | ⟨hk, hx⟩
      · exact h
      · subst hk
        subst hx
        by_contra hn
        exact hcond ⟨rfl, hn⟩

/-- The identifiers under a key after `Remove`. -/
theorem remove_idsAt (c : DictCache) (kanji id k x : String) :
    x ∈ idsAt (c.Remove kanji id) k
      ↔ x ∈ idsAt c k ∧ ¬ (k = DictCache.cleanKey kanji ∧ x = id) := by
  conv => lhs; unfold idsAt
  rw [remove_get]
  by_cases hk : k = DictCache.cleanKey kanji
  · simp only [hk, if_true, true_and]
    unfold idsAt
    cases hg : c.Get (DictCache.cleanKey kanji) with
    | none => simp
    | some ids =>
      simp only [Option.getD_some]
      by_cases hf : ids.filter (fun existingID => existingID != id) = []
      · simp only [hf, if_true, Option.getD_none, List.not_mem_nil, false_iff, not_and,
          not_not]
        intro hx
        by_contra hne
        have : x ∈ ids.filter (fun existingID => existingID != id) :=
          List.mem_filter.2 ⟨hx, by simpa using hne⟩
        rw [hf] at this
        simp at this
      · simp only [hf, if_false, Option.getD_some, List.mem_filter]
        simp
  · simp [hk, idsAt]

/-- In a cache without empty lists a key is present exactly when it holds an identifier. -/
theorem isSome_iff_idsAt (c : DictCache) (h : CacheInv c) (k : String) :
    (c.Get k).isSome = true ↔ ∃ id, id ∈ idsAt c k := by
  unfold idsAt
  cases hg : c.Get k with
  | none => simp
  | some ids =>
    simp only [Option.isSome_some, Option.getD_some, true_iff]
    exact List.exists_mem_of_ne_nil _ (h k ids hg).1

theorem sameContent_of_idsAt (c1 c2 : DictCache) (h1 : CacheInv c1) (h2 : CacheInv c2)
    (h : ∀ k id, id ∈ idsAt c1 k ↔ id ∈ idsAt c2 k) : SameContent c1 c2 := by
  intro k
  refine ⟨?_, h k⟩
  rw [isSome_iff_idsAt c1 h1, isSome_iff_idsAt c2 h2]
  constructor
  · rintro ⟨id, hid⟩; exact ⟨id, (h k id).1 hid⟩
  · rintro ⟨id, hid⟩; exact ⟨id, (h k id).2 hid⟩

/-- The identifiers under a key after inserting a list of rows. -/
theorem foldl_addInternal_idsAt (rows : List Vocab) :
    ∀ (c : DictCache) (k x : String),
      x ∈ idsAt (rows.foldl (fun acc v => acc.addInternal v.Kanji v.ID) c) k
        ↔ x ∈ idsAt c k ∨ ∃ v ∈ rows, DictCache.cleanKey v.Kanji = k ∧ v.ID = x := by
  induction rows with
  | nil => intro c k x; simp
  | cons v rest ih =>
    intro c k x
    rw [List.foldl_cons, ih, addInternal_idsAt]
    constructor
    · rintro ((h | ⟨hk, hx⟩) | ⟨w, hw, hwk, hwx⟩)
      · exact Or.inl h
      · exact Or.inr ⟨v, List.mem_cons_self _ _, hk.symm, hx.symm⟩
      · exact Or.inr ⟨w, List.mem_cons_of_mem _ hw, hwk, hwx⟩
    · rintro (h | ⟨w, hw, hwk, hwx⟩)
      · exact Or.inl (Or.inl h)
      · rcases List.mem_cons.1 hw with hwv | hwr
        · subst hwv
          exact Or.inl (Or.inr ⟨hwk.symm, hwx.symm⟩)
        · exact Or.inr ⟨w, hwr, hwk, hwx⟩

/-- Upper bounds of `maxLen` after inserting a list of rows. -/
theorem foldl_addInternal_maxLen_le (rows : List Vocab) :
    ∀ (c : DictCache) (M : Nat),
      (rows.foldl (fun acc v => acc.addInternal v.Kanji v.ID) c).MaxLen ≤ M
        ↔ c.MaxLen ≤ M ∧ ∀ v ∈ rows, (DictCache.cleanKey v.Kanji).length ≤ M := by
  induction rows with
  | nil => intro c M; simp
  | cons v rest ih =>
    intro c M
    rw [List.foldl_cons, ih, addInternal_maxLen]
    simp only [List.mem_cons, forall_eq_or_imp]
    constructor
    · rintro ⟨h1, h2⟩
      exact ⟨by omega, by omega, h2⟩
    · rintro ⟨h1, h2, h3⟩
      exact ⟨by omega, h3⟩

/-- After inserting rows, `maxLen` is the old value or the key length of some row. -/
theorem foldl_addInternal_maxLen_attained (rows : List Vocab) :
    ∀ c : DictCache,
      (rows.foldl (fun acc v => acc.addInternal v.Kanji v.ID) c).MaxLen = c.MaxLen ∨
      ∃ v ∈ rows, (DictCache.cleanKey v.Kanji).length
        = (rows.foldl (fun acc v => acc.addInternal v.Kanji v.ID) c).MaxLen := by
  induction rows with
  | nil => intro c; exact Or.inl rfl
  | cons v rest ih =>
    intro c
    rw [List.foldl_cons]
    rcases ih (c.addInternal v.Kanji v.ID) with h | ⟨w, hw, hwl⟩
    · rw [h, addInternal_maxLen]
      by_cases hle : (DictCache.cleanKey v.Kanji).length ≤ c.MaxLen
      · left; omega
      · right
        exact ⟨v, List.mem_cons_self _ _, by omega⟩
    · exact Or.inr ⟨w, List.mem_cons_of_mem _ hw, hwl⟩

theorem cacheInv_reloaded (S : List Vocab) : CacheInv (reloaded S) :=
  cacheInv_runOps [CacheOp.reload (some S)]

theorem reloaded_idsAt (S : List Vocab) (k x : String) :
    x ∈ idsAt (reloaded S) k ↔ ∃ v ∈ S, DictCache.cleanKey v.Kanji = k ∧ v.ID = x := by
  unfold reloaded DictCache.Reload
  rw [foldl_addInternal_idsAt]
  simp [idsAt, DictCache.empty, DictCache.Get]

theorem reloaded_maxLen_le (S : List Vocab) (M : Nat) :
    (reloaded S).MaxLen ≤ M ↔ ∀ v ∈ S, (DictCache.cleanKey v.Kanji).length ≤ M := by
  unfold reloaded DictCache.Reload
  rw [foldl_addInternal_maxLen_le]
  simp [DictCache.empty, DictCache.MaxLen]

theorem reloaded_idsAt_pairs (S : List Vocab) (k x : String) :
    x ∈ idsAt (reloaded S) k ↔ ∃ p ∈ rowPairs S, DictCache.cleanKey p.1 = k ∧ p.2 = x := by
  rw [reloaded_idsAt]
  unfold rowPairs
  constructor
  · rintro ⟨v, hv, hk, hx⟩
    exact ⟨(v.Kanji, v.ID), List.mem_map.2 ⟨v, hv, rfl⟩, hk, hx⟩
  · rintro ⟨p, hp, hk, hx⟩
    obtain ⟨v, hv, hvp⟩ := List.mem_map.1 hp
    subst hvp
    exact ⟨v, hv, hk, hx⟩

theorem reloaded_maxLen_le_pairs (S : List Vocab) (M : Nat) :
    (reloaded S).MaxLen ≤ M ↔ ∀ p ∈ rowPairs S, (DictCache.cleanKey p.1).length ≤ M := by
  rw [reloaded_maxLen_le]
  unfold rowPairs
  constructor
  · intro h p hp
    obtain ⟨v, hv, hvp⟩ := List.mem_map.1 hp
    subst hvp
    exact h v hv
  · intro h v hv
    exact h (v.Kanji, v.ID) (List.mem_map.2 ⟨v, hv, rfl⟩)

/-- With distinct identifiers a snapshot has one row per identifier. -/
theorem rowPairs_unique (S : List Vocab) (hdist : (S.map Vocab.ID).Nodup)
    (p q : String × String) (hp : p ∈ rowPairs S) (hq : q ∈ rowPairs S) (h : p.2 = q.2) :
    p = q := by
  unfold rowPairs at hp hq
  obtain ⟨v, hv, hvp⟩ := List.mem_map.1 hp
  obtain ⟨w, hw, hwq⟩ := List.mem_map.1 hq
  subst hvp
  subst hwq
  have hvw : v = w := List.inj_on_of_nodup_map hdist hv hw h
  rw [hvw]

/-- In a reloaded snapshot with distinct identifiers, the identifier of a row is found
only under the key of that row's form. -/
theorem reloaded_id_key (S : List Vocab) (hdist : (S.map Vocab.ID).Nodup)
    (kanji id k : String) (hrow : (kanji, id) ∈ rowPairs S)
    (h : id ∈ idsAt (reloaded S) k) : k = DictCache.cleanKey kanji := by
  obtain ⟨p, hp, hk, hx⟩ := (reloaded_idsAt_pairs S k id).1 h
  have := rowPairs_unique S hdist p (kanji, id) hp hrow hx
  rw [this] at hk
  exact hk.symm

/-- Membership after the cache call of `DeleteWord` on a reloaded snapshot. -/
theorem delete_idsAt (S : List Vocab) (hdist : (S.map Vocab.ID).Nodup)
    (kanji id k x : String) (hrow : (kanji, id) ∈ rowPairs S) :
    x ∈ idsAt ((reloaded S).Remove kanji id) k
      ↔ ∃ p ∈ rowPairs S, p.2 ≠ id ∧ DictCache.cleanKey p.1 = k ∧ p.2 = x := by
  rw [remove_idsAt]
  constructor
  · rintro ⟨hmem, hnot⟩
    obtain ⟨p, hp, hk, hx⟩ := (reloaded_idsAt_pairs S k x).1 hmem
    refine ⟨p, hp, ?_, hk, hx⟩
    intro hpid
    have hxid : x = id := by rw [← hx, hpid]
    subst hxid
    exact hnot ⟨reloaded_id_key S hdist kanji x k hrow hmem, rfl⟩
  · rintro ⟨p, hp, hne, hk, hx⟩
    refine ⟨(reloaded_idsAt_pairs S k x).2 ⟨p, hp, hk, hx⟩, ?_⟩
    rintro ⟨_, hxid⟩
    exact hne (by rw [hx, hxid])

/-- Membership after the cache calls of `UpdateWord` on a reloaded snapshot. -/
theorem update_idsAt (S : List Vocab) (hdist : (S.map Vocab.ID).Nodup)
    (oldKanji newKanji id k x : String) (hrow : (oldKanji, id) ∈ rowPairs S) :
    x ∈ idsAt (updateMaintenance (reloaded S) oldKanji newKanji id) k
      ↔ (∃ p ∈ rowPairs S, p.2 ≠ id ∧ DictCache.cleanKey p.1 = k ∧ p.2 = x) ∨
        (k = DictCache.cleanKey newKanji ∧ x = id) := by
  unfold updateMaintenance DictCache.AddOrUpdate
  simp only
  by_cases hren : oldKanji ≠ newKanji
  · simp only [hren, ne_eq, not_false_eq_true, if_true]
    rw [addInternal_idsAt, delete_idsAt S hdist oldKanji id k x hrow]
  · have heq : oldKanji = newKanji := by
      by_contra hne
      exact hren hne
    subst heq
    simp only [ne_eq, not_true_eq_false, if_false]
    rw [addInternal_idsAt, reloaded_idsAt_pairs]
    constructor
    · rintro (⟨p, hp, hk, hx⟩ | h)
      · by_cases hpid : p.2 = id
        · right
          have hpe := rowPairs_unique S hdist p (oldKanji, id) hp hrow hpid
          rw [hpe] at hk hx
          exact ⟨hk.symm, hx.symm⟩
        · exact Or.inl ⟨p, hp, hpid, hk, hx⟩
      · exact Or.inr h
    · rintro (⟨p, hp, _, hk, hx⟩ | h)
      · exact Or.inl ⟨p, hp, hk, hx⟩
      · exact Or.inr h

/-! ## Lemmas on `getContext` -/

/-- The writes of the loop of `getContext` over the indices `start .. start + n - 1`. -/
theorem context_fold (tokens : List Token) :
    ∀ (n start : Nat) (sb : String),
      ((List.range' start n).foldl
          (fun sb i => sb ++ ((tokens[i]?).map Token.Text).getD "") sb).data
        = sb.data ++ ((tokens.drop start).take n).flatMap (fun t => t.Text.data) := by
  intro n
  induction n with
  | zero => intro start sb; simp
  | succ n ih =>
    intro start sb
    rw [List.range'_succ, List.foldl_cons, ih]
    by_cases hlt : start < tokens.length
    · rw [List.getElem?_eq_getElem hlt, List.drop_eq_getElem_cons hlt, List.take_succ_cons,
        List.flatMap_cons]
      simp only [Option.map_some', Option.getD_some, String.data_append, List.append_assoc]
    · have hle : tokens.length ≤ start := Nat.le_of_not_lt hlt
      rw [List.getElem?_eq_none hle, List.drop_eq_nil_of_le hle,
        List.drop_eq_nil_of_le (by omega : tokens.length ≤ start + 1)]
      simp [String.data_append]

/-- The window that `getContext` reads: from `max(0, idx - rangeVal)` up to, but not
including, `min(idx + rangeVal, len(tokens))`. -/
theorem getContext_data (tokens : List Token) (idx rangeVal : Nat) :
    (getContext tokens idx rangeVal).data
      = ((tokens.drop (idx - rangeVal)).take
          (min (idx + rangeVal) tokens.length - (idx - rangeVal))).flatMap
            (fun t => t.Text.data) := by
  unfold getContext
  have hstart : (if (idx : Int) - (rangeVal : Int) < 0 then (0 : Int)
      else (idx : Int) - (rangeVal : Int)).toNat = idx - rangeVal := by
    split
    · rename_i h
      simp only [Int.toNat_zero]
      omega
    · exact Int.toNat_sub idx rangeVal
  have hend : (if idx + rangeVal > tokens.length then tokens.length else idx + rangeVal)
      = min (idx + rangeVal) tokens.length := by
    split <;> omega
  simp only [hstart, hend]
  rw [context_fold]
  rfl

/-! ## Lemmas on the option string -/

theorem goBytes_append (a b : String) : goBytes (a ++ b) = goBytes a ++ goBytes b := by
  unfold goBytes
  rw [String.data_append, List.flatMap_append]

/-! ## Lemmas on termination and partition -/

theorem fmmLoop_succ (c : DictCache) (maxLen : Nat) (runes : List Char) (fuel : Nat)
    (s : SegState) :
    fmmLoop c maxLen runes (fuel + 1) s
      = if s.i < runes.length then fmmLoop c maxLen runes fuel (fmmStep c maxLen runes s)
        else s := rfl

/-- Once the fuel covers the rest of the text, one more unit of fuel changes nothing. -/
theorem fmmLoop_fuel_succ (c : DictCache) (maxLen : Nat) (runes : List Char) :
    ∀ (fuel : Nat) (s : SegState), s.i ≤ runes.length → runes.length - s.i ≤ fuel →
      fmmLoop c maxLen runes (fuel + 1) s = fmmLoop c maxLen runes fuel s := by
  intro fuel
  induction fuel with
  | zero =>
    intro s h1 h2
    have hnot : ¬ s.i < runes.length := by omega
    rw [fmmLoop_succ]
    simp only [hnot, if_false]
    rfl
  | succ n ih =>
    intro s h1 h2
    rw [fmmLoop_succ c maxLen runes (n + 1) s, fmmLoop_succ c maxLen runes n s]
    by_cases hlt : s.i < runes.length
    · simp only [hlt, if_true]
      obtain ⟨hc1, hc2⟩ := fmmStep_cursor c maxLen runes s hlt
      exact ih _ hc2 (by omega)
    · simp only [hlt, if_false]

/-- Any fuel that covers the rest of the text gives the same final state. -/
theorem fmmLoop_fuel_stable (c : DictCache) (maxLen : Nat) (runes : List Char)
    (s : SegState) (h1 : s.i ≤ runes.length) :
    ∀ (extra fuel : Nat), runes.length - s.i ≤ fuel →
      fmmLoop c maxLen runes (fuel + extra) s = fmmLoop c maxLen runes fuel s := by
  intro extra
  induction extra with
  | zero => intro fuel _; rfl
  | succ k ih =>
    intro fuel h2
    rw [← Nat.add_assoc, fmmLoop_fuel_succ c maxLen runes (fuel + k) s h1 (by omega)]
    exact ih fuel h2

theorem partitionInv_step (c : DictCache) (maxLen : Nat) (runes : List Char) (s : SegState)
    (hlt : s.i < runes.length) (h : PartitionInv runes s) :
    PartitionInv runes (fmmStep c maxLen runes s) := by
  refine ⟨partitioned_step c maxLen runes s hlt h.1, ?_⟩
  cases hp : probe c runes s.i (min (s.i + maxLen) runes.length) with
  | none =>
    rw [fmmStep_miss c maxLen runes s hp]
    intro t ht
    simp only [List.mem_append, List.mem_singleton] at ht
    rcases ht with ht | ht
    · exact h.2 t ht
    · rw [ht]
      simp only [String.length_mk]
      rw [length_slice runes s.i (s.i + 1) (by omega)]
      omega
  | some r =>
    obtain ⟨j, ids⟩ := r
    rw [fmmStep_hit c maxLen runes s j ids hp]
    obtain ⟨h1, h2, _, _⟩ := probe_some c runes s.i _ j ids hp
    intro t ht
    simp only [List.mem_append, List.mem_singleton] at ht
    rcases ht with ht | ht
    · exact h.2 t ht
    · rw [ht]
      simp only [String.length_mk]
      rw [length_slice runes s.i j (by omega)]
      omega

theorem partitionInv_segment (c : DictCache) (content : String) :
    PartitionInv content.data (segment c content) := by
  refine (segment_rule c content (PartitionInv content.data)
    (fun s hlt h => partitionInv_step c c.maxLen content.data s hlt h) ?_).1
  exact ⟨⟨Nat.zero_le _, rfl⟩, fun t ht => by simp at ht⟩

theorem length_le_sum_of_pos (toks : List Token) (h : ∀ t ∈ toks, 0 < t.Text.length) :
    toks.length ≤ (toks.map (fun u => u.Text.length)).sum := by
  induction toks with
  | nil => simp
  | cons a l ih =>
    simp only [List.length_cons, List.map_cons, List.sum_cons]
    have h1 := h a (List.mem_cons_self _ _)
    have h2 := ih (fun t ht => h t (List.mem_cons_of_mem _ ht))
    omega

/-! ## Lemmas on returned tokens -/

/-- Every returned token is the resolution of the input token at the same index. -/
theorem buildAnalyzeResp_token_inv (tokens : List Token)
    (tokenVocabIDsMap : Nat → Option (List String))
    (vocabObjMap : String → Option Vocab) (aiResult : String → Option Int)
    (idx : Nat) (t2 : Token)
    (h : (buildAnalyzeResp tokens tokenVocabIDsMap vocabObjMap aiResult).Tokens[idx]? = some t2) :
    ∃ t, tokens[idx]? = some t ∧
      t2 = resolvedToken tokenVocabIDsMap vocabObjMap aiResult idx t := by
  rw [buildAnalyzeResp_tokens, List.getElem?_mapIdx] at h
  cases ht : tokens[idx]? with
  | none => rw [ht] at h; simp at h
  | some t =>
    rw [ht] at h
    simp only [Option.map_some', Option.some.injEq] at h
    exact ⟨t, rfl, h.symm⟩

theorem resolvedToken_text (tokenVocabIDsMap : Nat → Option (List String))
    (vocabObjMap : String → Option Vocab) (aiResult : String → Option Int)
    (idx : Nat) (t : Token) :
    (resolvedToken tokenVocabIDsMap vocabObjMap aiResult idx t).Text = t.Text ∧
      (resolvedToken tokenVocabIDsMap vocabObjMap aiResult idx t).IsWord = t.IsWord := by
  unfold resolvedToken
  split <;> exact ⟨rfl, rfl⟩

/-- A token left by `continue` is returned as it came in. -/
theorem resolvedToken_of_none (tokenVocabIDsMap : Nat → Option (List String))
    (vocabObjMap : String → Option Vocab) (aiResult : String → Option Int)
    (idx : Nat) (t : Token)
    (h : resolve tokenVocabIDsMap vocabObjMap aiResult idx t = none) :
    resolvedToken tokenVocabIDsMap vocabObjMap aiResult idx t = t := by
  simp only [resolvedToken, h]

/-- Candidates of a resolved token: as many as hydrated pairs, at least one. -/
theorem resolvedToken_length (tokenVocabIDsMap : Nat → Option (List String))
    (vocabObjMap : String → Option Vocab) (aiResult : String → Option Int)
    (idx : Nat) (t : Token) (r : Resolved)
    (h : resolve tokenVocabIDsMap vocabObjMap aiResult idx t = some r) :
    (resolvedToken tokenVocabIDsMap vocabObjMap aiResult idx t).Candidates.length
        = (pairsOf ((tokenVocabIDsMap idx).getD []) vocabObjMap).length ∧
      0 < (pairsOf ((tokenVocabIDsMap idx).getD []) vocabObjMap).length := by
  obtain ⟨_, hopts, hpos, _, _, _⟩ := resolve_some _ _ _ _ _ _ h
  have hc := resolve_candidates _ _ _ _ _ _ h
  constructor
  · simp only [resolvedToken, h]
    rw [hc, List.length_map, List.enum_length]
  · rw [← pairs_length_eq, ← hopts]
    exact hpos

theorem countP_selected_zero (L : List WordDetail)
    (h : ∀ (j : Nat) (d : WordDetail), L[j]? = some d → d.Selected = false) :
    L.countP (fun d => d.Selected) = 0 := by
  rw [List.countP_eq_zero]
  intro d hd
  obtain ⟨j, hj⟩ := List.getElem?_of_mem hd
  simp [h j d hj]

/-- A list whose `Selected` flags mark exactly the position `sel` inside it has one
selected element. -/
theorem countP_selected_one (L : List WordDetail) :
    ∀ (sel : Nat), sel < L.length →
      (∀ (j : Nat) (d : WordDetail), L[j]? = some d → d.Selected = decide (j = sel)) →
      L.countP (fun d => d.Selected) = 1 := by
  induction L with
  | nil => intro sel hsel; simp at hsel
  | cons a rest ih =>
    intro sel hsel hflags
    have ha := hflags 0 a (by simp)
    cases sel with
    | zero =>
      have hrest : rest.countP (fun d => d.Selected) = 0 := by
        apply countP_selected_zero
        intro j d hj
        have := hflags (j + 1) d (by simpa using hj)
        simpa using this
      rw [List.countP_cons, hrest]
      simp [ha]
    | succ k =>
      have hrest : rest.countP (fun d => d.Selected) = 1 := by
        apply ih k (by simpa using hsel)
        intro j d hj
        have := hflags (j + 1) d (by simpa using hj)
        simpa using this
      rw [List.countP_cons, hrest]
      simp [ha]

/-! ## Lemmas on hydration gaps -/

/-- Identifiers absent from the hydration map contribute no pair. -/
theorem pairsOf_filter_present (candidateIDs : List String) (vocabObjMap : String → Option Vocab) :
    pairsOf (candidateIDs.filter (fun vid => (vocabObjMap vid).isSome)) vocabObjMap
      = pairsOf candidateIDs vocabObjMap := by
  unfold pairsOf
  induction candidateIDs with
  | nil => rfl
  | cons vid rest ih =>
    rw [List.filter_cons]
    cases hv : vocabObjMap vid with
    | none =>
      simp only [Option.isSome_none, Bool.false_eq_true, if_false, List.flatMap_cons, hv,
        List.nil_append]
      exact ih
    | some v =>
      simp only [Option.isSome_some, if_true, List.flatMap_cons, hv]
      rw [ih]

/-- No pair at all: every identifier is absent or hydrates to an entry without senses. -/
theorem pairsOf_eq_nil_iff (candidateIDs : List String) (vocabObjMap : String → Option Vocab) :
    pairsOf candidateIDs vocabObjMap = []
      ↔ ∀ vid ∈ candidateIDs, ∀ v, vocabObjMap vid = some v → v.Senses = [] := by
  unfold pairsOf
  induction candidateIDs with
  | nil => simp
  | cons vid rest ih =>
    rw [List.flatMap_cons, List.append_eq_nil, ih]
    simp only [List.mem_cons, forall_eq_or_imp]
    constructor
    · rintro ⟨h1, h2⟩
      refine ⟨?_, h2⟩
      intro v hv
      rw [hv] at h1
      simpa using h1
    · rintro ⟨h1, h2⟩
      refine ⟨?_, h2⟩
      cases hv : vocabObjMap vid with
      | none => rfl
      | some v => simp [h1 v hv]

/-- A word token without hydrated pairs leaves its iteration by `continue`. -/
theorem resolve_none_of_no_pairs (tokenVocabIDsMap : Nat → Option (List String))
    (vocabObjMap : String → Option Vocab) (aiResult : String → Option Int)
    (idx : Nat) (t : Token)
    (h : pairsOf ((tokenVocabIDsMap idx).getD []) vocabObjMap = []) :
    resolve tokenVocabIDsMap vocabObjMap aiResult idx t = none := by
  rw [resolve_none_iff]
  right
  rw [allOptionsOf_eq, h]
  rfl

/-- Candidates of the returned token at an index holding a word token as the segmenter
emits it. -/
theorem resolvedToken_candidates (tokenVocabIDsMap : Nat → Option (List String))
    (vocabObjMap : String → Option Vocab) (aiResult : String → Option Int)
    (idx : Nat) (text : String) :
    (resolvedToken tokenVocabIDsMap vocabObjMap aiResult idx (wordTok text)).Candidates
      = (pairsOf ((tokenVocabIDsMap idx).getD []) vocabObjMap).enum.map (fun p =>
          candidateOfPair p.2.1 p.2.2 (decide (p.1 = selectedIndexOf aiResult idx
            (pairsOf ((tokenVocabIDsMap idx).getD []) vocabObjMap).length))) := by
  cases hres : resolve tokenVocabIDsMap vocabObjMap aiResult idx (wordTok text) with
  | some r =>
    simp only [resolvedToken, hres]
    exact resolve_candidates _ _ _ _ _ _ hres
  | none =>
    rw [resolvedToken_of_none _ _ _ _ _ hres]
    rcases (resolve_none_iff _ _ _ _ _).1 hres with h | h
    · simp [wordTok] at h
    · have hp : pairsOf ((tokenVocabIDsMap idx).getD []) vocabObjMap = [] := by
        rw [allOptionsOf_eq] at h
        exact List.map_eq_nil_iff.1 h
      rw [hp]
      rfl

/-! ## Lemmas on the handler trace -/

/-- One iteration of step 4 appends the batch item of its token, if any. -/
theorem prepareStep_eq (tokens : List Token) (tokenVocabIDsMap : Nat → Option (List String))
    (vocabObjMap : String → Option Vocab) (acc : List Candidate) (p : Nat × Token) :
    prepareStep tokens tokenVocabIDsMap vocabObjMap acc p
      = acc ++ (batchItemOf tokens tokenVocabIDsMap vocabObjMap p).toList := by
  unfold prepareStep batchItemOf
  cases hw : p.2.IsWord with
  | false => simp
  | true =>
    simp only [Bool.not_true, Bool.false_eq_true, if_false, true_and]
    by_cases hids : ((tokenVocabIDsMap p.1).getD []).length = 0
    · have hnil : (tokenVocabIDsMap p.1).getD [] = [] := List.length_eq_zero.1 hids
      simp [hnil, pairsOf]
    · simp only [hids, if_false]
      rw [optionsLoop_eq]
      simp only [pairs_length_eq]
      by_cases hlen : 1 < (pairsOf ((tokenVocabIDsMap p.1).getD []) vocabObjMap).length
      · simp only [gt_iff_lt, hlen, if_true, Option.toList_some]
        rw [allOptionsOf_eq, List.map_map]
        rfl
      · simp [hlen]

/-- The batch of step 4 is the list of batch items of the tokens, in token order. -/
theorem prepareAICandidates_eq (tokens : List Token)
    (tokenVocabIDsMap : Nat → Option (List String)) (vocabObjMap : String → Option Vocab) :
    prepareAICandidates tokens tokenVocabIDsMap vocabObjMap
      = tokens.enum.filterMap (batchItemOf tokens tokenVocabIDsMap vocabObjMap) := by
  unfold prepareAICandidates
  suffices h : ∀ (l : List (Nat × Token)) (acc : List Candidate),
      l.foldl (prepareStep tokens tokenVocabIDsMap vocabObjMap) acc
        = acc ++ l.filterMap (batchItemOf tokens tokenVocabIDsMap vocabObjMap) by
    simpa using h tokens.enum []
  intro l
  induction l with
  | nil => intro acc; simp
  | cons p rest ih =>
    intro acc
    rw [List.foldl_cons, ih, prepareStep_eq, List.filterMap_cons]
    cases batchItemOf tokens tokenVocabIDsMap vocabObjMap p with
    | none => simp
    | some item => simp

/-- The possible traces of the handler on a well-formed request. -/
theorem analyzeArticle_cases (cache : DictCache) (env : Env) (content : String) :
    (∃ r, AnalyzeArticle cache env (some content) = [Effect.sse "initial" (Payload.resp r)] ∧
      (segment cache content).allFoundIDs = []) ∨
    (∃ ids r, AnalyzeArticle cache env (some content)
        = [Effect.dbFind ids, Effect.sse "initial" (Payload.resp r)] ∧
      (handlerBatch cache env content = [] ∨ env.done1 = true)) ∨
    (∃ ids r, AnalyzeArticle cache env (some content)
        = [Effect.dbFind ids, Effect.sse "initial" (Payload.resp r),
           Effect.batchDisambiguate (handlerBatch cache env content)] ∧
      handlerBatch cache env content ≠ [] ∧ env.done1 = false ∧ env.done2 = true) ∨
    (∃ ids r m, AnalyzeArticle cache env (some content)
        = [Effect.dbFind ids, Effect.sse "initial" (Payload.resp r),
           Effect.batchDisambiguate (handlerBatch cache env content),
           Effect.sse "ai_update" (Payload.aiResult m)] ∧
      handlerBatch cache env content ≠ [] ∧ env.done1 = false ∧ env.done2 = false) := by
  have hb : prepareAICandidates (segment cache content).tokens
      (segment cache content).tokenVocabIDsMap
      (vocabObjMapOf (env.db (segment cache content).allFoundIDs))
      = handlerBatch cache env content := prepareAICandidates_eq _ _ _
  unfold AnalyzeArticle
  simp only [hb]
  by_cases h0 : (segment cache content).allFoundIDs.length = 0
  · left
    simp only [h0, if_true]
    exact ⟨_, rfl, List.length_eq_zero.1 h0⟩
  · right
    simp only [h0, if_false]
    by_cases hlen : (handlerBatch cache env content).length > 0
    · have hne : handlerBatch cache env content ≠ [] := by
        intro hnil
        rw [hnil] at hlen
        simp at hlen
      simp only [hlen, if_true]
      cases hd1 : env.done1 with
      | true =>
        left
        simp only [if_true]
        exact ⟨_, _, rfl, Or.inr trivial⟩
      | false =>
        right
        simp only [Bool.false_eq_true, if_false]
        cases hd2 : env.done2 with
        | true =>
          left
          simp only [if_true]
          exact ⟨_, _, rfl, hne, trivial, trivial⟩
        | false =>
          right
          simp only [Bool.false_eq_true, if_false]
          exact ⟨_, _, _, rfl, hne, trivial, trivial⟩
    · left
      simp only [hlen, if_false]
      refine ⟨_, _, rfl, Or.inl ?_⟩
      apply List.length_eq_zero.1
      omega

/-! ## Lemmas on the token key -/

theorem digitChar_eq (d : Nat) (h : d < 10) : Nat.digitChar d = decimalDigit d := by
  interval_cases d <;> rfl

theorem decimalDigit_toNat (d : Nat) (h : d < 10) : (decimalDigit d).toNat - 48 = d := by
  interval_cases d <;> rfl

theorem decimal_lt (n : Nat) (h : n < 10) : decimal n = [decimalDigit n] := by
  rw [decimal, if_pos h]

theorem decimal_ge (n : Nat) (h : ¬ n < 10) :
    decimal n = decimal (n / 10) ++ [decimalDigit (n % 10)] := by
  rw [decimal, if_neg h]

/-- The digit loop of `Nat.repr` writes the decimal numeral. -/
theorem toDigitsCore_eq (fuel : Nat) :
    ∀ (n : Nat) (ds : List Char), n < fuel → Nat.toDigitsCore 10 fuel n ds = decimal n ++ ds := by
  induction fuel with
  | zero => intro n ds h; omega
  | succ fuel ih =>
    intro n ds h
    simp only [Nat.toDigitsCore]
    by_cases h0 : n / 10 = 0
    · have hlt : n < 10 := by omega
      rw [if_pos h0, decimal_lt n hlt, Nat.mod_eq_of_lt hlt, digitChar_eq n hlt]
      rfl
    · have hge : ¬ n < 10 := by omega
      rw [if_neg h0, ih (n / 10) _ (by omega), decimal_ge n hge,
        digitChar_eq (n % 10) (Nat.mod_lt _ (by decide))]
      simp

theorem toString_eq_decimal (n : Nat) : toString n = String.mk (decimal n) := by
  show Nat.repr n = _
  unfold Nat.repr Nat.toDigits
  rw [toDigitsCore_eq (n + 1) n [] (by omega)]
  simp [List.asString]

/-- The source key is the key `"token_<idx>"`. -/
theorem uniqueKey_eq (idx : Nat) : uniqueKey idx = tokenKeySpec idx := by
  unfold uniqueKey tokenKeySpec
  rw [toString_eq_decimal]

theorem decimalValue_append (ds : List Char) (ch : Char) :
    decimalValue (ds ++ [ch]) = 10 * decimalValue ds + (ch.toNat - 48) := by
  unfold decimalValue
  rw [List.foldl_append]
  rfl

theorem decimalValue_decimal (n : Nat) : decimalValue (decimal n) = n := by
  induction n using Nat.strong_induction_on with
  | _ n ih =>
    by_cases h : n < 10
    · rw [decimal_lt n h]
      show 10 * 0 + ((decimalDigit n).toNat - 48) = n
      rw [decimalDigit_toNat n h]
      omega
    · rw [decimal_ge n h, decimalValue_append, ih (n / 10) (by omega),
        decimalDigit_toNat (n % 10) (Nat.mod_lt _ (by decide))]
      omega

/-- Different indices have different keys. -/
theorem tokenKeySpec_injective (i j : Nat) (h : tokenKeySpec i = tokenKeySpec j) : i = j := by
  unfold tokenKeySpec at h
  have h2 := congrArg String.data h
  simp only [String.data_append] at h2
  have h3 := List.append_cancel_left h2
  have h4 := congrArg decimalValue h3
  rw [decimalValue_decimal, decimalValue_decimal] at h4
  exact h4

theorem uniqueKey_injective (i j : Nat) (h : uniqueKey i = uniqueKey j) : i = j :=
  tokenKeySpec_injective i j (by rw [← uniqueKey_eq, ← uniqueKey_eq]; exact h)

/-- The token returned at index `j` depends on the oracle mapping only through the entry
under the key of `j`. -/
theorem buildAnalyzeResp_token_key (tokens : List Token)
    (tokenVocabIDsMap : Nat → Option (List String))
    (vocabObjMap : String → Option Vocab) (ai1 ai2 : String → Option Int) (j : Nat)
    (h : ai1 (tokenKeySpec j) = ai2 (tokenKeySpec j)) :
    (buildAnalyzeResp tokens tokenVocabIDsMap vocabObjMap ai1).Tokens[j]?
      = (buildAnalyzeResp tokens tokenVocabIDsMap vocabObjMap ai2).Tokens[j]? := by
  rw [buildAnalyzeResp_tokens, buildAnalyzeResp_tokens, List.getElem?_mapIdx,
    List.getElem?_mapIdx]
  cases tokens[j]? with
  | none => rfl
  | some t =>
    simp only [Option.map_some']
    congr 1
    apply resolvedToken_congr
    unfold selectedIndexOf
    rw [uniqueKey_eq, h]
/-- A batch item carries the key of its token index. -/
theorem batchItemOf_key (tokens : List Token) (tokenVocabIDsMap : Nat → Option (List String))
    (vocabObjMap : String → Option Vocab) (idx : Nat) (t : Token) (item : Candidate)
    (h : batchItemOf tokens tokenVocabIDsMap vocabObjMap (idx, t) = some item) :
    item.WordID = uniqueKey idx := by
  unfold batchItemOf at h
  split at h
  · simp only [Option.some.injEq] at h
    rw [← h]
  · simp at h

/-! ## Lemmas on slice memory -/

theorem read_last (base : List (List Token)) (ft : List Token) :
    TokenMem.read { arrays := base ++ [ft] } base.length = ft := by
  simp [TokenMem.read, List.getD_eq_getElem?_getD]

theorem read_old (base : List (List Token)) (ft : List Token) (b : Nat) (hb : b < base.length) :
    TokenMem.read { arrays := base ++ [ft] } b = TokenMem.read { arrays := base } b := by
  simp [TokenMem.read, List.getD_eq_getElem?_getD, List.getElem?_append_left hb]

theorem set_last (base : List (List Token)) (ft ft2 : List Token) :
    (base ++ [ft]).set base.length ft2 = base ++ [ft2] := by
  induction base with
  | nil => rfl
  | cons x rest ih => simp [List.set, ih]

/-- An iteration in memory writes only into the array of `finalTokens`, and does there
what `buildStep` does to its list. -/
theorem buildStepMem_memOf (tokenVocabIDsMap : Nat → Option (List String))
    (vocabObjMap : String → Option Vocab) (aiResult : String → Option Int)
    (base : List (List Token)) (p : BuildState) (idx : Nat) :
    buildStepMem tokenVocabIDsMap vocabObjMap aiResult base.length (memOf base p) idx
      = memOf base (buildStep tokenVocabIDsMap vocabObjMap aiResult p idx) := by
  unfold buildStepMem buildStep
  simp only [memOf, read_last]
  cases ht : p.finalTokens[idx]? with
  | none => rfl
  | some t =>
    simp only
    cases hres : resolve tokenVocabIDsMap vocabObjMap aiResult idx t with
    | none => rfl
    | some r =>
      simp only [commit, TokenMem.setDetail, read_last, ht, set_last]
      cases r.bestDetail with
      | none => rfl
      | some bd =>
        cases r.allOptions[r.selectedIndex]? with
        | none => rfl
        | some opt =>
          simp only
          split <;> rfl

theorem foldl_buildStepMem (tokenVocabIDsMap : Nat → Option (List String))
    (vocabObjMap : String → Option Vocab) (aiResult : String → Option Int)
    (base : List (List Token)) (l : List Nat) :
    ∀ p : BuildState,
      l.foldl (buildStepMem tokenVocabIDsMap vocabObjMap aiResult base.length) (memOf base p)
        = memOf base (l.foldl (buildStep tokenVocabIDsMap vocabObjMap aiResult) p) := by
  induction l with
  | nil => intro p; rfl
  | cons i rest ih =>
    intro p
    rw [List.foldl_cons, List.foldl_cons, buildStepMem_memOf, ih]

/-- The call in memory appends one array, the returned tokens, and returns what the
function on token lists returns; the arrays that existed are left as they were. -/
theorem buildAnalyzeRespMem_eq (mem : TokenMem) (a : Nat)
    (tokenVocabIDsMap : Nat → Option (List String))
    (vocabObjMap : String → Option Vocab) (aiResult : String → Option Int)
    (ha : a < mem.arrays.length) :
    buildAnalyzeRespMem mem a tokenVocabIDsMap vocabObjMap aiResult
      = ({ arrays := mem.arrays ++
            [(buildAnalyzeResp (mem.read a) tokenVocabIDsMap vocabObjMap aiResult).Tokens] },
         buildAnalyzeResp (mem.read a) tokenVocabIDsMap vocabObjMap aiResult) := by
  have hcopy : (mem.make (mem.read a).length).1.copy (mem.make (mem.read a).length).2 a
      = { arrays := mem.arrays ++ [mem.read a] } := by
    simp only [TokenMem.make, TokenMem.copy, read_last]
    rw [read_old _ _ a ha]
    have hread : TokenMem.read { arrays := mem.arrays } a = mem.read a := rfl
    rw [hread]
    simp [set_last]
  unfold buildAnalyzeRespMem
  simp only [hcopy]
  have hfin : (mem.make (mem.read a).length).2 = mem.arrays.length := rfl
  rw [hfin, read_last]
  have h := foldl_buildStepMem tokenVocabIDsMap vocabObjMap aiResult mem.arrays
    (List.range (mem.read a).length)
    { finalTokens := mem.read a, resultVocabList := [], vocabListSet := [] }
  simp only [memOf] at h
  rw [h]
  simp only [read_last]
  rfl

/-! ## C1 -/

/-- C1 (longest-match priority). Whenever the segmentation loop emits a word token `t`
as its `k`-th token, the tokens before it spell the text up to the rune cursor
`i = startCursor tokens k`, and `t` is the longest match at `i`: its text is
`runes[i:i+L]`, that text is a cache key, and no `runes[i:i+L2]` with
`L < L2 ≤ min(maxLen, remaining runes)` is a cache key. -/
theorem longest_match_priority (c : DictCache) (content : String) (k : Nat) (t : Token)
    (hk : (segment c content).tokens[k]? = some t) (hw : t.IsWord = true) :
    ((segment c content).tokens.take k).flatMap (fun u => u.Text.data)
        = content.data.take (startCursor (segment c content).tokens k) ∧
      LongestMatchAt c content.data (startCursor (segment c content).tokens k) t :=
  (longestInv_segment c content).2 k t hk hw

/-- C1 at the lexicon `{"猫", "猫が"}` and the text `"猫が好き"`: the tokens are word `"猫が"`,
literal `"好"`, literal `"き"`, and the first one is the longest match at cursor 0. -/
theorem longest_match_priority_witness :
    (segment catCache "猫が好き").tokens = [wordTok "猫が", litTok "好", litTok "き"] ∧
      LongestMatchAt catCache "猫が好き".data 0 (wordTok "猫が") :=
  ⟨by decide, (longest_match_priority catCache "猫が好き" 0 (wordTok "猫が") (by decide) rfl).2⟩

/-! ## C2 -/

/-- C2. If no window `runes[i:j]` (`i < j`) of the text is a cache key, the segmentation
loop returns exactly one token per character, in input order, each a literal
(`IsWord = false`) whose text is that single character; the token count is the
character length of the input. -/
theorem no_match_all_literals (c : DictCache) (content : String)
    (hno : ∀ i j, i < j → j ≤ content.data.length →
      c.Get (String.mk (slice content.data i j)) = none) :
    (segment c content).tokens = content.data.map (fun ch => litTok (String.mk [ch])) ∧
      (segment c content).tokens.length = content.data.length := by
  have htok := segment_tokens_literal c content hno
  refine ⟨htok, ?_⟩
  rw [htok, List.length_map]

/-- C2 at the lexicon `{"猫", "猫が"}` and the text `"好き"`. -/
theorem no_match_all_literals_witness :
    (segment catCache "好き").tokens = [litTok "好", litTok "き"] ∧
      (segment catCache "好き").tokens.length = 2 :=
  no_match_all_literals catCache "好き" (by
    intro i j h1 h2
    have h3 : j ≤ 2 := h2
    have hcases : (i = 0 ∧ j = 1) ∨ (i = 0 ∧ j = 2) ∨ (i = 1 ∧ j = 2) := by omega
    rcases hcases with ⟨hi, hj⟩ | ⟨hi, hj⟩ | ⟨hi, hj⟩ <;> subst hi <;> subst hj <;> decide)

/-! ## C3 -/

/-- C3 as stated fails: in the cache with keys `"猫"`, `"が"`, `"猫が"` the sequence
`["猫", "が"]` consists of non-empty present keys, no cache key is shorter than a source
key (so none overlaps one), yet segmenting `"猫" ++ "が"` returns the single word token
`"猫が"` and not one token per source key. -/
theorem concat_keys_counterexample :
    (∀ k ∈ ["猫", "が"], 0 < k.length ∧ (overlapCache.Get k).isSome = true) ∧
      NoShorterOverlap overlapCache ["猫", "が"] ∧
      (segment overlapCache (String.join ["猫", "が"])).tokens = [wordTok "猫が"] ∧
      (segment overlapCache (String.join ["猫", "が"])).tokens ≠ ["猫", "が"].map wordTok := by
  refine ⟨by decide, ?_, by decide, by decide⟩
  intro pre post k w p hsplit hsome hlt _ _
  have hk : k ∈ ["猫", "が"] := by rw [hsplit]; simp
  have hk1 : k.length = 1 := by
    simp only [List.mem_cons, List.mem_singleton, List.mem_nil_iff, or_false] at hk
    rcases hk with h | h <;> subst h <;> rfl
  have hw0 : w.length = 0 := by omega
  have hw : w = "" := by
    cases w with
    | mk l =>
      have hl : l.length = 0 := hw0
      have hnil : l = [] := List.length_eq_zero.1 hl
      subst hnil
      rfl
  subst hw
  exact absurd hsome (by decide)

/-- C3, amended. For every cache state and every sequence `k1..kn` of non-empty keys
present in the cache, each of at most `maxLen` characters, such that at the start
cursor of each source key no window longer than that key (up to
`min(maxLen, remaining)`) is a cache key, segmenting `k1 ++ ... ++ kn` returns exactly
`n` tokens, all word tokens, the `j`-th with text `kj`. -/
theorem concat_keys_segmentation (c : DictCache) (keys : List String)
    (hkeys : ∀ k ∈ keys, 0 < k.length ∧ k.length ≤ c.MaxLen ∧ (c.Get k).isSome = true)
    (hlong : ∀ (pre post : List String) (k : String) (L : Nat), keys = pre ++ k :: post →
      k.length < L →
      L ≤ min c.MaxLen ((String.join keys).data.length - (String.join pre).data.length) →
      c.Get (String.mk (slice (String.join keys).data (String.join pre).data.length
        ((String.join pre).data.length + L))) = none) :
    (segment c (String.join keys)).tokens = keys.map wordTok ∧
      (segment c (String.join keys)).tokens.length = keys.length := by
  have h := segment_rule c (String.join keys) (KeysInv keys)
    (fun s hlt hs => keysInv_step c keys hkeys hlong s hlt hs)
    ⟨[], keys, rfl, rfl, rfl⟩
  have htok := keysInv_final keys (fun k hk => (hkeys k hk).1) _ h.2 h.1
  refine ⟨htok, ?_⟩
  rw [htok, List.length_map]

/-- C3 (amended) at the cache with keys `"猫"`, `"が"`, `"猫が"` and the sequence
`["が", "猫"]`: the window `"が猫"` is not a key, so the two keys come back as two word tokens. -/
theorem concat_keys_segmentation_witness :
    (segment overlapCache (String.join ["が", "猫"])).tokens = [wordTok "が", wordTok "猫"] ∧
      (segment overlapCache (String.join ["が", "猫"])).tokens.length = 2 :=
  concat_keys_segmentation overlapCache ["が", "猫"] (by decide) (by
    intro pre post k L hsplit hlt hle
    have hlen : (String.join ["が", "猫"]).data.length = 2 := by decide
    have hmax : overlapCache.MaxLen = 2 := by decide
    rw [hlen, hmax] at hle
    rcases pre with _ | ⟨a, _ | ⟨b, pre⟩⟩
    · simp only [List.nil_append, List.cons.injEq] at hsplit
      obtain ⟨hk, _⟩ := hsplit
      subst hk
      have hk1 : "が".length = 1 := by decide
      have hp : (String.join []).data.length = 0 := by decide
      rw [hk1] at hlt
      rw [hp] at hle
      have hL : L = 2 := by omega
      subst hL
      decide
    · simp only [List.cons_append, List.nil_append, List.cons.injEq] at hsplit
      obtain ⟨ha, hk, _⟩ := hsplit
      subst ha
      subst hk
      have hk1 : "猫".length = 1 := by decide
      have hp : (String.join ["が"]).data.length = 1 := by decide
      rw [hk1] at hlt
      rw [hp] at hle
      omega
    · simp at hsplit)

/-! ## C4 -/

/-- C4 fails on the code. `DictCache.Get` looks up the word as written, while the sibling
operations `addInternal` and `Remove` apply `cleanKey` first. In the cache built by
`AddOrUpdate("～的", "id1")` and `AddOrUpdate("日本", "id2")` (keys `"的"` and `"日本"`,
`maxLen = 2`) and the text `"～的"`, the normalized window of length 2 at cursor 0 is the key
`"的"` and is the longest such window, but the token emitted at cursor 0 is the literal
`"～"`, not a word token spanning `"～的"`. The form `"～的"` that was inserted is not found by
`Get`, its cleaned form is, and `Remove("～的", "id1")` deletes the key `"的"`. -/
theorem normalized_probe_counterexample :
    (segment affixCache "～的").tokens = [litTok "～", wordTok "的"] ∧
      (¬ (∀ (k : Nat) (t : Token) (L : Nat), (segment affixCache "～的").tokens[k]? = some t →
          NormalizedLongestAt affixCache "～的".data
            (startCursor (segment affixCache "～的").tokens k) L →
          t = wordTok (String.mk (slice "～的".data
            (startCursor (segment affixCache "～的").tokens k)
            (startCursor (segment affixCache "～的").tokens k + L))))) ∧
    affixCache.Get "～的" = none ∧
    affixCache.Get (DictCache.cleanKey "～的") = some ["id1"] ∧
    (affixCache.Remove "～的" "id1").Get "的" = none := by
  refine ⟨by decide, ?_, by decide, by decide, by decide⟩
  intro hclaim
  have h := hclaim 0 (litTok "～") 2 (by decide)
    ⟨by decide, by decide, by decide, fun L2 h1 h2 => by
      have h3 : L2 ≤ 2 := h2
      omega⟩
  exact absurd h (by decide)

/-- The probe as the code runs it, with the window as written (no affix marker is
stripped on lookup): for every cache state and text, if
`L` is the longest probe length in `1 .. min(maxLen, remaining)` whose raw window
`runes[i:i+L]` is a cache key, the token emitted at cursor `i` is the word token
spanning that window; if no probe length hits, it is the one-character literal. -/
theorem raw_probe_longest_wins (c : DictCache) (content : String) (k : Nat) (t : Token)
    (hk : (segment c content).tokens[k]? = some t) :
    (∀ L, RawLongestAt c content.data (startCursor (segment c content).tokens k) L →
        t = wordTok (String.mk (slice content.data (startCursor (segment c content).tokens k)
          (startCursor (segment c content).tokens k + L)))) ∧
      ((∀ L, 0 < L →
          L ≤ min c.MaxLen (content.data.length - startCursor (segment c content).tokens k) →
          c.Get (String.mk (slice content.data (startCursor (segment c content).tokens k)
            (startCursor (segment c content).tokens k + L))) = none) →
        t = litTok (String.mk (slice content.data (startCursor (segment c content).tokens k)
          (startCursor (segment c content).tokens k + 1)))) :=
  (rawProbeInv_segment c content).2 k t hk

/-- The probe as the code runs it, at the cache with keys `"的"`, `"日本"` and the text `"～的"`: at cursor 0 no
raw window is a key, so the token there is the literal `"～"`; at cursor 1 the raw window
`"的"` is the longest key, so the token there is the word `"的"`. -/
theorem raw_probe_longest_wins_witness :
    RawLongestAt affixCache "～的".data 1 1 ∧
      wordTok "的" = wordTok (String.mk (slice "～的".data 1 (1 + 1))) ∧
      litTok "～" = litTok (String.mk (slice "～的".data 0 (0 + 1))) :=
  have hraw : RawLongestAt affixCache "～的".data 1 1 :=
    ⟨by decide, by decide, by decide, fun L2 h1 h2 => by
      have h3 : L2 ≤ 1 := h2
      omega⟩
  ⟨hraw,
   (raw_probe_longest_wins affixCache "～的" 1 (wordTok "的") (by decide)).1 1 hraw,
   (raw_probe_longest_wins affixCache "～的" 0 (litTok "～") (by decide)).2 (by
      intro L h1 h2
      have h3 : L ≤ 2 := h2
      have hcases : L = 1 ∨ L = 2 := by omega
      rcases hcases with h | h <;> subst h <;> decide)⟩

/-! ## C5 -/

/-- C5. For every word token (as the segmenter emits it, without candidates) at index
`idx` with matched identifier list `tokenVocabIDsMap[idx]` and every hydration map, the
`Candidates` list that `buildAnalyzeResp` returns for that token is exactly the list, over
the (identifier, sense) pairs `pairsOf` — identifiers in match order, absent ones skipped,
senses in stored order — of the candidate carrying that pair's `VocabID`, `SenseID`, level,
reading, def, pos and examples (with `Selected` set at the selected index). -/
theorem candidates_are_concatenation (tokens : List Token)
    (tokenVocabIDsMap : Nat → Option (List String))
    (vocabObjMap : String → Option Vocab) (aiResult : String → Option Int)
    (idx : Nat) (t : Token)
    (ht : tokens[idx]? = some t) (hw : t.IsWord = true) (hc : t.Candidates = []) :
    ∃ t2, (buildAnalyzeResp tokens tokenVocabIDsMap vocabObjMap aiResult).Tokens[idx]? = some t2 ∧
      t2.Candidates
        = (pairsOf ((tokenVocabIDsMap idx).getD []) vocabObjMap).enum.map (fun p =>
            candidateOfPair p.2.1 p.2.2 (decide (p.1 = selectedIndexOf aiResult idx
              (pairsOf ((tokenVocabIDsMap idx).getD []) vocabObjMap).length))) ∧
      t2.Candidates.length = (pairsOf ((tokenVocabIDsMap idx).getD []) vocabObjMap).length := by
  refine ⟨_, buildAnalyzeResp_token_at tokens tokenVocabIDsMap vocabObjMap aiResult idx t ht, ?_⟩
  have hcand : (resolvedToken tokenVocabIDsMap vocabObjMap aiResult idx t).Candidates
      = (pairsOf ((tokenVocabIDsMap idx).getD []) vocabObjMap).enum.map (fun p =>
          candidateOfPair p.2.1 p.2.2 (decide (p.1 = selectedIndexOf aiResult idx
            (pairsOf ((tokenVocabIDsMap idx).getD []) vocabObjMap).length))) := by
    cases hres : resolve tokenVocabIDsMap vocabObjMap aiResult idx t with
    | some r =>
      simp only [resolvedToken, hres]
      exact resolve_candidates _ _ _ _ _ _ hres
    | none =>
      simp only [resolvedToken, hres, hc]
      rcases (resolve_none_iff _ _ _ _ _).1 hres with h | h
      · rw [hw] at h; simp at h
      · have hp : pairsOf ((tokenVocabIDsMap idx).getD []) vocabObjMap = [] := by
          rw [allOptionsOf_eq] at h
          exact List.map_eq_nil_iff.1 h
        rw [hp]
        rfl
  refine ⟨hcand, ?_⟩
  rw [hcand, List.length_map, List.enum_length]

/-- C5 at the token sequence `猫`, `だ`, token 0 matched to `id1` (two senses) and to an
identifier missing from hydration: the candidates are the two senses of `id1`, in stored
order. -/
theorem candidates_are_concatenation_witness :
    ∃ t2, (buildAnalyzeResp nekoTokens nekoIDs nekoMap pickSecond).Tokens[0]? = some t2 ∧
      t2.Candidates
        = (pairsOf ((nekoIDs 0).getD []) nekoMap).enum.map (fun p =>
            candidateOfPair p.2.1 p.2.2 (decide (p.1 = selectedIndexOf pickSecond 0
              (pairsOf ((nekoIDs 0).getD []) nekoMap).length))) ∧
      t2.Candidates.length = (pairsOf ((nekoIDs 0).getD []) nekoMap).length :=
  candidates_are_concatenation nekoTokens nekoIDs nekoMap pickSecond 0 (wordTok "猫")
    (by decide) rfl rfl

/-! ## C6 -/

/-- C6. For every word token at index `idx` that has `n ≥ 1` candidates (hydrated pairs),
the key that `buildAnalyzeResp` looks up is `"token_<idx>"` (the text `token_` followed by
the decimal numeral of `idx`), a key that no other index has. The returned token has `n`
candidates and its selection sits at `aiResult["token_<idx>"]` when that entry exists and
lies in `[0, n)`; when the entry is missing, negative or `≥ n` the selection sits at
index 0 and the returned token (its `Detail` and the `Selected` flags of its candidates)
is the one returned with the empty oracle mapping. The returned token is the same for
every oracle mapping with the same entry under `"token_<idx>"`. -/
theorem selection_range_check (tokens : List Token)
    (tokenVocabIDsMap : Nat → Option (List String))
    (vocabObjMap : String → Option Vocab) (aiResult : String → Option Int)
    (idx : Nat) (t : Token)
    (ht : tokens[idx]? = some t) (hw : t.IsWord = true)
    (hn : 1 ≤ (pairsOf ((tokenVocabIDsMap idx).getD []) vocabObjMap).length) :
    uniqueKey idx = tokenKeySpec idx ∧
    (∀ j, tokenKeySpec j = tokenKeySpec idx → j = idx) ∧
    ∃ t2, (buildAnalyzeResp tokens tokenVocabIDsMap vocabObjMap aiResult).Tokens[idx]? = some t2 ∧
      t2.Candidates.length = (pairsOf ((tokenVocabIDsMap idx).getD []) vocabObjMap).length ∧
      (∀ v : Int, aiResult (tokenKeySpec idx) = some v → 0 ≤ v →
        v < ((pairsOf ((tokenVocabIDsMap idx).getD []) vocabObjMap).length : Int) →
        SelectedAt t2 v.toNat) ∧
      ((aiResult (tokenKeySpec idx) = none ∨
          ∃ v, aiResult (tokenKeySpec idx) = some v ∧
            (v < 0 ∨ ((pairsOf ((tokenVocabIDsMap idx).getD []) vocabObjMap).length : Int) ≤ v)) →
        SelectedAt t2 0 ∧
        (buildAnalyzeResp tokens tokenVocabIDsMap vocabObjMap (fun _ => none)).Tokens[idx]?
          = some t2) ∧
      (∀ ai2 : String → Option Int, ai2 (tokenKeySpec idx) = aiResult (tokenKeySpec idx) →
        (buildAnalyzeResp tokens tokenVocabIDsMap vocabObjMap ai2).Tokens[idx]? = some t2) := by
  obtain ⟨r, hres⟩ := resolve_of_pairs tokenVocabIDsMap vocabObjMap aiResult idx t hw hn
  have hsel := resolve_selectedAt _ _ _ _ _ _ hres
  have hkey := uniqueKey_eq idx
  refine ⟨hkey, fun j hj => tokenKeySpec_injective j idx hj,
    _, buildAnalyzeResp_token_at tokens tokenVocabIDsMap vocabObjMap aiResult idx t ht,
    ?_, ?_, ?_, ?_⟩
  · simp only [resolvedToken, hres]
    rw [resolve_candidates _ _ _ _ _ _ hres, List.length_map, List.enum_length]
  · intro v hv h0 h1
    rw [← hkey] at hv
    rw [selectedIndexOf_in_range aiResult idx _ v hv h0 h1] at hsel
    exact hsel
  · intro hbad
    rw [← hkey] at hbad
    refine ⟨?_, ?_⟩
    · rw [(selectedIndexOf_fallback aiResult idx _ hbad).1] at hsel
      exact hsel
    · rw [buildAnalyzeResp_token_at tokens tokenVocabIDsMap vocabObjMap (fun _ => none) idx t ht]
      congr 1
      apply resolvedToken_congr
      rw [pairs_length_eq]
      obtain ⟨h1, h2⟩ := selectedIndexOf_fallback aiResult idx _ hbad
      rw [h1, h2]
  · intro ai2 h2
    rw [buildAnalyzeResp_token_key tokens tokenVocabIDsMap vocabObjMap ai2 aiResult idx h2]
    exact buildAnalyzeResp_token_at tokens tokenVocabIDsMap vocabObjMap aiResult idx t ht

/-- C6 at the token sequence `猫`, `だ`, `猫` whose tokens 0 and 2 have two candidates each,
with the oracle entries `token_2 ↦ 1` and `token_0 ↦ 7`: the key of token 2 is `"token_2"`,
its entry is in range and selects candidate 1; the entry of token 0 is out of range, the
selection is index 0 and the token equals the one of the empty mapping. -/
theorem selection_range_check_witness :
    uniqueKey 2 = "token_2" ∧ tokenKeySpec 2 = "token_2" ∧
    pickAtTwo "token_2" = some 1 ∧
    (∃ t2, (buildAnalyzeResp nekoTwice nekoTwiceIDs nekoMap pickAtTwo).Tokens[2]? = some t2 ∧
      t2.Candidates.length = 2 ∧ SelectedAt t2 1) ∧
    (∃ t2, (buildAnalyzeResp nekoTwice nekoTwiceIDs nekoMap pickAtTwo).Tokens[0]? = some t2 ∧
      t2.Candidates.length = 2 ∧ SelectedAt t2 0 ∧
      (buildAnalyzeResp nekoTwice nekoTwiceIDs nekoMap (fun _ => none)).Tokens[0]? = some t2) :=
  have hk2 : tokenKeySpec 2 = "token_2" := by
    rw [tokenKeySpec, decimal_lt 2 (by decide)]; rfl
  have hk0 : tokenKeySpec 0 = "token_0" := by
    rw [tokenKeySpec, decimal_lt 0 (by decide)]; rfl
  ⟨by decide, hk2, by decide,
   match selection_range_check nekoTwice nekoTwiceIDs nekoMap pickAtTwo 2 (wordTok "猫")
      (by decide) rfl (by decide) with
   | ⟨_, _, t2, h1, h2, h3, _, _⟩ =>
     ⟨t2, h1, h2, h3 1 (by rw [hk2]; decide) (by decide) (by decide)⟩,
   match selection_range_check nekoTwice nekoTwiceIDs nekoMap pickAtTwo 0 (wordTok "猫")
      (by decide) rfl (by decide) with
   | ⟨_, _, t2, h1, h2, _, h4, _⟩ =>
     ⟨t2, h1, h2, h4 (Or.inr ⟨7, by rw [hk0]; decide, Or.inr (by decide)⟩)⟩⟩

/-! ## C7 -/

/-- C7 (index-space agreement). Every item that step 4 of `AnalyzeArticle` puts in the
oracle batch belongs to a token index `idx` and carries the key `"token_<idx>"` (the text
`token_` followed by the decimal numeral of `idx`), which is the key that
`buildAnalyzeResp` looks up for that token; no other index has that key and no other item
of the batch carries it, and an oracle entry under it does not reach the token at any
other index. The item has as many option strings as the token has candidates; the `i`-th
option string is rendered from the same (identifier, sense) pair as the `i`-th candidate,
so an in-range oracle answer `v` under the item's key selects the candidate at `v`; and
the candidate ordering is the same for every oracle mapping (immediate and refined pass
alike). -/
theorem index_space_agreement (tokens : List Token)
    (tokenVocabIDsMap : Nat → Option (List String))
    (vocabObjMap : String → Option Vocab) (aiResult : String → Option Int)
    (cand : Candidate)
    (hc : cand ∈ prepareAICandidates tokens tokenVocabIDsMap vocabObjMap) :
    ∃ idx t2, cand.WordID = tokenKeySpec idx ∧ uniqueKey idx = tokenKeySpec idx ∧
      (∀ j, tokenKeySpec j = cand.WordID → j = idx) ∧
      (∀ cand2 ∈ prepareAICandidates tokens tokenVocabIDsMap vocabObjMap,
        cand2.WordID = cand.WordID → cand2 = cand) ∧
      (∀ (ai2 : String → Option Int) (j : Nat),
        (∀ k, k ≠ cand.WordID → ai2 k = aiResult k) → j ≠ idx →
        (buildAnalyzeResp tokens tokenVocabIDsMap vocabObjMap ai2).Tokens[j]?
          = (buildAnalyzeResp tokens tokenVocabIDsMap vocabObjMap aiResult).Tokens[j]?) ∧
      (buildAnalyzeResp tokens tokenVocabIDsMap vocabObjMap aiResult).Tokens[idx]? = some t2 ∧
      cand.Options.length = t2.Candidates.length ∧
      cand.Options.length = (pairsOf ((tokenVocabIDsMap idx).getD []) vocabObjMap).length ∧
      (∀ (i : Nat) (p : String × VocabSense),
        (pairsOf ((tokenVocabIDsMap idx).getD []) vocabObjMap)[i]? = some p →
        cand.Options[i]? = some (renderOption (kanjiOf vocabObjMap p.1) p.2) ∧
        t2.Candidates[i]? = some (candidateOfPair p.1 p.2
          (decide (i = selectedIndexOf aiResult idx cand.Options.length)))) ∧
      (∀ v : Int, aiResult cand.WordID = some v → 0 ≤ v → v < (cand.Options.length : Int) →
        SelectedAt t2 v.toNat) ∧
      (∀ ai2 : String → Option Int,
        ((buildAnalyzeResp tokens tokenVocabIDsMap vocabObjMap ai2).Tokens[idx]?).map
            (fun u => u.Candidates.map (fun d => (d.VocabID, d.SenseID)))
          = some (t2.Candidates.map (fun d => (d.VocabID, d.SenseID)))) := by
  have hc0 := hc
  unfold prepareAICandidates at hc
  rcases prepare_mem tokens tokenVocabIDsMap vocabObjMap cand _ _ hc with h | ⟨p, hp, hw, hlen, hcand⟩
  · simp at h
  obtain ⟨idx, t⟩ := p
  have ht : tokens[idx]? = some t := List.mk_mem_enum_iff_getElem?.1 hp
  simp only at hw hlen hcand
  have hid : cand.WordID = uniqueKey idx := by rw [hcand]
  have hkey := uniqueKey_eq idx
  have huniq : ∀ cand2 ∈ prepareAICandidates tokens tokenVocabIDsMap vocabObjMap,
      cand2.WordID = cand.WordID → cand2 = cand := by
    intro cand2 hc2 hsame
    unfold prepareAICandidates at hc2
    rcases prepare_mem tokens tokenVocabIDsMap vocabObjMap cand2 _ _ hc2 with
      h | ⟨p2, hp2, _, _, hcand2⟩
    · simp at h
    obtain ⟨idx2, u⟩ := p2
    have hu : tokens[idx2]? = some u := List.mk_mem_enum_iff_getElem?.1 hp2
    simp only at hcand2
    have hid2 : cand2.WordID = uniqueKey idx2 := by rw [hcand2]
    have hidx : idx2 = idx := uniqueKey_injective idx2 idx (by rw [← hid2, ← hid, hsame])
    subst hidx
    rw [ht] at hu
    have htu : t = u := Option.some.inj hu
    subst htu
    rw [hcand, hcand2]
  rw [optionsLoop_eq] at hlen hcand
  simp only at hlen
  have hn : 1 ≤ (pairsOf ((tokenVocabIDsMap idx).getD []) vocabObjMap).length := by
    rw [← pairs_length_eq]; omega
  have hopt : cand.Options.length
      = (pairsOf ((tokenVocabIDsMap idx).getD []) vocabObjMap).length := by
    rw [hcand]
    simp only [List.length_map]
    exact pairs_length_eq _ _
  obtain ⟨r, hres⟩ := resolve_of_pairs tokenVocabIDsMap vocabObjMap aiResult idx t hw hn
  have hcands := resolve_candidates _ _ _ _ _ _ hres
  have htok : (resolvedToken tokenVocabIDsMap vocabObjMap aiResult idx t).Candidates
      = r.candidates := by
    simp only [resolvedToken, hres]
  have hclen : (resolvedToken tokenVocabIDsMap vocabObjMap aiResult idx t).Candidates.length
      = (pairsOf ((tokenVocabIDsMap idx).getD []) vocabObjMap).length := by
    rw [htok, hcands, List.length_map, List.enum_length]
  refine ⟨idx, _, by rw [hid, hkey], hkey, ?_, huniq, ?_,
    buildAnalyzeResp_token_at tokens tokenVocabIDsMap vocabObjMap aiResult idx t ht,
    by rw [hopt, hclen], hopt, ?_, ?_, ?_⟩
  · intro j hj
    rw [hid, hkey] at hj
    exact tokenKeySpec_injective j idx hj
  · intro ai2 j hagree hj
    apply buildAnalyzeResp_token_key
    apply hagree
    intro hk
    rw [hid, hkey] at hk
    exact hj (tokenKeySpec_injective j idx hk)
  · intro i q hq
    constructor
    · rw [hcand]
      simp only
      rw [allOptionsOf_eq, List.map_map, List.getElem?_map, hq]
      rfl
    · rw [htok, hcands, hopt]
      exact getElem?_pair_candidates _ _ i q hq
  · intro v hv h0 h1
    have hsel := resolve_selectedAt _ _ _ _ _ _ hres
    rw [hid] at hv
    rw [hopt] at h1
    rw [selectedIndexOf_in_range aiResult idx _ v hv h0 h1] at hsel
    exact hsel
  · intro ai2
    obtain ⟨r2, hres2⟩ := resolve_of_pairs tokenVocabIDsMap vocabObjMap ai2 idx t hw hn
    rw [buildAnalyzeResp_token_at tokens tokenVocabIDsMap vocabObjMap ai2 idx t ht]
    simp only [Option.map_some', Option.some.injEq, resolvedToken, hres, hres2]
    rw [hcands, resolve_candidates _ _ _ _ _ _ hres2, List.map_map, List.map_map]
    apply List.map_congr_left
    intro q _
    rfl

/-- C7 at the token sequence `猫`, `だ`, `猫`: the batch holds the items keyed `token_0` and
`token_2`; the item for token 2 has two options, matching the two candidates of token 2,
and the oracle answer `token_2 ↦ 1` selects candidate 1 of token 2. -/
theorem index_space_agreement_witness :
    (prepareAICandidates nekoTwice nekoTwiceIDs nekoMap).map (fun c => c.WordID)
      = ["token_0", "token_2"] ∧
    nekoCandidateTwo ∈ prepareAICandidates nekoTwice nekoTwiceIDs nekoMap ∧
    tokenKeySpec 2 = nekoCandidateTwo.WordID ∧
    ∃ t2, (buildAnalyzeResp nekoTwice nekoTwiceIDs nekoMap pickAtTwo).Tokens[2]? = some t2 ∧
      nekoCandidateTwo.Options.length = t2.Candidates.length ∧
      SelectedAt t2 1 :=
  have hk2 : tokenKeySpec 2 = nekoCandidateTwo.WordID := by
    rw [tokenKeySpec, decimal_lt 2 (by decide)]; rfl
  ⟨by decide, by decide, hk2,
   match index_space_agreement nekoTwice nekoTwiceIDs nekoMap pickAtTwo nekoCandidateTwo
      (by decide) with
   | ⟨idx, t2, _, _, h3, _, _, h6, h7, _, _, h10, _⟩ =>
     have hidx : 2 = idx := h3 2 hk2
     ⟨t2, by rw [hidx]; exact h6, h7, h10 1 (by decide) (by decide) (by decide)⟩⟩

/-! ## C8 -/

/-- C8 fails on the code. For the lexicon `{"猫"}`, the text `"猫だ"`, an entry with two
senses and an oracle answering `token_0 ↦ 1`, the handler's `ai_update` event carries the
oracle's raw mapping; the complete result `buildAnalyzeResp(tokens, ids, vocab, aiResult)`
is never sent. -/
theorem ai_update_sends_raw_mapping :
    AnalyzeArticle nekoCache nekoEnv (some "猫だ")
      = [Effect.dbFind ["id1"],
         Effect.sse "initial" (Payload.resp
           (buildAnalyzeResp nekoTokens (segment nekoCache "猫だ").tokenVocabIDsMap nekoMap
             (fun _ => none))),
         Effect.batchDisambiguate [nekoCandidate],
         Effect.sse "ai_update" (Payload.aiResult pickSecond)] ∧
    Effect.sse "ai_update" (Payload.resp
        (buildAnalyzeResp nekoTokens (segment nekoCache "猫だ").tokenVocabIDsMap nekoMap
          pickSecond))
      ∉ AnalyzeArticle nekoCache nekoEnv (some "猫だ") := by
  have h : AnalyzeArticle nekoCache nekoEnv (some "猫だ")
      = [Effect.dbFind ["id1"],
         Effect.sse "initial" (Payload.resp
           (buildAnalyzeResp nekoTokens (segment nekoCache "猫だ").tokenVocabIDsMap nekoMap
             (fun _ => none))),
         Effect.batchDisambiguate [nekoCandidate],
         Effect.sse "ai_update" (Payload.aiResult pickSecond)] := by rfl
  refine ⟨h, ?_⟩
  rw [h]
  intro hmem
  simp only [List.mem_cons, List.mem_singleton, List.mem_nil_iff, or_false] at hmem
  rcases hmem with h1 | h1 | h1 | h1
  · exact Effect.noConfusion h1
  · injection h1 with hname _
    exact absurd hname (by decide)
  · exact Effect.noConfusion h1
  · injection h1 with _ hpay
    exact Payload.noConfusion hpay

/-! ## C9 -/

/-- C9. For every text and every cache state in which each present key maps to a
non-empty identifier list: if no window of the text is a cache key, `AnalyzeArticle`
emits exactly one event, `initial`, whose tokens are the one-character literal tokens of
the text and whose `vocab_list` is empty (no hydration query, no oracle call, no
`ai_update`); conversely, if some word token is produced, `allFoundIDs` is not empty and
the handler goes on to the hydration query instead of returning early. -/
theorem no_match_initial_only (c : DictCache) (env : Env) (content : String)
    (hinv : ∀ k ids, c.Get k = some ids → ids ≠ []) :
    ((∀ i j, i < j → j ≤ content.data.length →
        c.Get (String.mk (slice content.data i j)) = none) →
      AnalyzeArticle c env (some content)
        = [Effect.sse "initial" (Payload.resp
            { Tokens := content.data.map (fun ch => litTok (String.mk [ch])),
              VocabList := [] })]) ∧
    ((∃ t ∈ (segment c content).tokens, t.IsWord = true) →
      (segment c content).allFoundIDs ≠ [] ∧
      ∃ rest, AnalyzeArticle c env (some content)
        = Effect.dbFind (segment c content).allFoundIDs :: rest) := by
  constructor
  · intro hno
    have hlit := literalInv_segment c content hno
    have htok := segment_tokens_literal c content hno
    unfold AnalyzeArticle
    simp only [hlit.2.2.1, List.length_nil, if_true, htok]
  · intro hex
    have hne := foundInv_segment c content hinv hex
    refine ⟨hne, ?_⟩
    have hlen : ¬ ((segment c content).allFoundIDs.length = 0) :=
      fun h => hne (List.length_eq_zero.1 h)
    unfold AnalyzeArticle
    simp only [hlen, if_false]
    split
    · split
      · exact ⟨_, rfl⟩
      · split <;> exact ⟨_, rfl⟩
    · exact ⟨_, rfl⟩

/-- C9 at the lexicon `{"猫", "猫が"}`: the text `"好き"` has no match and yields the single
event `initial` with two literal tokens and an empty list; the text `"猫が好き"` produces a
word token and the handler starts with the hydration query. -/
theorem no_match_initial_only_witness :
    AnalyzeArticle catCache nekoEnv (some "好き")
      = [Effect.sse "initial" (Payload.resp
          { Tokens := [litTok "好", litTok "き"], VocabList := [] })] ∧
    ((segment catCache "猫が好き").allFoundIDs ≠ [] ∧
      ∃ rest, AnalyzeArticle catCache nekoEnv (some "猫が好き")
        = Effect.dbFind (segment catCache "猫が好き").allFoundIDs :: rest) :=
  have hinv : ∀ k ids, catCache.Get k = some ids → ids ≠ [] :=
    addInternal_nonempty _ _ _ (addInternal_nonempty _ _ _ empty_nonempty)
  ⟨(no_match_initial_only catCache nekoEnv "好き" hinv).1 (by
      intro i j h1 h2
      have h3 : j ≤ 2 := h2
      have hcases : (i = 0 ∧ j = 1) ∨ (i = 0 ∧ j = 2) ∨ (i = 1 ∧ j = 2) := by omega
      rcases hcases with ⟨hi, hj⟩ | ⟨hi, hj⟩ | ⟨hi, hj⟩ <;> subst hi <;> subst hj <;> decide),
   (no_match_initial_only catCache nekoEnv "猫が好き" hinv).2
      ⟨wordTok "猫が", by decide, rfl⟩⟩

/-! ## C10 -/

/-- C10. For every input to `buildAnalyzeResp` whose tokens are as the segmenter builds
them, let `E` be the summary entries of the returned tokens that have a `Detail`, in token
order (text = `Kanji` of the selected candidate's entry, with the token's `Detail` and
`Candidates`). The returned `VocabList` is the list of first occurrences in `E`: its
`Text` values are pairwise distinct, every resolved surface form of `E` has an entry,
entries come in order of first occurrence, and each entry is the one of the first token
that resolved to its surface form. -/
theorem vocab_list_first_occurrences (tokens : List Token)
    (tokenVocabIDsMap : Nat → Option (List String))
    (vocabObjMap : String → Option Vocab) (aiResult : String → Option Int)
    (hfresh : Fresh tokens) :
    (buildAnalyzeResp tokens tokenVocabIDsMap vocabObjMap aiResult).VocabList
        = firstOccurrences
            ((buildAnalyzeResp tokens tokenVocabIDsMap vocabObjMap aiResult).Tokens.filterMap
              (entryOfToken vocabObjMap)) ∧
      ((buildAnalyzeResp tokens tokenVocabIDsMap vocabObjMap aiResult).VocabList.map
        WordResult.Text).Nodup ∧
      (∀ x ∈ (buildAnalyzeResp tokens tokenVocabIDsMap vocabObjMap aiResult).Tokens.filterMap
            (entryOfToken vocabObjMap),
        x.Text ∈ (buildAnalyzeResp tokens tokenVocabIDsMap vocabObjMap aiResult).VocabList.map
          WordResult.Text) ∧
      (∀ e ∈ (buildAnalyzeResp tokens tokenVocabIDsMap vocabObjMap aiResult).VocabList,
        ∃ before after,
          (buildAnalyzeResp tokens tokenVocabIDsMap vocabObjMap aiResult).Tokens.filterMap
              (entryOfToken vocabObjMap) = before ++ e :: after ∧
          ∀ x ∈ before, x.Text ≠ e.Text) := by
  have h : (buildAnalyzeResp tokens tokenVocabIDsMap vocabObjMap aiResult).VocabList
      = firstOccurrences
          ((buildAnalyzeResp tokens tokenVocabIDsMap vocabObjMap aiResult).Tokens.filterMap
            (entryOfToken vocabObjMap)) := by
    rw [buildAnalyzeResp_vocab tokens tokenVocabIDsMap vocabObjMap aiResult hfresh,
      foldl_addEntry_eq]
    simp
  refine ⟨h, ?_, ?_, ?_⟩
  · rw [h]; exact firstOccurrences_nodup _
  · rw [h]; exact firstOccurrences_cover _
  · rw [h]; exact firstOccurrences_first _

/-- C10 at the token sequence `猫`, `だ`, `猫` (both `猫` matched to `id1`): the summary
list has the single text `猫`. -/
theorem vocab_list_first_occurrences_witness :
    (buildAnalyzeResp nekoTwice nekoTwiceIDs nekoMap pickSecond).VocabList.map WordResult.Text
        = ["猫"] ∧
      (buildAnalyzeResp nekoTwice nekoTwiceIDs nekoMap pickSecond).VocabList
        = firstOccurrences
            ((buildAnalyzeResp nekoTwice nekoTwiceIDs nekoMap pickSecond).Tokens.filterMap
              (entryOfToken nekoMap)) :=
  ⟨by decide,
   (vocab_list_first_occurrences nekoTwice nekoTwiceIDs nekoMap pickSecond (by
      intro t ht
      simp only [nekoTwice, List.mem_cons, List.mem_singleton, List.mem_nil_iff, or_false] at ht
      rcases ht with h | h | h <;> subst h <;> exact ⟨rfl, rfl⟩)).1⟩

/-! ## C11 -/

/-- C11 (cache invariant). Starting from the empty cache, after any finite sequence of
`Reload`, `AddOrUpdate` and `Remove` calls, every key present in the mapping maps to a
non-empty list of identifiers without duplicates. -/
theorem cache_invariant (ops : List CacheOp) (k : String) (ids : List String)
    (h : (runOps ops).Get k = some ids) : ids ≠ [] ∧ ids.Nodup :=
  cacheInv_runOps ops k ids h

/-- C11 at `sampleOps`: the key `猫` holds `id1`, `id3`, once each. -/
theorem cache_invariant_witness :
    (runOps sampleOps).Get "猫" = some ["id1", "id3"] ∧
      (["id1", "id3"] ≠ [] ∧ ["id1", "id3"].Nodup) :=
  ⟨by decide, cache_invariant sampleOps "猫" ["id1", "id3"] (by decide)⟩

/-! ## C12 -/

/-- C12. Starting from the empty cache, after any finite sequence of `Reload`,
`AddOrUpdate` and `Remove` calls, every key present in the mapping has at most `MaxLen()`
characters; hence whenever a window `runes[i:i+L]` of a text is a present key, `L` lies
inside the segmenter's probe window `min(maxLen, remaining)`. -/
theorem maxLen_bounds_keys (ops : List CacheOp) :
    (∀ k ids, (runOps ops).Get k = some ids → k.length ≤ (runOps ops).MaxLen) ∧
    (∀ (runes : List Char) (i L : Nat), i + L ≤ runes.length →
      ((runOps ops).Get (String.mk (slice runes i (i + L)))).isSome = true →
      L ≤ min (runOps ops).MaxLen (runes.length - i)) := by
  refine ⟨keysBounded_runOps ops, ?_⟩
  intro runes i L hle hsome
  obtain ⟨ids, hids⟩ := Option.isSome_iff_exists.1 hsome
  have hb := keysBounded_runOps ops _ ids hids
  rw [String.length_mk, length_slice runes i (i + L) hle] at hb
  omega

/-- C12 at `sampleOps` (`MaxLen() = 3` after the removal of `日本語`) and the text `の猫`:
the key `猫` at cursor 1 is inside the probe window. -/
theorem maxLen_bounds_keys_witness :
    "猫".length ≤ (runOps sampleOps).MaxLen ∧
      1 ≤ min (runOps sampleOps).MaxLen ("の猫".data.length - 1) :=
  ⟨(maxLen_bounds_keys sampleOps).1 "猫" ["id1", "id3"] (by decide),
   (maxLen_bounds_keys sampleOps).2 "の猫".data 1 1 (by decide) (by decide)⟩

/-! ## C13 -/

/-- C13. `AddOrUpdate` is idempotent: for every cache value, form and id, applying
`AddOrUpdate(form, id)` twice yields the same cache (mapping and `maxLen`) as applying it
once; and for every cache state (reached from the empty cache by `Reload`, `AddOrUpdate`
and `Remove`) the identifier list then observable under the form's key contains `id`
exactly once. -/
theorem addOrUpdate_idempotent :
    (∀ (c : DictCache) (form id : String),
      (c.AddOrUpdate form id).AddOrUpdate form id = c.AddOrUpdate form id) ∧
    (∀ (ops : List CacheOp) (form id : String),
      ∃ ids, (((runOps ops).AddOrUpdate form id).AddOrUpdate form id).Get
          (DictCache.cleanKey form) = some ids ∧ ids.count id = 1) := by
  constructor
  · intro c form id
    exact addInternal_idem c form id
  · intro ops form id
    have hidem : ((runOps ops).AddOrUpdate form id).AddOrUpdate form id
        = (runOps ops).AddOrUpdate form id := addInternal_idem _ form id
    rw [hidem]
    obtain ⟨ids, hget, hmem⟩ := addInternal_mem (runOps ops) form id
    refine ⟨ids, hget, ?_⟩
    have hinv : CacheInv ((runOps ops).addInternal form id) :=
      cacheInv_addInternal _ _ _ (cacheInv_runOps ops)
    exact List.count_eq_one_of_mem (hinv _ ids hget).2 hmem

/-! ## C14 -/

/-- C14. For every cache state, form and id: if `id` is the sole member of the identifier
list under the form's key, then after `Remove(form, id)` the key is deleted and
`Get(form)` is not found; if other identifiers remain, the key stays present with exactly
the remaining identifiers in their previous relative order. -/
theorem remove_sole_member (ops : List CacheOp) (form id : String) :
    ((runOps ops).Get (DictCache.cleanKey form) = some [id] →
      ((runOps ops).Remove form id).Get (DictCache.cleanKey form) = none ∧
      ((runOps ops).Remove form id).Get form = none) ∧
    (∀ ids, (runOps ops).Get (DictCache.cleanKey form) = some ids →
      ids.filter (fun x => x != id) ≠ [] →
      ((runOps ops).Remove form id).Get (DictCache.cleanKey form)
        = some (ids.filter (fun x => x != id))) := by
  constructor
  · intro hsole
    have hkey : ((runOps ops).Remove form id).Get (DictCache.cleanKey form) = none := by
      rw [remove_get]
      simp [hsole]
    refine ⟨hkey, ?_⟩
    by_cases hf : form = DictCache.cleanKey form
    · rw [← hf] at hkey
      exact hkey
    · rw [remove_get]
      simp only [hf, if_false]
      cases hg : (runOps ops).Get form with
      | none => rfl
      | some l =>
        exfalso
        obtain ⟨h1, h2⟩ := keysClean_runOps ops form l hg
        exact hf (by rw [cleanKey_eq_strip, strip_eq_self form h1 h2])
  · intro ids hget hne
    rw [remove_get]
    simp [hget, hne]

/-- C14 at `soleOps`: removing the sole identifier of `～的` deletes the key `的`; removing
`id1` from `猫` leaves `id3`. -/
theorem remove_sole_member_witness :
    (((runOps soleOps).Remove "～的" "id2").Get (DictCache.cleanKey "～的") = none ∧
      ((runOps soleOps).Remove "～的" "id2").Get "～的" = none) ∧
    ((runOps soleOps).Remove "猫" "id1").Get (DictCache.cleanKey "猫") = some ["id3"] :=
  ⟨(remove_sole_member soleOps "～的" "id2").1 (by decide),
   (remove_sole_member soleOps "猫" "id1").2 ["id1", "id3"] (by decide) (by decide)⟩

/-! ## C15 -/

/-- C15 (insertion normalization). For every cache value, form `f` and id,
`AddOrUpdate(f, id)` produces the same cache as `AddOrUpdate(strip(f), id)`, where `strip`
removes every `'~'` and `'～'`, and afterwards `Get(strip(f))` is found and contains `id`;
for every cache state (reached from the empty cache by `Reload`, `AddOrUpdate` and
`Remove`), no key present after the insertion contains `'~'` or `'～'`. -/
theorem insertion_normalization :
    (∀ (c : DictCache) (f id : String),
      c.AddOrUpdate f id = c.AddOrUpdate (strip f) id ∧
      ∃ ids, (c.AddOrUpdate f id).Get (strip f) = some ids ∧ id ∈ ids) ∧
    (∀ (ops : List CacheOp) (f id k : String) (ids : List String),
      ((runOps ops).AddOrUpdate f id).Get k = some ids → '~' ∉ k.data ∧ '～' ∉ k.data) := by
  constructor
  · intro c f id
    constructor
    · unfold DictCache.AddOrUpdate DictCache.addInternal
      simp only [cleanKey_eq_strip, strip_idem]
    · have h := addInternal_mem c f id
      rw [cleanKey_eq_strip] at h
      exact h
  · intro ops f id k ids hk
    exact keysClean_addInternal _ f id (keysClean_runOps ops) k ids hk

/-- C15 at `soleOps` and the marked form `～的` with a new identifier: the key reached is
the bare `的`, which carries no marker. -/
theorem insertion_normalization_witness :
    ((runOps soleOps).AddOrUpdate "～的" "id9").Get "的" = some ["id2", "id9"] ∧
      ('~' ∉ "的".data ∧ '～' ∉ "的".data) :=
  ⟨by decide,
   insertion_normalization.2 soleOps "～的" "id9" "的" ["id2", "id9"] (by decide)⟩

/-! ## C16 -/

/-- C16. For every prior cache value and every snapshot returned by a successful query,
the cache after `Reload` is the one obtained by inserting the snapshot rows in order into
the empty cache; an identifier is found under a key exactly when a snapshot row has that
(normalized) form and that identifier, a key is present exactly when a snapshot row has
that form (nothing of the prior state survives otherwise); and `maxLen` is exactly the
maximum character length of the present keys: it bounds every present key, is `0` for the
empty snapshot and is the length of a present key otherwise. -/
theorem reload_replaces (c : DictCache) (rows : List Vocab) :
    c.Reload (some rows)
        = rows.foldl (fun acc v => acc.AddOrUpdate v.Kanji v.ID) DictCache.empty ∧
    (∀ k id, id ∈ idsAt (c.Reload (some rows)) k
        ↔ ∃ v ∈ rows, DictCache.cleanKey v.Kanji = k ∧ v.ID = id) ∧
    (∀ k, ((c.Reload (some rows)).Get k).isSome = true
        ↔ ∃ v ∈ rows, DictCache.cleanKey v.Kanji = k) ∧
    (∀ k, ((c.Reload (some rows)).Get k).isSome = true →
        k.length ≤ (c.Reload (some rows)).MaxLen) ∧
    (rows = [] → (c.Reload (some rows)).MaxLen = 0) ∧
    (rows ≠ [] → ∃ k, ((c.Reload (some rows)).Get k).isSome = true ∧
        k.length = (c.Reload (some rows)).MaxLen) := by
  have hre : c.Reload (some rows) = reloaded rows := rfl
  have hpres : ∀ k, ((reloaded rows).Get k).isSome = true
      ↔ ∃ v ∈ rows, DictCache.cleanKey v.Kanji = k := by
    intro k
    rw [isSome_iff_idsAt _ (cacheInv_reloaded rows)]
    constructor
    · rintro ⟨id, hid⟩
      obtain ⟨v, hv, hk, _⟩ := (reloaded_idsAt rows k id).1 hid
      exact ⟨v, hv, hk⟩
    · rintro ⟨v, hv, hk⟩
      exact ⟨v.ID, (reloaded_idsAt rows k v.ID).2 ⟨v, hv, hk, rfl⟩⟩
  have hbound : ∀ k, ((reloaded rows).Get k).isSome = true → k.length ≤ (reloaded rows).MaxLen := by
    intro k hk
    obtain ⟨v, hv, hvk⟩ := (hpres k).1 hk
    rw [← hvk]
    exact (reloaded_maxLen_le rows _).1 (Nat.le_refl _) v hv
  rw [hre]
  refine ⟨rfl, reloaded_idsAt rows, hpres, hbound, ?_, ?_⟩
  · intro hnil
    subst hnil
    rfl
  · intro hne
    rcases foldl_addInternal_maxLen_attained rows DictCache.empty with h | ⟨v, hv, hlen⟩
    · obtain ⟨v, hv⟩ := List.exists_mem_of_ne_nil rows hne
      have hk := (hpres (DictCache.cleanKey v.Kanji)).2 ⟨v, hv, rfl⟩
      refine ⟨_, hk, ?_⟩
      have hle := hbound _ hk
      have h0 : (reloaded rows).MaxLen = 0 := h
      omega
    · exact ⟨_, (hpres _).2 ⟨v, hv, rfl⟩, hlen⟩

/-- C16 at the prior cache `{"猫", "猫が"}` and the snapshot (`猫`, `id1`), (`～的`, `id2`):
after the reload the key `猫が` of the prior state is gone, `的` holds `id2`, and `maxLen`
is 1, the length of the present key `的`. -/
theorem reload_replaces_witness :
    (catCache.Reload (some sampleRows)).Get "猫が" = none ∧
      (catCache.Reload (some sampleRows)).Get "的" = some ["id2"] ∧
      "的".length ≤ (catCache.Reload (some sampleRows)).MaxLen ∧
      ∃ k, ((catCache.Reload (some sampleRows)).Get k).isSome = true ∧
        k.length = (catCache.Reload (some sampleRows)).MaxLen :=
  ⟨by decide, by decide,
   (reload_replaces catCache sampleRows).2.2.2.1 "的" (by decide),
   (reload_replaces catCache sampleRows).2.2.2.2.2 (by decide)⟩

/-! ## C17 -/

/-- C17. `maxLen` never shrinks outside `Reload`: for every cache value, form and id,
`MaxLen()` after `AddOrUpdate(form, id)` is the maximum of the old `maxLen` and the
character length of the normalized form, and `MaxLen()` after `Remove(form, id)` is the old
`maxLen` — as in the cache holding only `日本語 ↦ [id4]`, where removing `id4` deletes the
only key and leaves `MaxLen() = 3`. -/
theorem maxLen_never_shrinks :
    (∀ (c : DictCache) (form id : String),
      (c.AddOrUpdate form id).MaxLen = max c.MaxLen (DictCache.cleanKey form).length ∧
      (c.Remove form id).MaxLen = c.MaxLen) ∧
    (((DictCache.empty.AddOrUpdate "日本語" "id4").Remove "日本語" "id4").Get "日本語" = none ∧
      ((DictCache.empty.AddOrUpdate "日本語" "id4").Remove "日本語" "id4").MaxLen = 3) := by
  refine ⟨fun c form id => ⟨addInternal_maxLen c form id, remove_maxLen c form id⟩, ?_⟩
  constructor <;> decide

/-! ## C18 -/

/-- C18. Let `S` be a snapshot with distinct ids and the cache be `Reload(S)`. The cache
calls of the handlers — create: `AddOrUpdate(kanji, id)`; rename: `Remove(oldKanji, id)`
when `oldKanji != newKanji`, then `AddOrUpdate(newKanji, id)`; delete: `Remove(kanji, id)`
— leave a cache with the same key set and the same identifier set per key as a full
`Reload` of any snapshot `S2` holding the correspondingly updated rows, and `maxLen` is at
least the reloaded value. -/
theorem incremental_maintenance (S : List Vocab) (hdist : (S.map Vocab.ID).Nodup) :
    (∀ (kanji id : String) (S2 : List Vocab),
      (∀ p, p ∈ rowPairs S2 ↔ p ∈ rowPairs S ∨ p = (kanji, id)) →
      SameContent (createMaintenance (reloaded S) kanji id) (reloaded S2) ∧
      (reloaded S2).MaxLen ≤ (createMaintenance (reloaded S) kanji id).MaxLen) ∧
    (∀ (oldKanji newKanji id : String) (S2 : List Vocab),
      (oldKanji, id) ∈ rowPairs S →
      (∀ p, p ∈ rowPairs S2 ↔ (p ∈ rowPairs S ∧ p.2 ≠ id) ∨ p = (newKanji, id)) →
      SameContent (updateMaintenance (reloaded S) oldKanji newKanji id) (reloaded S2) ∧
      (reloaded S2).MaxLen ≤ (updateMaintenance (reloaded S) oldKanji newKanji id).MaxLen) ∧
    (∀ (kanji id : String) (S2 : List Vocab),
      (kanji, id) ∈ rowPairs S →
      (∀ p, p ∈ rowPairs S2 ↔ p ∈ rowPairs S ∧ p.2 ≠ id) →
      SameContent (deleteMaintenance (reloaded S) kanji id) (reloaded S2) ∧
      (reloaded S2).MaxLen ≤ (deleteMaintenance (reloaded S) kanji id).MaxLen) := by
  have hS : ∀ p ∈ rowPairs S, (DictCache.cleanKey p.1).length ≤ (reloaded S).MaxLen :=
    (reloaded_maxLen_le_pairs S _).1 (Nat.le_refl _)
  refine ⟨?_, ?_, ?_⟩
  · intro kanji id S2 hS2
    constructor
    · apply sameContent_of_idsAt _ _
        (cacheInv_addInternal _ _ _ (cacheInv_reloaded S)) (cacheInv_reloaded S2)
      intro k x
      rw [addInternal_idsAt, reloaded_idsAt_pairs, reloaded_idsAt_pairs]
      constructor
      · rintro (⟨p, hp, hk, hx⟩ | ⟨hk, hx⟩)
        · exact ⟨p, (hS2 p).2 (Or.inl hp), hk, hx⟩
        · exact ⟨(kanji, id), (hS2 _).2 (Or.inr rfl), hk.symm, hx.symm⟩
      · rintro ⟨p, hp, hk, hx⟩
        rcases (hS2 p).1 hp with h | h
        · exact Or.inl ⟨p, h, hk, hx⟩
        · subst h
          exact Or.inr ⟨hk.symm, hx.symm⟩
    · rw [reloaded_maxLen_le_pairs]
      intro p hp
      unfold createMaintenance DictCache.AddOrUpdate
      rw [addInternal_maxLen]
      rcases (hS2 p).1 hp with h | h
      · exact Nat.le_trans (hS p h) (Nat.le_max_left _ _)
      · subst h
        exact Nat.le_max_right _ _
  · intro oldKanji newKanji id S2 hrow hS2
    constructor
    · have hinv : CacheInv (updateMaintenance (reloaded S) oldKanji newKanji id) := by
        unfold updateMaintenance DictCache.AddOrUpdate
        simp only
        split
        · exact cacheInv_addInternal _ _ _ (cacheInv_remove _ _ _ (cacheInv_reloaded S))
        · exact cacheInv_addInternal _ _ _ (cacheInv_reloaded S)
      apply sameContent_of_idsAt _ _ hinv (cacheInv_reloaded S2)
      intro k x
      rw [update_idsAt S hdist oldKanji newKanji id k x hrow, reloaded_idsAt_pairs]
      constructor
      · rintro (⟨p, hp, hne, hk, hx⟩ | ⟨hk, hx⟩)
        · exact ⟨p, (hS2 p).2 (Or.inl ⟨hp, hne⟩), hk, hx⟩
        · exact ⟨(newKanji, id), (hS2 _).2 (Or.inr rfl), hk.symm, hx.symm⟩
      · rintro ⟨p, hp, hk, hx⟩
        rcases (hS2 p).1 hp with ⟨h, hne⟩ | h
        · exact Or.inl ⟨p, h, hne, hk, hx⟩
        · subst h
          exact Or.inr ⟨hk.symm, hx.symm⟩
    · rw [reloaded_maxLen_le_pairs]
      intro p hp
      have hmax : (updateMaintenance (reloaded S) oldKanji newKanji id).MaxLen
          = max (reloaded S).MaxLen (DictCache.cleanKey newKanji).length := by
        unfold updateMaintenance DictCache.AddOrUpdate
        simp only
        split
        · rw [addInternal_maxLen, remove_maxLen]
        · rw [addInternal_maxLen]
      rw [hmax]
      rcases (hS2 p).1 hp with ⟨h, _⟩ | h
      · exact Nat.le_trans (hS p h) (Nat.le_max_left _ _)
      · subst h
        exact Nat.le_max_right _ _
  · intro kanji id S2 hrow hS2
    constructor
    · apply sameContent_of_idsAt _ _
        (cacheInv_remove _ _ _ (cacheInv_reloaded S)) (cacheInv_reloaded S2)
      intro k x
      rw [delete_idsAt S hdist kanji id k x hrow, reloaded_idsAt_pairs]
      constructor
      · rintro ⟨p, hp, hne, hk, hx⟩
        exact ⟨p, (hS2 p).2 ⟨hp, hne⟩, hk, hx⟩
      · rintro ⟨p, hp, hk, hx⟩
        obtain ⟨h, hne⟩ := (hS2 p).1 hp
        exact ⟨p, h, hne, hk, hx⟩
    · rw [reloaded_maxLen_le_pairs]
      intro p hp
      unfold deleteMaintenance
      rw [remove_maxLen]
      exact hS p ((hS2 p).1 hp).1
/-- C18 at the snapshot (`猫`, `id1`), (`～的`, `id2`): deleting the row of `id2`, and
renaming `id2` from `～的` to `的な`, leave the cache with the content of a reload of
the updated snapshot. -/
theorem incremental_maintenance_witness :
    (SameContent (deleteMaintenance (reloaded sampleRows) "～的" "id2")
        (reloaded [rowOf "猫" "id1"]) ∧
      (reloaded [rowOf "猫" "id1"]).MaxLen
        ≤ (deleteMaintenance (reloaded sampleRows) "～的" "id2").MaxLen) ∧
    (SameContent (updateMaintenance (reloaded sampleRows) "～的" "的な" "id2")
        (reloaded [rowOf "猫" "id1", rowOf "的な" "id2"]) ∧
      (reloaded [rowOf "猫" "id1", rowOf "的な" "id2"]).MaxLen
        ≤ (updateMaintenance (reloaded sampleRows) "～的" "的な" "id2").MaxLen) :=
  ⟨(incremental_maintenance sampleRows (by decide)).2.2 "～的" "id2" [rowOf "猫" "id1"]
      (by decide) (by
        rintro ⟨a, b⟩
        simp only [rowPairs, sampleRows, rowOf, List.map_cons, List.map_nil, List.mem_cons,
          List.mem_singleton, List.mem_nil_iff, or_false, Prod.mk.injEq]
        constructor
        · rintro ⟨rfl, rfl⟩
          exact ⟨Or.inl ⟨rfl, rfl⟩, by decide⟩
        · rintro ⟨⟨rfl, rfl⟩ | ⟨rfl, rfl⟩, hne⟩
          · exact ⟨rfl, rfl⟩
          · exact absurd rfl hne),
   (incremental_maintenance sampleRows (by decide)).2.1 "～的" "的な" "id2"
      [rowOf "猫" "id1", rowOf "的な" "id2"] (by decide) (by
        rintro ⟨a, b⟩
        simp only [rowPairs, sampleRows, rowOf, List.map_cons, List.map_nil, List.mem_cons,
          List.mem_singleton, List.mem_nil_iff, or_false, Prod.mk.injEq]
        constructor
        · rintro (⟨rfl, rfl⟩ | ⟨rfl, rfl⟩)
          · exact Or.inl ⟨Or.inl ⟨rfl, rfl⟩, by decide⟩
          · exact Or.inr ⟨rfl, rfl⟩
        · rintro (⟨⟨rfl, rfl⟩ | ⟨rfl, rfl⟩, hne⟩ | ⟨rfl, rfl⟩)
          · exact Or.inl ⟨rfl, rfl⟩
          · exact absurd rfl hne
          · exact Or.inr ⟨rfl, rfl⟩)⟩

/-! ## C19 -/

/-- C19 fails on the code. `getContext(tokens, idx, r)` concatenates the tokens at
positions `max(0, idx - r)` up to but not including `min(idx + r, len(tokens))`: the token
at `idx + r` is left out. With the seventeen tokens `a` .. `q`, `idx = 0` and `r = 15` the
code returns `a` .. `o` (fifteen tokens) where the claimed window `0 .. 15` is `a` .. `p`. -/
theorem context_window_stops_one_short :
    (∀ (tokens : List Token) (idx r : Nat),
      (getContext tokens idx r).data
        = ((tokens.drop (idx - r)).take (min (idx + r) tokens.length - (idx - r))).flatMap
            (fun t => t.Text.data)) ∧
    getContext alphaTokens 0 15 = "abcdefghijklmno" ∧
    contextWindowSpec alphaTokens 0 15 = "abcdefghijklmnop" ∧
    getContext alphaTokens 0 15 ≠ contextWindowSpec alphaTokens 0 15 :=
  ⟨getContext_data, by decide, by decide, by decide⟩

/-! ## C20 -/

/-- C20 fails on the code. The option string is the bytes of
`"[<kanji>] [<level>] <pos> - "` followed by the gloss measured and cut in bytes: a gloss
of more than 50 bytes is replaced by its first 50 bytes and `"..."`. The 17-character
gloss `一二三四五六七八九十一二三四五六七` (51 bytes) is therefore not left unchanged but cut
inside its last character, whose first two bytes `0xE4 0xB8` are followed by `"..."`; the
claimed option string keeps that gloss whole. -/
theorem option_gloss_cut_in_bytes :
    (∀ (kanji : String) (s : VocabSense),
      renderOption kanji s
        = goBytes ("[" ++ kanji ++ "] [" ++ s.Level ++ "] " ++ s.Pos ++ " - ") ++
            (if (goBytes s.Def).length > 50 then (goBytes s.Def).take 50 ++ goBytes "..."
             else goBytes s.Def)) ∧
    renderOption "猫" longSense
        = goBytes "[猫] [N5] 名词 - 一二三四五六七八九十一二三四五六" ++ [0xE4, 0xB8] ++ goBytes "..." ∧
    renderOptionSpec "猫" longSense = "[猫] [N5] 名词 - 一二三四五六七八九十一二三四五六七" ∧
    renderOption "猫" longSense ≠ goBytes (renderOptionSpec "猫" longSense) := by
  refine ⟨?_, by decide, by decide, by decide⟩
  intro kanji s
  unfold renderOption
  simp only [goBytes_append, List.append_assoc]
  have h : goBytes "] [" = goBytes "]" ++ goBytes " [" := by decide
  rw [h, List.append_assoc]

/-! ## C21 -/

/-- C21. Every request makes at most one oracle call. On a well-formed request, a call is
made only with the non-empty batch `handlerBatch`, which holds, in token order, one item
per token whose candidate list has strictly more than one entry; so no call is made when
no token has more than one candidate. No two items of the batch carry the same key. For
each token, the item is absent exactly when the returned token has at most one candidate;
when present it is keyed `"token_<idx>"` (the text `token_` followed by the decimal numeral
of `idx`), a key that the item of no other index has, and it has one option per candidate;
and a token with a single candidate keeps selection index 0 whatever the oracle mapping
holds. -/
theorem one_bulk_oracle_call (cache : DictCache) (env : Env) :
    (∀ body, (oracleCalls (AnalyzeArticle cache env body)).length ≤ 1) ∧
    (∀ content,
      (∀ cands ∈ oracleCalls (AnalyzeArticle cache env (some content)),
        cands = handlerBatch cache env content ∧ cands ≠ []) ∧
      (handlerBatch cache env content = [] →
        oracleCalls (AnalyzeArticle cache env (some content)) = []) ∧
      (∀ c1 ∈ handlerBatch cache env content, ∀ c2 ∈ handlerBatch cache env content,
        c1.WordID = c2.WordID → c1 = c2) ∧
      (∀ (aiResult : String → Option Int) (idx : Nat) (t : Token),
        (segment cache content).tokens[idx]? = some t →
        ∃ t2, (buildAnalyzeResp (segment cache content).tokens
            (segment cache content).tokenVocabIDsMap (handlerVocabMap cache env content)
            aiResult).Tokens[idx]? = some t2 ∧
          (batchItemOf (segment cache content).tokens (segment cache content).tokenVocabIDsMap
              (handlerVocabMap cache env content) (idx, t) = none
            ↔ t2.Candidates.length ≤ 1) ∧
          (∀ item, batchItemOf (segment cache content).tokens
              (segment cache content).tokenVocabIDsMap
              (handlerVocabMap cache env content) (idx, t) = some item →
            item.WordID = tokenKeySpec idx ∧ item.Options.length = t2.Candidates.length ∧
            (∀ (idx2 : Nat) (u : Token) (item2 : Candidate),
              batchItemOf (segment cache content).tokens
                (segment cache content).tokenVocabIDsMap
                (handlerVocabMap cache env content) (idx2, u) = some item2 →
              item2.WordID = item.WordID → idx2 = idx)) ∧
          (t2.Candidates.length = 1 → SelectedAt t2 0))) := by
  constructor
  · intro body
    cases body with
    | none => simp [AnalyzeArticle, oracleCalls]
    | some content =>
      rcases analyzeArticle_cases cache env content with ⟨r, h, _⟩ | ⟨ids, r, h, _⟩ |
        ⟨ids, r, h, _⟩ | ⟨ids, r, m, h, _⟩ <;> rw [h] <;> simp [oracleCalls]
  · intro content
    refine ⟨?_, ?_, ?_, ?_⟩
    · intro cands hc
      rcases analyzeArticle_cases cache env content with ⟨r, h, _⟩ | ⟨ids, r, h, _⟩ |
        ⟨ids, r, h, hne, _⟩ | ⟨ids, r, m, h, hne, _⟩
      · rw [h] at hc; simp [oracleCalls] at hc
      · rw [h] at hc; simp [oracleCalls] at hc
      · rw [h] at hc
        simp only [oracleCalls, List.filterMap_cons, List.filterMap_nil, List.mem_singleton] at hc
        rw [hc]
        exact ⟨rfl, hne⟩
      · rw [h] at hc
        simp only [oracleCalls, List.filterMap_cons, List.filterMap_nil, List.mem_singleton] at hc
        rw [hc]
        exact ⟨rfl, hne⟩
    · intro hnil
      rcases analyzeArticle_cases cache env content with ⟨r, h, _⟩ | ⟨ids, r, h, _⟩ |
        ⟨ids, r, h, hne, _⟩ | ⟨ids, r, m, h, hne, _⟩
      · rw [h]; simp [oracleCalls]
      · rw [h]; simp [oracleCalls]
      · exact absurd hnil hne
      · exact absurd hnil hne
    · intro c1 h1 c2 h2 hsame
      unfold handlerBatch at h1 h2
      obtain ⟨p1, hp1, hb1⟩ := List.mem_filterMap.1 h1
      obtain ⟨p2, hp2, hb2⟩ := List.mem_filterMap.1 h2
      obtain ⟨i1, t1⟩ := p1
      obtain ⟨i2, t2⟩ := p2
      have hk1 := batchItemOf_key _ _ _ i1 t1 c1 hb1
      have hk2 := batchItemOf_key _ _ _ i2 t2 c2 hb2
      have hi : i1 = i2 := uniqueKey_injective i1 i2 (by rw [← hk1, ← hk2, hsame])
      subst hi
      have ht1 : (segment cache content).tokens[i1]? = some t1 :=
        List.mk_mem_enum_iff_getElem?.1 hp1
      have ht2 : (segment cache content).tokens[i1]? = some t2 :=
        List.mk_mem_enum_iff_getElem?.1 hp2
      rw [ht1] at ht2
      have ht : t1 = t2 := Option.some.inj ht2
      subst ht
      rw [hb1] at hb2
      exact Option.some.inj hb2
    · intro aiResult idx t ht
      refine ⟨_, buildAnalyzeResp_token_at _ _ _ aiResult idx t ht, ?_⟩
      have hfresh := segment_fresh cache content t (List.getElem?_mem ht)
      cases hres : resolve (segment cache content).tokenVocabIDsMap
          (handlerVocabMap cache env content) aiResult idx t with
      | none =>
        rw [resolvedToken_of_none _ _ _ _ _ hres, hfresh.2]
        have hitem : batchItemOf (segment cache content).tokens
            (segment cache content).tokenVocabIDsMap
            (handlerVocabMap cache env content) (idx, t) = none := by
          unfold batchItemOf
          rcases (resolve_none_iff _ _ _ _ _).1 hres with hw | hopts
          · simp [hw]
          · have hp : pairsOf (((segment cache content).tokenVocabIDsMap idx).getD [])
                (handlerVocabMap cache env content) = [] := by
              rw [allOptionsOf_eq] at hopts
              exact List.map_eq_nil_iff.1 hopts
            simp [hp]
        rw [hitem]
        simp
      | some r =>
        obtain ⟨hlen, hpos⟩ := resolvedToken_length _ _ _ _ _ _ hres
        obtain ⟨hw, _⟩ := resolve_some _ _ _ _ _ _ hres
        have hsel := resolve_selectedAt _ _ _ _ _ _ hres
        refine ⟨?_, ?_, ?_⟩
        · rw [hlen]
          unfold batchItemOf
          by_cases hgt : 1 < (pairsOf (((segment cache content).tokenVocabIDsMap idx).getD [])
              (handlerVocabMap cache env content)).length
          · simp only [hw, hgt, and_self, if_true]
            constructor
            · intro h; simp at h
            · intro h; omega
          · simp only [hw, hgt, and_false, if_false, true_iff]
            omega
        · intro item hitem
          have hkey := batchItemOf_key _ _ _ idx t item hitem
          refine ⟨by rw [hkey, uniqueKey_eq], ?_, ?_⟩
          · unfold batchItemOf at hitem
            split at hitem
            · simp only [Option.some.injEq] at hitem
              rw [← hitem, hlen]
              simp
            · simp at hitem
          · intro idx2 u item2 hitem2 hsame
            have hkey2 := batchItemOf_key _ _ _ idx2 u item2 hitem2
            exact uniqueKey_injective idx2 idx (by rw [← hkey2, ← hkey, hsame])
        · intro hone
          rw [hlen] at hone
          rw [hone] at hsel
          have h0 : selectedIndexOf aiResult idx 1 = 0 := by
            have := selectedIndexOf_lt aiResult idx 1 (by omega)
            omega
          rw [h0] at hsel
          exact hsel

/-- C21 at the lexicon `{"猫"}` whose entry has two senses: the text `"だ猫だ猫"` gives one
call whose batch holds the items keyed `token_1` and `token_3`, in that order; the text
`"だ"` gives an empty batch and no call. -/
theorem one_bulk_oracle_call_witness :
    (oracleCalls (AnalyzeArticle nekoCache nekoEnv (some "だ猫だ猫"))).map
        (fun cands => cands.map (fun c => c.WordID)) = [["token_1", "token_3"]] ∧
    (handlerBatch nekoCache nekoEnv "だ猫だ猫").map (fun c => c.WordID) = ["token_1", "token_3"] ∧
    (oracleCalls (AnalyzeArticle nekoCache nekoEnv (some "だ猫だ猫"))).length ≤ 1 ∧
    (handlerBatch nekoCache nekoEnv "だ" = [] →
      oracleCalls (AnalyzeArticle nekoCache nekoEnv (some "だ")) = []) ∧
    handlerBatch nekoCache nekoEnv "だ" = [] :=
  ⟨by decide, by decide,
   (one_bulk_oracle_call nekoCache nekoEnv).1 (some "だ猫だ猫"),
   ((one_bulk_oracle_call nekoCache nekoEnv).2 "だ").2.1,
   by decide⟩

/-! ## C22 -/

/-- C22 (hydration gap). Let the token at `idx` be a word token as the segmenter emits it.
If each of its matched identifiers is absent from the hydration map or hydrates to an entry
without senses, `buildAnalyzeResp` returns the token unchanged — same `Text`,
`IsWord = true`, no `Detail`, no `Candidates` —, the token yields no summary entry and its
iteration leaves the loop state (hence `vocab_list`) as it was. In every case the returned
token's candidates are exactly those of the identifiers that are present. -/
theorem hydration_gap (tokens : List Token)
    (tokenVocabIDsMap : Nat → Option (List String))
    (vocabObjMap : String → Option Vocab) (aiResult : String → Option Int)
    (idx : Nat) (text : String) (ht : tokens[idx]? = some (wordTok text)) :
    ((∀ vid ∈ (tokenVocabIDsMap idx).getD [], ∀ v, vocabObjMap vid = some v → v.Senses = []) →
      (buildAnalyzeResp tokens tokenVocabIDsMap vocabObjMap aiResult).Tokens[idx]?
        = some (wordTok text) ∧
      entryOfToken vocabObjMap (wordTok text) = none ∧
      buildPrefix tokens tokenVocabIDsMap vocabObjMap aiResult (idx + 1)
        = buildPrefix tokens tokenVocabIDsMap vocabObjMap aiResult idx) ∧
    (∃ t2, (buildAnalyzeResp tokens tokenVocabIDsMap vocabObjMap aiResult).Tokens[idx]? = some t2 ∧
      t2.Text = text ∧ t2.IsWord = true ∧
      t2.Candidates
        = (pairsOf (((tokenVocabIDsMap idx).getD []).filter (fun vid => (vocabObjMap vid).isSome))
            vocabObjMap).enum.map (fun p =>
              candidateOfPair p.2.1 p.2.2 (decide (p.1 = selectedIndexOf aiResult idx
                (pairsOf (((tokenVocabIDsMap idx).getD []).filter
                  (fun vid => (vocabObjMap vid).isSome)) vocabObjMap).length)))) := by
  have hat := buildAnalyzeResp_token_at tokens tokenVocabIDsMap vocabObjMap aiResult idx _ ht
  constructor
  · intro hgap
    have hp := (pairsOf_eq_nil_iff _ _).2 hgap
    have hres := resolve_none_of_no_pairs tokenVocabIDsMap vocabObjMap aiResult idx
      (wordTok text) hp
    refine ⟨?_, rfl, ?_⟩
    · rw [hat, resolvedToken_of_none _ _ _ _ _ hres]
    · have hlt : idx < tokens.length := by
        rcases List.getElem?_eq_some.1 ht with ⟨hb, _⟩
        exact hb
      have hcur : (buildPrefix tokens tokenVocabIDsMap vocabObjMap aiResult idx).finalTokens[idx]?
          = some (wordTok text) := by
        rw [buildPrefix_tokens tokens tokenVocabIDsMap vocabObjMap aiResult idx (by omega) idx]
        simp [ht]
      rw [buildPrefix_succ]
      exact buildStep_skip_vocab _ _ _ _ idx _ hcur hres
  · refine ⟨_, hat, ?_, ?_, ?_⟩
    · exact (resolvedToken_text tokenVocabIDsMap vocabObjMap aiResult idx (wordTok text)).1
    · exact (resolvedToken_text tokenVocabIDsMap vocabObjMap aiResult idx (wordTok text)).2
    · rw [pairsOf_filter_present]
      exact resolvedToken_candidates tokenVocabIDsMap vocabObjMap aiResult idx text

/-- C22 at the token sequence `猫`, `だ`: with token 0 matched only to the absent `gone`
the token comes back unchanged; with token 0 matched to `id1` and `gone` its candidates
are the two senses of `id1`. -/
theorem hydration_gap_witness :
    ((buildAnalyzeResp nekoTokens goneIDs nekoMap pickSecond).Tokens[0]? = some (wordTok "猫") ∧
      entryOfToken nekoMap (wordTok "猫") = none ∧
      buildPrefix nekoTokens goneIDs nekoMap pickSecond (0 + 1)
        = buildPrefix nekoTokens goneIDs nekoMap pickSecond 0) ∧
    (((nekoIDs 0).getD []).filter (fun vid => (nekoMap vid).isSome) = ["id1"] ∧
      ∃ t2, (buildAnalyzeResp nekoTokens nekoIDs nekoMap pickSecond).Tokens[0]? = some t2 ∧
        t2.Text = "猫" ∧ t2.IsWord = true ∧
        t2.Candidates
          = (pairsOf (((nekoIDs 0).getD []).filter (fun vid => (nekoMap vid).isSome))
              nekoMap).enum.map (fun p =>
                candidateOfPair p.2.1 p.2.2 (decide (p.1 = selectedIndexOf pickSecond 0
                  (pairsOf (((nekoIDs 0).getD []).filter
                    (fun vid => (nekoMap vid).isSome)) nekoMap).length)))) :=
  ⟨(hydration_gap nekoTokens goneIDs nekoMap pickSecond 0 "猫" (by decide)).1 (by
      intro vid hvid v hv
      have hvid2 : vid = "gone" := by
        simpa [goneIDs] using hvid
      subst hvid2
      have hnone : nekoMap "gone" = none := by decide
      rw [hnone] at hv
      exact absurd hv (by simp)),
   by decide,
   (hydration_gap nekoTokens nekoIDs nekoMap pickSecond 0 "猫" (by decide)).2⟩

/-! ## C23 -/

/-- C23. For every token sequence produced by the segmenter and every identifier map,
hydration map and oracle mapping, `buildAnalyzeResp` returns a token list of the same
length whose `i`-th token has the same `Text` and `IsWord` as the `i`-th input token, and
every token with `IsWord = false` carries no `Detail` and no `Candidates`. The input token
list itself is left unchanged: run on a memory whose array at address `a` holds the input
slice, the call returns that same response, and afterwards the array at `a` still holds
the input tokens, as does every array that existed before the call; the returned tokens
lie in a new array. -/
theorem tokens_frame (c : DictCache) (content : String)
    (tokenVocabIDsMap : Nat → Option (List String))
    (vocabObjMap : String → Option Vocab) (aiResult : String → Option Int) :
    (buildAnalyzeResp (segment c content).tokens tokenVocabIDsMap vocabObjMap
        aiResult).Tokens.length = (segment c content).tokens.length ∧
    (∀ (i : Nat) (t : Token), (segment c content).tokens[i]? = some t →
      ∃ t2, (buildAnalyzeResp (segment c content).tokens tokenVocabIDsMap vocabObjMap
          aiResult).Tokens[i]? = some t2 ∧
        t2.Text = t.Text ∧ t2.IsWord = t.IsWord ∧
        (t.IsWord = false → t2.Detail = none ∧ t2.Candidates = [])) ∧
    (∀ (mem : TokenMem) (a : Nat), a < mem.arrays.length →
      mem.read a = (segment c content).tokens →
      (buildAnalyzeRespMem mem a tokenVocabIDsMap vocabObjMap aiResult).2
        = buildAnalyzeResp (segment c content).tokens tokenVocabIDsMap vocabObjMap aiResult ∧
      (buildAnalyzeRespMem mem a tokenVocabIDsMap vocabObjMap aiResult).1.read a
        = (segment c content).tokens ∧
      (∀ b, b < mem.arrays.length →
        (buildAnalyzeRespMem mem a tokenVocabIDsMap vocabObjMap aiResult).1.read b
          = mem.read b) ∧
      (buildAnalyzeRespMem mem a tokenVocabIDsMap vocabObjMap aiResult).1.read mem.arrays.length
        = (buildAnalyzeResp (segment c content).tokens tokenVocabIDsMap vocabObjMap
            aiResult).Tokens) := by
  refine ⟨?_, ?_, ?_⟩
  · rw [buildAnalyzeResp_tokens, List.length_mapIdx]
  · intro i t ht
    refine ⟨_, buildAnalyzeResp_token_at _ _ _ _ i t ht, ?_⟩
    obtain ⟨h1, h2⟩ := resolvedToken_text tokenVocabIDsMap vocabObjMap aiResult i t
    refine ⟨h1, h2, ?_⟩
    intro hlit
    have hres : resolve tokenVocabIDsMap vocabObjMap aiResult i t = none :=
      (resolve_none_iff _ _ _ _ _).2 (Or.inl hlit)
    rw [resolvedToken_of_none _ _ _ _ _ hres]
    exact segment_fresh c content t (List.getElem?_mem ht)
  · intro mem a ha hread
    rw [buildAnalyzeRespMem_eq mem a tokenVocabIDsMap vocabObjMap aiResult ha, hread]
    have hold : ∀ b, b < mem.arrays.length →
        TokenMem.read { arrays := mem.arrays ++
          [(buildAnalyzeResp (segment c content).tokens tokenVocabIDsMap vocabObjMap
            aiResult).Tokens] } b = mem.read b :=
      fun b hb => read_old _ _ b hb
    refine ⟨rfl, ?_, hold, read_last _ _⟩
    rw [hold a ha, hread]

/-- C23 at the lexicon `{"猫"}` and the text `"猫だ"`: the literal token `だ` at index 1 comes
back with the same text, `IsWord = false`, no `Detail` and no `Candidates`; and on the
memory whose only array holds the two input tokens, the call leaves that array as it was
while the returned token 0 carries two candidates. -/
theorem tokens_frame_witness :
    (∃ t2, (buildAnalyzeResp (segment nekoCache "猫だ").tokens nekoIDs nekoMap
        pickSecond).Tokens[1]? = some t2 ∧
      t2.Text = (litTok "だ").Text ∧ t2.IsWord = (litTok "だ").IsWord ∧
      ((litTok "だ").IsWord = false → t2.Detail = none ∧ t2.Candidates = [])) ∧
    (buildAnalyzeRespMem { arrays := [nekoTokens] } 0 nekoIDs nekoMap pickSecond).1.read 0
      = (segment nekoCache "猫だ").tokens ∧
    (segment nekoCache "猫だ").tokens = [wordTok "猫", litTok "だ"] ∧
    ((buildAnalyzeRespMem { arrays := [nekoTokens] } 0 nekoIDs nekoMap pickSecond).2.Tokens.map
        (fun t => t.Candidates.length)) = [2, 0] :=
  ⟨(tokens_frame nekoCache "猫だ" nekoIDs nekoMap pickSecond).2.1 1 (litTok "だ") (by decide),
   ((tokens_frame nekoCache "猫だ" nekoIDs nekoMap pickSecond).2.2 { arrays := [nekoTokens] } 0
      (by decide) (by decide)).2.1,
   by decide, by decide⟩

/-! ## C24 -/

/-- C24. With the request context read as a flag at the two checkpoints: on a well-formed
request, if the flag is set at the first checkpoint the handler makes no oracle call and
the emitted events are exactly `initial`; if it is set at the second checkpoint no
`ai_update` is emitted; and in every run the emitted events are none (rejected body),
`initial` alone, or `initial` followed by one `ai_update`. -/
theorem cancellation_checkpoints (cache : DictCache) (env : Env) :
    (∀ content, env.done1 = true →
      oracleCalls (AnalyzeArticle cache env (some content)) = [] ∧
      eventNames (AnalyzeArticle cache env (some content)) = ["initial"]) ∧
    (∀ content, env.done2 = true →
      "ai_update" ∉ eventNames (AnalyzeArticle cache env (some content)) ∧
      eventNames (AnalyzeArticle cache env (some content)) = ["initial"]) ∧
    (eventNames (AnalyzeArticle cache env none) = []) ∧
    (∀ content, eventNames (AnalyzeArticle cache env (some content)) = ["initial"] ∨
      (eventNames (AnalyzeArticle cache env (some content)) = ["initial", "ai_update"] ∧
        env.done1 = false ∧ env.done2 = false ∧
        (oracleCalls (AnalyzeArticle cache env (some content))).length = 1)) := by
  refine ⟨?_, ?_, ?_, ?_⟩
  · intro content hd
    rcases analyzeArticle_cases cache env content with ⟨r, h, _⟩ | ⟨ids, r, h, _⟩ |
      ⟨ids, r, h, _, hd1, _⟩ | ⟨ids, r, m, h, _, hd1, _⟩
    · rw [h]; simp [oracleCalls, eventNames]
    · rw [h]; simp [oracleCalls, eventNames]
    · rw [hd] at hd1; exact absurd hd1 (by decide)
    · rw [hd] at hd1; exact absurd hd1 (by decide)
  · intro content hd
    rcases analyzeArticle_cases cache env content with ⟨r, h, _⟩ | ⟨ids, r, h, _⟩ |
      ⟨ids, r, h, _, _, _⟩ | ⟨ids, r, m, h, _, _, hd2⟩
    · rw [h]; simp [eventNames]
    · rw [h]; simp [eventNames]
    · rw [h]; simp [eventNames]
    · rw [hd] at hd2; exact absurd hd2 (by decide)
  · simp [AnalyzeArticle, eventNames]
  · intro content
    rcases analyzeArticle_cases cache env content with ⟨r, h, _⟩ | ⟨ids, r, h, _⟩ |
      ⟨ids, r, h, _, _, _⟩ | ⟨ids, r, m, h, _, hd1, hd2⟩
    · left; rw [h]; simp [eventNames]
    · left; rw [h]; simp [eventNames]
    · left; rw [h]; simp [eventNames]
    · right; rw [h]; exact ⟨by simp [eventNames], hd1, hd2, by simp [oracleCalls]⟩

theorem cancellation_checkpoints_witness :
    oracleCalls (AnalyzeArticle nekoCache canceledEnv (some "猫だ")) = [] ∧
    eventNames (AnalyzeArticle nekoCache canceledEnv (some "猫だ")) = ["initial"] ∧
    oracleCalls (AnalyzeArticle nekoCache lateCanceledEnv (some "猫だ")) = [[nekoCandidate]] ∧
    eventNames (AnalyzeArticle nekoCache lateCanceledEnv (some "猫だ")) = ["initial"] ∧
    eventNames (AnalyzeArticle nekoCache nekoEnv (some "猫だ")) = ["initial", "ai_update"] :=
  ⟨((cancellation_checkpoints nekoCache canceledEnv).1 "猫だ" rfl).1,
   ((cancellation_checkpoints nekoCache canceledEnv).1 "猫だ" rfl).2,
   by decide,
   ((cancellation_checkpoints nekoCache lateCanceledEnv).2.1 "猫だ" rfl).2,
   by decide⟩

/-! ## C25 -/

/-- C25 fails on the code. `BatchDisambiguate` returns the `nil` map without issuing a
request when no API key is configured or the batch is empty, and after one request when
`client.Do` fails or the envelope cannot be decoded; with no choice in the envelope it
returns the empty map. But when `json.Unmarshal` of the first choice's content returns an
error the code only logs it and returns `resultMap` as `json.Unmarshal` left it: for the
content `{"token_0": 1, "token_1": "x"}` (in a code fence that `cleanJSON` strips) the
returned map holds `token_0 ↦ 1`. Moreover the error of `http.NewRequestWithContext` is
discarded, so a URL it rejects ends the call with a panic. -/
theorem undecodable_content_keeps_entries :
    (∀ (w : OracleWorld) (candidates : List Candidate),
      w.DEEPSEEK_API_KEY = "" ∨ candidates = [] →
      (BatchDisambiguate w candidates).sent = [] ∧
      (BatchDisambiguate w candidates).outcome = BatchOutcome.ret none) ∧
    (∀ (w : OracleWorld) (candidates : List Candidate),
      w.DEEPSEEK_API_KEY ≠ "" → candidates ≠ [] →
      (w.newRequest (w.DEEPSEEK_BASE_URL ++ "/chat/completions") = false →
        (BatchDisambiguate w candidates).outcome = BatchOutcome.panic) ∧
      (w.newRequest (w.DEEPSEEK_BASE_URL ++ "/chat/completions") = true →
        (BatchDisambiguate w candidates).sent = [reqBody candidates] ∧
        (w.clientDo (reqBody candidates) = none →
          (BatchDisambiguate w candidates).outcome = BatchOutcome.ret none) ∧
        (∀ body, w.clientDo (reqBody candidates) = some body →
          (w.decode body = none →
            (BatchDisambiguate w candidates).outcome = BatchOutcome.ret none) ∧
          (w.decode body = some { Choices := [] } →
            (BatchDisambiguate w candidates).outcome = BatchOutcome.ret (some (fun _ => none))) ∧
          (∀ content rest, w.decode body = some { Choices := content :: rest } →
            (BatchDisambiguate w candidates).outcome
              = BatchOutcome.ret (some (w.unmarshal (cleanJSON content)).1))))) ∧
    cleanJSON fencedReply = "\x7b\"token_0\": 1, \"token_1\": \"x\"\x7d" ∧
    (mistypedWorld.unmarshal (cleanJSON fencedReply)).2 = true ∧
    (∃ m, (BatchDisambiguate mistypedWorld [nekoCandidate]).outcome = BatchOutcome.ret (some m) ∧
      m "token_0" = some 1) := by
  refine ⟨?_, ?_, by decide, by decide, ⟨_, rfl, by decide⟩⟩
  · intro w candidates h
    have h2 : w.DEEPSEEK_API_KEY = "" ∨ candidates.length = 0 := by
      rcases h with h | h
      · exact Or.inl h
      · exact Or.inr (by rw [h]; rfl)
    unfold BatchDisambiguate
    rw [if_pos h2]
    exact ⟨rfl, rfl⟩
  · intro w candidates hk hc
    have h2 : ¬ (w.DEEPSEEK_API_KEY = "" ∨ candidates.length = 0) := by
      intro h
      rcases h with h | h
      · exact hk h
      · exact hc (List.length_eq_zero.1 h)
    constructor
    · intro hreq
      unfold BatchDisambiguate
      rw [if_neg h2]
      simp only [hreq, if_true]
    · intro hreq
      unfold BatchDisambiguate
      rw [if_neg h2]
      simp only [hreq, Bool.true_eq_false, if_false]
      refine ⟨?_, ?_, ?_⟩
      · cases w.clientDo (reqBody candidates) with
        | none => rfl
        | some body =>
          simp only
          cases w.decode body with
          | none => rfl
          | some apiResp =>
            simp only
            cases apiResp.Choices with
            | nil => rfl
            | cons content rest => rfl
      · intro hdo
        rw [hdo]
      · intro body hdo
        rw [hdo]
        refine ⟨?_, ?_, ?_⟩
        · intro hdec
          simp only [hdec]
        · intro hdec
          simp only [hdec]
        · intro content rest hdec
          simp only [hdec]

/-! ## C26 -/

/-- C26 (segmentation is a partition). For every cache value (any `maxLen`) and every text,
the segmentation loop terminates — it leaves with the cursor at the end of the text, and
every fuel of at least `len(runes)` iterations gives the same final state —, every emitted
token has a non-empty `Text`, the token texts concatenated in order are the input
character sequence, and there are at most as many tokens as input characters. -/
theorem segmentation_partition (c : DictCache) (content : String) :
    (segment c content).i = content.data.length ∧
    (∀ fuel, content.data.length ≤ fuel →
      fmmLoop c c.MaxLen content.data fuel
          { i := 0, tokens := [], tokenVocabIDsMap := fun _ => none, allFoundIDs := [] }
        = segment c content) ∧
    (∀ t ∈ (segment c content).tokens, 0 < t.Text.length) ∧
    (segment c content).tokens.flatMap (fun t => t.Text.data) = content.data ∧
    String.join ((segment c content).tokens.map Token.Text) = content ∧
    (segment c content).tokens.length ≤ content.data.length := by
  have hinv := partitionInv_segment c content
  have hcur := segment_cursor c content
  have hflat : (segment c content).tokens.flatMap (fun t => t.Text.data) = content.data := by
    have h := hinv.1.2
    rw [hcur, List.take_length] at h
    exact h
  refine ⟨hcur, ?_, hinv.2, hflat, ?_, ?_⟩
  · intro fuel hfuel
    obtain ⟨extra, hextra⟩ := Nat.exists_eq_add_of_le hfuel
    rw [hextra]
    exact fmmLoop_fuel_stable c c.MaxLen content.data _ (Nat.zero_le _) extra _ (by simp)
  · apply String.ext
    rw [String.data_join, List.map_map]
    exact hflat
  · have h1 := length_le_sum_of_pos _ hinv.2
    have h2 := hinv.1.sum_eq
    rw [hcur] at h2
    omega

/-! ## C27 -/

/-- C27. For every input to `buildAnalyzeResp` whose tokens are as the segmenter builds
them, and every returned token: the token has a `Detail` if and only if its `Candidates`
list is non-empty; and when it is non-empty, the selected index lies inside the list,
exactly one candidate has `Selected = true`, it sits at the selected index, and the
token's `Detail` is present and equal to that candidate (with `Selected = true`). -/
theorem selection_wellformed (tokens : List Token)
    (tokenVocabIDsMap : Nat → Option (List String))
    (vocabObjMap : String → Option Vocab) (aiResult : String → Option Int)
    (hfresh : Fresh tokens) (idx : Nat) (t2 : Token)
    (h : (buildAnalyzeResp tokens tokenVocabIDsMap vocabObjMap aiResult).Tokens[idx]? = some t2) :
    (t2.Detail.isSome = true ↔ t2.Candidates ≠ []) ∧
    (t2.Candidates ≠ [] →
      selectedIndexOf aiResult idx t2.Candidates.length < t2.Candidates.length ∧
      SelectedAt t2 (selectedIndexOf aiResult idx t2.Candidates.length) ∧
      t2.Candidates.countP (fun d => d.Selected) = 1 ∧
      ∃ d, t2.Detail = some d ∧ d.Selected = true ∧
        t2.Candidates[selectedIndexOf aiResult idx t2.Candidates.length]? = some d) := by
  obtain ⟨t, ht, ht2⟩ := buildAnalyzeResp_token_inv _ _ _ _ _ _ h
  subst ht2
  cases hres : resolve tokenVocabIDsMap vocabObjMap aiResult idx t with
  | none =>
    rw [resolvedToken_of_none _ _ _ _ _ hres]
    obtain ⟨hd, hc⟩ := hfresh t (List.getElem?_mem ht)
    rw [hd, hc]
    simp
  | some r =>
    obtain ⟨hlen, hpos⟩ := resolvedToken_length _ _ _ _ _ _ hres
    have hsel := resolve_selectedAt _ _ _ _ _ _ hres
    rw [← hlen] at hsel hpos
    have hlt := selectedIndexOf_lt aiResult idx _ hpos
    have hne : (resolvedToken tokenVocabIDsMap vocabObjMap aiResult idx t).Candidates ≠ [] :=
      fun hnil => by rw [hnil] at hpos; simp at hpos
    refine ⟨⟨fun _ => hne, fun _ => hsel.1⟩, fun _ => ⟨hlt, hsel, ?_, ?_⟩⟩
    · exact countP_selected_one _ _ hlt hsel.2.2
    · obtain ⟨d, hd⟩ := Option.isSome_iff_exists.1 hsel.1
      have hcand := hsel.2.1
      rw [hd] at hcand
      refine ⟨d, hd, ?_, hcand.symm⟩
      have := hsel.2.2 _ d hcand.symm
      simpa using this

/-- C27 at the token sequence `猫`, `だ` with the oracle choosing option 1 for token 0:
token 0 has two candidates, one of them selected, at index 1. -/
theorem selection_wellformed_witness :
    ∃ t2, (buildAnalyzeResp nekoTokens nekoIDs nekoMap pickSecond).Tokens[0]? = some t2 ∧
      t2.Candidates.length = 2 ∧ SelectedAt t2 1 ∧
      t2.Candidates.countP (fun d => d.Selected) = 1 :=
  have hfresh : Fresh nekoTokens := by
    intro t ht
    simp only [nekoTokens, List.mem_cons, List.mem_singleton, List.mem_nil_iff, or_false] at ht
    rcases ht with h | h <;> subst h <;> exact ⟨rfl, rfl⟩
  have hget : (buildAnalyzeResp nekoTokens nekoIDs nekoMap pickSecond).Tokens[0]?
      = some (resolvedToken nekoIDs nekoMap pickSecond 0 (wordTok "猫")) :=
    buildAnalyzeResp_token_at nekoTokens nekoIDs nekoMap pickSecond 0 (wordTok "猫") rfl
  have h := (selection_wellformed nekoTokens nekoIDs nekoMap pickSecond hfresh 0 _ hget).2
    (by decide)
  ⟨_, hget, by decide, h.2.1, h.2.2.1⟩


end Dongwai
